import Mathlib

/-!
# Calculator: exact rational arithmetic and the infix expression evaluator

A shallow embedding of `src/expression.cpp` (with `include/expression.hpp` and the
`Stack<T>` container of `src/stack.cpp`), followed by theorems about it.

Modelling conventions.

* `i64` (`long long`) values are mathematical integers (`Int`): signed overflow is
  undefined behaviour in C++ and every statement below is about runs without it.
* The only narrowing conversion of the source, `static_cast<int>(rhs.numerator)` in
  `apply_operator`, is modelled explicitly by `toInt32` (two's complement wrap-around).
* `std::string` values are lists of characters; a position `index` in the input is
  represented by the character before it (`input[index - 1]`, absent when `index == 0`)
  together with the remaining characters `input[index..]`.
* `Stack<T>` is a list whose head is the top of the stack.
* `throw std::runtime_error(msg)` is `Except.error msg`.
-/

namespace Calculator

/-! ## Fraction -/

/-- The value type `struct Fraction { i64 numerator; i64 denominator; }`. -/
structure Fraction where
  numerator : Int
  denominator : Int
deriving DecidableEq, Repr

deriving instance DecidableEq for Except

/-- The method `Fraction::normalize`: move the sign to the numerator, then divide both
fields by `std::gcd(numerator, denominator)`. C++ `/` on integers truncates (`Int.tdiv`);
`std::gcd` is the non-negative gcd of the absolute values.  For `0/0` the source divides
by zero (undefined behaviour); `Int.tdiv _ 0 = 0` here, and no theorem relies on it. -/
def Fraction.normalize (f : Fraction) : Fraction :=
  let g : Fraction :=
    if f.denominator < 0 then { numerator := -f.numerator, denominator := -f.denominator } else f
  let d : Int := (Int.gcd g.numerator g.denominator : Nat)
  { numerator := g.numerator.tdiv d, denominator := g.denominator.tdiv d }

/-- The constructor `Fraction::Fraction(i64 num, i64 denom)`: store the fields, then
`normalize()`. -/
def Fraction.new (num : Int) (denom : Int) : Fraction :=
  Fraction.normalize { numerator := num, denominator := denom }

/-- The source's `operator+(const Fraction&, const Fraction&)`. -/
def Fraction.add (a b : Fraction) : Fraction :=
  Fraction.new (a.numerator * b.denominator + b.numerator * a.denominator)
    (a.denominator * b.denominator)

/-- The source's unary `Fraction::operator-() const`. -/
def Fraction.neg (a : Fraction) : Fraction :=
  Fraction.new (-a.numerator) a.denominator

/-- The source's `operator-(const Fraction&, const Fraction&)`. -/
def Fraction.sub (a b : Fraction) : Fraction :=
  Fraction.new (a.numerator * b.denominator - b.numerator * a.denominator)
    (a.denominator * b.denominator)

/-- The source's `operator*(const Fraction&, const Fraction&)`. -/
def Fraction.mul (a b : Fraction) : Fraction :=
  Fraction.new (a.numerator * b.numerator) (a.denominator * b.denominator)

/-- The source's `operator/(const Fraction&, const Fraction&)`; throws on a zero divisor. -/
def Fraction.div (a b : Fraction) : Except String Fraction :=
  if b.numerator = 0 then
    .error "division by zero"
  else
    .ok (Fraction.new (a.numerator * b.denominator) (a.denominator * b.numerator))

/-- The `while (exponent)` loop of `operator^`.  The first argument bounds the number of
iterations; the loop halves a positive `exponent` each round, so `exponent` rounds are
always enough (see `pow_loop_ofRat`). -/
def pow_loop : Nat → Int → Fraction → Fraction → Fraction
  | 0, _, result, _ => result
  | fuel + 1, exponent, result, factor =>
    if exponent ≠ 0 then
      let result := if Int.land exponent 1 ≠ 0 then result.mul factor else result
      let factor := if exponent > 1 then factor.mul factor else factor
      pow_loop fuel (exponent >>> 1) result factor
    else
      result

/-- The source's `operator^(const Fraction &base, int exponent)`. -/
def Fraction.pow (base : Fraction) (exponent : Int) : Except String Fraction :=
  if exponent = 0 then
    .ok (Fraction.new 1 1)
  else if base.numerator = 0 ∧ exponent < 0 then
    .error "zero cannot be raised to negative power"
  else
    let result := Fraction.new 1 1
    if exponent < 0 then
      let factor := Fraction.new base.denominator base.numerator
      let exponent := -exponent
      .ok (pow_loop exponent.toNat exponent result factor)
    else
      .ok (pow_loop exponent.toNat exponent result base)


/-! ## Expression evaluator -/

/-- The library predicate `std::isspace` in the default "C" locale. -/
def isspace (ch : Char) : Bool :=
  ch = ' ' || ch = '\t' || ch = '\n' || ch = '\x0b' || ch = '\x0c' || ch = '\r'

/-- The library predicate `std::isdigit`. -/
def isdigit (ch : Char) : Bool :=
  '0' ≤ ch && ch ≤ '9'

/-- The source's `remove_spaces`: copy every character that is not white space. -/
def remove_spaces (expr : List Char) : List Char :=
  expr.filter (fun ch => !isspace ch)

/-- The source's `precedence`. -/
def precedence (op : Char) : Except String Int :=
  if op = '+' ∨ op = '-' then .ok 1
  else if op = '*' ∨ op = '/' then .ok 2
  else if op = '^' then .ok 3
  else .error "unknown operator"

/-- The source's `is_unary(op, input, index)`; `prev` is `input[index - 1]`, and `none`
when `index == 0`. -/
def is_unary (op : Char) (prev : Option Char) : Bool :=
  (op = '+' || op = '-') &&
    (prev = none || prev = some '(' || prev = some '+' || prev = some '-' ||
      prev = some '*' || prev = some '/' || prev = some '^')

/-- The source's `is_right_associative`. -/
def is_right_associative (op : Char) : Bool :=
  op = '^'

/-- The `while` loop of `parse_integer`: consume digits, accumulating the value.  Returns
the value, the last character consumed and the rest of the text. -/
def parse_digits : Option Char → List Char → Int → Int × Option Char × List Char
  | prev, [], value => (value, prev, [])
  | prev, ch :: text, value =>
    if isdigit ch then
      parse_digits (some ch) text (value * 10 + ((ch.toNat : Int) - ('0'.toNat : Int)))
    else
      (value, prev, ch :: text)

/-- The source's `parse_integer(text, index)`. -/
def parse_integer (prev : Option Char) (text : List Char) :
    Except String (Int × Option Char × List Char) :=
  match text with
  | [] => .error "expected digit"
  | ch :: _ =>
    if !isdigit ch then .error "expected digit"
    else .ok (parse_digits prev text 0)

/-- The conversion `static_cast<int>(x)` of an `i64` to a 32-bit `int`. -/
def toInt32 (x : Int) : Int :=
  (x + 2147483648) % 4294967296 - 2147483648

/-- The source's `apply_operator(values, op)`. -/
def apply_operator (values : List Fraction) (op : Char) : Except String (List Fraction) :=
  match values with
  | rhs :: lhs :: values =>
    if op = '+' then .ok (lhs.add rhs :: values)
    else if op = '-' then .ok (lhs.sub rhs :: values)
    else if op = '*' then .ok (lhs.mul rhs :: values)
    else if op = '/' then
      match lhs.div rhs with
      | .ok v => .ok (v :: values)
      | .error e => .error e
    else if op = '^' then
      if rhs.denominator ≠ 1 then .error "exponent must be integer"
      else
        match lhs.pow (toInt32 rhs.numerator) with
        | .ok v => .ok (v :: values)
        | .error e => .error e
    else .error "unknown operator"
  | _ => .error "insufficient operands"

/-- The source's `process_operator(values, operators, op)`. -/
def process_operator :
    List Fraction → List Char → Char → Except String (List Fraction × List Char)
  | values, [], op => .ok (values, [op])
  | values, top :: operators, op =>
    if top = '(' then .ok (values, op :: top :: operators)
    else
      match precedence top with
      | .error e => .error e
      | .ok top_prec =>
        match precedence op with
        | .error e => .error e
        | .ok op_prec =>
          if top_prec > op_prec ∨ (top_prec = op_prec ∧ !is_right_associative op) then
            match apply_operator values top with
            | .error e => .error e
            | .ok values => process_operator values operators op
          else .ok (values, op :: top :: operators)

/-- The source's `collapse(values, operators)`. -/
def collapse : List Fraction → List Char → Except String (List Fraction × List Char)
  | _, [] => .error "missing opening parenthesis"
  | values, top :: operators =>
    if top ≠ '(' then
      match apply_operator values top with
      | .error e => .error e
      | .ok values => collapse values operators
    else .ok (values, operators)

/-- The inner `while` loop of `expression_evaluate` over a run of sign characters.
Returns the number of minus signs, the last character consumed and the rest. -/
def sign_run : Option Char → List Char → Nat → Except String (Nat × Option Char × List Char)
  | prev, [], count => .ok (count, prev, [])
  | prev, ch :: input, count =>
    if ch = '+' ∨ ch = '-' then
      let count := if ch = '-' then count + 1 else count
      if prev = some '*' ∨ prev = some '/' ∨ prev = some '^' then
        .error "invalid use of unary operator after '*', '/' or '^'"
      else sign_run (some ch) input count
    else .ok (count, prev, ch :: input)

/-- The main `while (index < input.size())` loop of `expression_evaluate`.  The first
argument bounds the number of iterations; every iteration consumes at least one
character, so `input.size()` iterations are always enough (see `eval_loop_fuel`). -/
def eval_loop : Nat → Option Char → List Char → List Fraction → List Char →
    Except String (List Fraction × List Char)
  | _, _, [], values, operators => .ok (values, operators)
  | 0, _, _ :: _, _, _ => .error "iteration bound exceeded"
  | fuel + 1, prev, ch :: input, values, operators =>
    if isdigit ch then
      match parse_integer prev (ch :: input) with
      | .error e => .error e
      | .ok (number, prev, input) =>
        eval_loop fuel prev input (Fraction.new number 1 :: values) operators
    else if ch = '(' then
      eval_loop fuel (some ch) input values ('(' :: operators)
    else if ch = ')' then
      match collapse values operators with
      | .error e => .error e
      | .ok (values, operators) => eval_loop fuel (some ch) input values operators
    else if is_unary ch prev then
      match sign_run prev (ch :: input) 0 with
      | .error e => .error e
      | .ok (count, prev, input) =>
        match process_operator (Fraction.new 0 1 :: values) operators
            (if count % 2 = 0 then '+' else '-') with
        | .error e => .error e
        | .ok (values, operators) => eval_loop fuel prev input values operators
    else
      match process_operator values operators ch with
      | .error e => .error e
      | .ok (values, operators) => eval_loop fuel (some ch) input values operators

/-- The final `while (!operators.empty())` loop of `expression_evaluate`. -/
def drain : List Fraction → List Char → Except String (List Fraction)
  | values, [] => .ok values
  | values, op :: operators =>
    if op = '(' ∨ op = ')' then .error "mismatched parentheses"
    else
      match apply_operator values op with
      | .error e => .error e
      | .ok values => drain values operators

/-- The part of `expression_evaluate` after white space is removed. -/
def evaluate_input (input : List Char) : Except String Fraction :=
  if input = [] then .error "expression is empty"
  else
    match eval_loop input.length none input [] [] with
    | .error e => .error e
    | .ok (values, operators) =>
      match drain values operators with
      | .error e => .error e
      | .ok [value] => .ok value
      | .ok _ => .error "malformed expression"

/-- The source's `expression_evaluate(expr)`. -/
def expression_evaluate (expr : String) : Except String Fraction :=
  evaluate_input (remove_spaces expr.toList)

/-! ## Specification-side notions for `Fraction` -/

/-- Normal form of a `Fraction`: positive denominator and lowest terms. -/
def Fraction.Normal (f : Fraction) : Prop :=
  0 < f.denominator ∧ Int.gcd f.numerator f.denominator = 1

instance (f : Fraction) : Decidable f.Normal := by
  unfold Fraction.Normal; exact inferInstance

/-- The rational number `numerator / denominator` denoted by a `Fraction`. -/
def Fraction.val (f : Fraction) : ℚ :=
  (f.numerator : ℚ) / (f.denominator : ℚ)

/-- The normal-form `Fraction` of a rational number. -/
def Fraction.ofRat (q : ℚ) : Fraction :=
  { numerator := q.num, denominator := q.den }

/-- Repeated multiplication: the product of `n` copies of `a`, starting from `1/1`. -/
def Fraction.npow (a : Fraction) : Nat → Fraction
  | 0 => Fraction.new 1 1
  | n + 1 => (Fraction.npow a n).mul a


/-! ## Auxiliary definitions for reasoning about the evaluator -/

/-- Lines 264-275 of `expression_evaluate`: drain the operator stack, then require exactly
one operand. -/
def finish (values : List Fraction) (operators : List Char) : Except String Fraction :=
  match drain values operators with
  | .error e => .error e
  | .ok [value] => .ok value
  | .ok _ => .error "malformed expression"

/-- The evaluator resumed in the middle of the input: the main loop from the given
position and stacks (with the iteration bound `input.length`), followed by `finish`. -/
def run (prev : Option Char) (input : List Char) (values : List Fraction)
    (operators : List Char) : Except String Fraction :=
  match eval_loop input.length prev input values operators with
  | .error e => .error e
  | .ok (values, operators) => finish values operators

/-- The value computed by `apply_operator` for operator `op` on operands `lhs` and `rhs`
(the `switch` of the source, without the stack traffic). -/
def binop (op : Char) (lhs rhs : Fraction) : Except String Fraction :=
  if op = '+' then .ok (lhs.add rhs)
  else if op = '-' then .ok (lhs.sub rhs)
  else if op = '*' then .ok (lhs.mul rhs)
  else if op = '/' then lhs.div rhs
  else if op = '^' then
    if rhs.denominator ≠ 1 then .error "exponent must be integer"
    else lhs.pow (toInt32 rhs.numerator)
  else .error "unknown operator"

/-! ## Syntax trees and their standard reading -/

/-- Value of a decimal digit character. -/
def digit_value (ch : Char) : Nat :=
  ch.toNat - '0'.toNat

/-- The natural number written by a string of decimal digits, most significant first. -/
def literal_value (ds : List Char) : Nat :=
  Nat.ofDigits 10 (ds.reverse.map digit_value)

/-- An integer literal: a non-empty string of decimal digits. -/
def is_literal (ds : List Char) : Prop :=
  ds ≠ [] ∧ ∀ ch ∈ ds, isdigit ch = true

/-- The five binary operator characters. -/
def is_binary_operator (op : Char) : Prop :=
  op = '+' ∨ op = '-' ∨ op = '*' ∨ op = '/' ∨ op = '^'

/-- Binding strength of a binary operator in the standard reading: `+ -` bind weakest
(1), then `* /` (2), then `^` (3). -/
def level (op : Char) : Nat :=
  if op = '+' ∨ op = '-' then 1 else if op = '*' ∨ op = '/' then 2 else 3

/-- Expression trees `E ::= literal | (E) | E op E`. -/
inductive Ast where
  | lit (ds : List Char)
  | paren (e : Ast)
  | bin (op : Char) (l r : Ast)
deriving DecidableEq, Repr

/-- The text of a tree: its tokens in order, without white space. -/
def Ast.print : Ast → List Char
  | .lit ds => ds
  | .paren e => '(' :: (e.print ++ [')'])
  | .bin op l r => l.print ++ op :: r.print

/-- Trees of the grammar `E ::= literal | (E) | E+E | E-E | E*E | E/E | E^E`. -/
def Ast.Valid : Ast → Prop
  | .lit ds => is_literal ds
  | .paren e => e.Valid
  | .bin op l r => is_binary_operator op ∧ l.Valid ∧ r.Valid

/-- `t.Std k`: `t` is a parse tree of the standard precedence grammar whose top-level
operators all bind at least as tightly as level `k` (1 expression, 2 term, 3 power,
4 atom).  A left-associative operator of level `p` has a left operand of level `p` and a
right operand of level `p + 1`; the right-associative `^` has an atom on the left and a
power on the right; the inside of parentheses is an expression. -/
def Ast.Std : Nat → Ast → Prop
  | _, .lit ds => is_literal ds
  | _, .paren e => Ast.Std 1 e
  | k, .bin op l r =>
    is_binary_operator op ∧ k ≤ level op ∧
      (if op = '^' then Ast.Std 4 l ∧ Ast.Std 3 r
       else Ast.Std (level op) l ∧ Ast.Std (level op + 1) r)

/-- Evaluation of a tree with the `Fraction` operators of the source, left operand
first, as `apply_operator` applies them. -/
def Ast.eval : Ast → Except String Fraction
  | .lit ds => .ok (Fraction.new (literal_value ds) 1)
  | .paren e => e.eval
  | .bin op l r =>
    match l.eval with
    | .error m => .error m
    | .ok a =>
      match r.eval with
      | .error m => .error m
      | .ok b => binop op a b

/-- The mathematical value of a tree in `ℚ`, undefined (`none`) on a zero divisor, on an
exponent that is not an integer, and on a zero base with a negative exponent. -/
def Ast.value : Ast → Option ℚ
  | .lit ds => some (literal_value ds : ℚ)
  | .paren e => e.value
  | .bin op l r =>
    match l.value with
    | none => none
    | some a =>
      match r.value with
      | none => none
      | some b =>
        if op = '+' then some (a + b)
        else if op = '-' then some (a - b)
        else if op = '*' then some (a * b)
        else if op = '/' then (if b = 0 then none else some (a / b))
        else if b.den ≠ 1 then none
        else if a = 0 ∧ b.num < 0 then none
        else some (a ^ b.num)

/-- Every exponent occurring in the tree (the value of a right operand of `^`, when it is
an integer) fits the `int` parameter of `operator^` and so does its negation. -/
def Ast.ExpFits : Ast → Prop
  | .lit _ => True
  | .paren e => e.ExpFits
  | .bin op l r =>
    l.ExpFits ∧ r.ExpFits ∧
      (op = '^' → ∀ b, r.value = some b → b.den = 1 →
        -2147483648 < b.num ∧ b.num < 2147483648)

/-- Last character of a non-empty string, given its first character and the rest. -/
def last_char : Char → List Char → Char
  | ch, [] => ch
  | _, ch :: text => last_char ch text

/-- The last character of the text of a tree. -/
def Ast.lastc : Ast → Char
  | .lit [] => '0'
  | .lit (ch :: ds) => last_char ch ds
  | .paren _ => ')'
  | .bin _ _ r => r.lastc

/-- A character that ends an operand: a digit or a closing parenthesis. -/
def operand_end (ch : Char) : Prop :=
  isdigit ch = true ∨ ch = ')'

/-- The operator stack does not interfere with a tree of level `k`: it is empty, or its
top is `(`, or its top binds more loosely than every top-level operator of the tree. -/
def ctx_ok (k : Nat) : List Char → Prop
  | [] => True
  | top :: _ => top = '(' ∨ (is_binary_operator top ∧ (level top < k ∨ (top = '^' ∧ 3 ≤ k)))

/-- The rest of the input ends a tree of level `k`: it is empty, or starts with `)`, or
starts with an operator that makes the evaluator apply every pending operator of level
at least `k`. -/
def delim (k : Nat) : List Char → Prop
  | [] => True
  | d :: _ => d = ')' ∨ (is_binary_operator d ∧ (level d < k ∨ (level d = k ∧ d ≠ '^')))

/-- The errors of the `Fraction` operators and of `^` in `apply_operator`: the ways in
which the value of an expression can be undefined. -/
def domain_errors : List String :=
  ["division by zero", "exponent must be integer", "zero cannot be raised to negative power"]

/-- Extend a standard parse tree `t` on the right by `op a`, where `a` is an atom: walk
down the right spine while the operator there binds more loosely than `op` (or both are
the right-associative `^`), and insert `op` there. -/
def Ast.snoc : Ast → Char → Ast → Ast
  | .bin o l r, op, a =>
    if level o < level op ∨ (o = '^' ∧ op = '^') then .bin o l (Ast.snoc r op a)
    else .bin op (.bin o l r) a
  | .lit ds, op, a => .bin op (.lit ds) a
  | .paren e, op, a => .bin op (.paren e) a

/-- Standard parse of the text of a tree.  `build none e` parses the text of `e`;
`build (some (t, op)) e` parses the text of `t`, then `op`, then the text of `e`, given
the standard parse `t` of the part read so far. -/
def Ast.build : Option (Ast × Char) → Ast → Ast
  | none, .lit ds => .lit ds
  | none, .paren e => .paren (Ast.build none e)
  | none, .bin o l r => Ast.build (some (Ast.build none l, o)) r
  | some (t, op), .lit ds => t.snoc op (.lit ds)
  | some (t, op), .paren e => t.snoc op (.paren (Ast.build none e))
  | some (t, op), .bin o l r => Ast.build (some (Ast.build (some (t, op)) l, o)) r

/-- The standard parse tree of the text of `e`: precedence `^` over `* /` over `+ -`,
`^` right-associative, the others left-associative. -/
def Ast.reparse (e : Ast) : Ast :=
  Ast.build none e

instance (ds : List Char) : Decidable (is_literal ds) := by
  unfold is_literal; exact inferInstance

instance (op : Char) : Decidable (is_binary_operator op) := by
  unfold is_binary_operator; exact inferInstance

/-- Decision procedure for `Ast.Valid`. -/
def Ast.decValid : (e : Ast) → Decidable e.Valid
  | .lit ds => inferInstanceAs (Decidable (is_literal ds))
  | .paren e => Ast.decValid e
  | .bin op l r =>
    have := Ast.decValid l
    have := Ast.decValid r
    inferInstanceAs (Decidable (is_binary_operator op ∧ l.Valid ∧ r.Valid))

instance (e : Ast) : Decidable e.Valid := Ast.decValid e

/-- Decision procedure for `Ast.Std`. -/
def Ast.decStd : (t : Ast) → (k : Nat) → Decidable (t.Std k)
  | .lit ds, _ => inferInstanceAs (Decidable (is_literal ds))
  | .paren e, _ => Ast.decStd e 1
  | .bin op l r, k =>
    have := Ast.decStd l 4
    have := Ast.decStd r 3
    have := Ast.decStd l (level op)
    have := Ast.decStd r (level op + 1)
    inferInstanceAs (Decidable (is_binary_operator op ∧ k ≤ level op ∧
      (if op = '^' then Ast.Std 4 l ∧ Ast.Std 3 r
       else Ast.Std (level op) l ∧ Ast.Std (level op + 1) r)))

instance (t : Ast) (k : Nat) : Decidable (t.Std k) := Ast.decStd t k

/-- An example tree of the ambiguous grammar: `(1+2) * (3 ^ (2 / (6 - 10)))` written
without the outer grouping, that is with the text `(1+2)*3^2/6-10`. -/
def example_tree : Ast :=
  .bin '*' (.paren (.bin '+' (.lit ['1']) (.lit ['2'])))
    (.bin '^' (.lit ['3']) (.bin '/' (.lit ['2']) (.bin '-' (.lit ['6']) (.lit ['1', '0']))))

/-- The standard parse of the text of `example_tree`: `((((1+2) * (3^2)) / 6) - 10)`. -/
def example_parse : Ast :=
  .bin '-' (.bin '/' (.bin '*' (.paren (.bin '+' (.lit ['1']) (.lit ['2'])))
    (.bin '^' (.lit ['3']) (.lit ['2']))) (.lit ['6'])) (.lit ['1', '0'])

/-! ## Auxiliary definitions for the rejection of malformed input -/

/-- Every message of a `std::runtime_error` thrown in `expression.cpp`. -/
def source_errors : List String :=
  ["unknown operator", "expected digit", "insufficient operands", "exponent must be integer",
   "missing opening parenthesis", "division by zero",
   "zero cannot be raised to negative power", "expression is empty",
   "invalid use of unary operator after '*', '/' or '^'", "mismatched parentheses",
   "malformed expression"]

/-- Nesting depth of the parentheses after reading `input` at depth `depth`; `none` when
some `)` has no `(` to close. -/
def paren_depth : Nat → List Char → Option Nat
  | depth, [] => some depth
  | depth, ch :: input =>
    if ch = '(' then paren_depth (depth + 1) input
    else if ch = ')' then (if depth = 0 then none else paren_depth (depth - 1) input)
    else paren_depth depth input

/-- Some `+` or `-` of `input` stands immediately after a `*`, `/` or `^`, where `prev` is
the character in front of `input`. -/
def sign_after_operator : Option Char → List Char → Bool
  | _, [] => false
  | prev, ch :: input =>
    (decide (ch = '+' ∨ ch = '-') &&
      decide (prev = some '*' ∨ prev = some '/' ∨ prev = some '^')) ||
    sign_after_operator (some ch) input

/-- The characters of the expression language: digits, the five operators and the two
parentheses. -/
def known_char (ch : Char) : Prop :=
  isdigit ch = true ∨ ch = '+' ∨ ch = '-' ∨ ch = '*' ∨ ch = '/' ∨ ch = '^' ∨ ch = '(' ∨ ch = ')'

instance (ch : Char) : Decidable (known_char ch) := by
  unfold known_char; exact inferInstance

/-! ## Stack

The class template `Stack<T>` of `include/stack.hpp` and `src/stack.cpp`.  The heap
buffer `data_` is a list of `capacity_` slots (`nullptr` is the empty list); slots at and
above `size_` hold stale or default values.  A member function that can throw returns
its outcome together with the state of the object afterwards. -/

/-- The data members of `Stack<T>`. -/
structure Stack (α : Type) where
  data_ : List α
  size_ : Nat
  capacity_ : Nat
deriving DecidableEq, Repr

/-- The constant `Stack<T>::DEFAULT_CAPACITY`. -/
def DEFAULT_CAPACITY : Nat := 8

/-- The source's `allocate<T>(capacity)`: `nullptr` for 0, else `new T[capacity]`. -/
def allocate {α : Type} [Inhabited α] (capacity : Nat) : List α :=
  if capacity = 0 then [] else List.replicate capacity default

/-- The loop `for (i = 0; i < n; ++i) dst[i] = src[i];` used by the copy constructor,
copy assignment and `ensure_capacity`. -/
def copy_elements {α : Type} [Inhabited α] (dst src : List α) : Nat → List α
  | 0 => dst
  | i + 1 => (copy_elements dst src i).set i (src.getD i default)

/-- The default constructor `Stack<T>::Stack()`. -/
def Stack.new {α : Type} [Inhabited α] : Stack α :=
  { data_ := allocate DEFAULT_CAPACITY, size_ := 0, capacity_ := DEFAULT_CAPACITY }

/-- The constructor `Stack<T>::Stack(std::size_t initial_capacity)`. -/
def Stack.with_capacity {α : Type} [Inhabited α] (initial_capacity : Nat) : Stack α :=
  let capacity := if initial_capacity = 0 then DEFAULT_CAPACITY else initial_capacity
  { data_ := allocate capacity, size_ := 0, capacity_ := capacity }

/-- The copy constructor `Stack<T>::Stack(const Stack &other)`. -/
def Stack.copy {α : Type} [Inhabited α] (other : Stack α) : Stack α :=
  { data_ := copy_elements (allocate other.capacity_) other.data_ other.size_,
    size_ := other.size_, capacity_ := other.capacity_ }

/-- The move constructor `Stack<T>::Stack(Stack &&other)`: the new object and the state
in which `other` is left. -/
def Stack.move {α : Type} (other : Stack α) : Stack α × Stack α :=
  ({ data_ := other.data_, size_ := other.size_, capacity_ := other.capacity_ },
   { data_ := [], size_ := 0, capacity_ := 0 })

/-- Copy assignment `operator=(const Stack &other)` for `this != &other` (for
`this == &other` the source returns at once and nothing changes). -/
def Stack.copy_assign {α : Type} [Inhabited α] (self other : Stack α) : Stack α :=
  let self : Stack α :=
    if other.size_ > self.capacity_ then
      let capacity := if other.capacity_ < other.size_ then other.size_ else other.capacity_
      { data_ := allocate capacity, size_ := self.size_, capacity_ := capacity }
    else self
  { data_ := copy_elements self.data_ other.data_ other.size_, size_ := other.size_,
    capacity_ := self.capacity_ }

/-- Move assignment `operator=(Stack &&other)` for `this != &other`: the object and the
state in which `other` is left. -/
def Stack.move_assign {α : Type} (_self other : Stack α) : Stack α × Stack α :=
  ({ data_ := other.data_, size_ := other.size_, capacity_ := other.capacity_ },
   { data_ := [], size_ := 0, capacity_ := 0 })

/-- The loop `while (new_capacity < min_capacity) new_capacity *= 2;` of
`ensure_capacity`, with a bound on the number of iterations (`min_capacity` rounds are
enough for a start value of at least 1, see `grow_capacity_ge`). -/
def grow_capacity : Nat → Nat → Nat → Nat
  | 0, new_capacity, _ => new_capacity
  | fuel + 1, new_capacity, min_capacity =>
    if new_capacity < min_capacity then grow_capacity fuel (new_capacity * 2) min_capacity
    else new_capacity

/-- The source's `Stack<T>::ensure_capacity(min_capacity)`. -/
def Stack.ensure_capacity {α : Type} [Inhabited α] (self : Stack α) (min_capacity : Nat) :
    Stack α :=
  if self.capacity_ ≥ min_capacity then self
  else
    let new_capacity := if self.capacity_ = 0 then DEFAULT_CAPACITY else self.capacity_
    let new_capacity := grow_capacity min_capacity new_capacity min_capacity
    { data_ := copy_elements (allocate new_capacity) self.data_ self.size_,
      size_ := self.size_, capacity_ := new_capacity }

/-- The source's `Stack<T>::push(value)`. -/
def Stack.push {α : Type} [Inhabited α] (self : Stack α) (value : α) : Stack α :=
  let self := self.ensure_capacity (self.size_ + 1)
  { data_ := self.data_.set self.size_ value, size_ := self.size_ + 1,
    capacity_ := self.capacity_ }

/-- The source's `Stack<T>::pop()`: the returned element or the exception, and the state
afterwards. -/
def Stack.pop {α : Type} [Inhabited α] (self : Stack α) : Except String α × Stack α :=
  if self.size_ = 0 then (.error "stack underflow", self)
  else
    (.ok (self.data_.getD (self.size_ - 1) default),
     { data_ := self.data_, size_ := self.size_ - 1, capacity_ := self.capacity_ })

/-- The source's `Stack<T>::top() const`. -/
def Stack.top {α : Type} [Inhabited α] (self : Stack α) : Except String α × Stack α :=
  if self.size_ = 0 then (.error "stack is empty", self)
  else (.ok (self.data_.getD (self.size_ - 1) default), self)

/-- The source's `Stack<T>::empty() const`. -/
def Stack.empty {α : Type} (self : Stack α) : Bool :=
  self.size_ = 0

/-- The source's `Stack<T>::size() const`. -/
def Stack.size {α : Type} (self : Stack α) : Nat :=
  self.size_

/-- The source's `Stack<T>::clear()`. -/
def Stack.clear {α : Type} (self : Stack α) : Stack α :=
  { data_ := self.data_, size_ := 0, capacity_ := self.capacity_ }

/-- The valid elements of a stack, bottom first: slots `[0, size_)` of the buffer. -/
def Stack.elements {α : Type} (self : Stack α) : List α :=
  self.data_.take self.size_

/-- Well-formed stack object: the buffer has `capacity_` slots and `size_ ≤ capacity_`. -/
def Stack.WF {α : Type} (self : Stack α) : Prop :=
  self.size_ ≤ self.capacity_ ∧ self.data_.length = self.capacity_

instance {α : Type} (s : Stack α) : Decidable s.WF := by
  unfold Stack.WF; exact inferInstance

/-- Push the elements of `xs` in order. -/
def Stack.push_all {α : Type} [Inhabited α] (self : Stack α) (xs : List α) : Stack α :=
  xs.foldl Stack.push self

/-- Call `pop()` `n` times: the outcomes in order and the final state. -/
def Stack.pop_n {α : Type} [Inhabited α] : Nat → Stack α → List (Except String α) × Stack α
  | 0, self => ([], self)
  | n + 1, self =>
    ((self.pop).1 :: (Stack.pop_n n (self.pop).2).1, (Stack.pop_n n (self.pop).2).2)

/-- A moved-from stack: the state in which the move constructor leaves its argument. -/
def moved_from_stack : Stack Nat :=
  (Stack.move (Stack.new : Stack Nat)).2

/-! ## Polynomial

The structures `PolyTerm` and `Polynomial` of `include/polynomial.hpp` and the functions
of `src/polynomial.cpp`.  A `double` is read as an exact rational number (`ℚ`): rounding,
infinities and NaN are outside the model.  An `int` exponent is a mathematical integer.
The singly linked list starting at `head` is a list of terms. -/

/-- The fields `coefficient` and `exponent` of `struct PolyTerm` (`next` is the tail of
the list). -/
structure PolyTerm where
  coefficient : ℚ
  exponent : Int
deriving DecidableEq, Repr

/-- The structure `struct Polynomial { PolyTerm *head; }`. -/
structure Polynomial where
  head : List PolyTerm
deriving DecidableEq, Repr

/-- The constant `EPSILON = 1e-9`. -/
def EPSILON : ℚ := 1 / 1000000000

/-- The source's `is_zero(value)`: `std::abs(value) < EPSILON`. -/
def is_zero (value : ℚ) : Bool :=
  decide (|value| < EPSILON)

/-- The source's `copy_terms(source)`: a fresh list with the same terms. -/
def copy_terms : List PolyTerm → List PolyTerm
  | [] => []
  | source :: next => { coefficient := source.coefficient, exponent := source.exponent } ::
      copy_terms next

/-- The part of `insert_term` after the test of the coefficient: walk down the list
while the exponent there is larger, then merge into a term of the same exponent (and
unlink it when the sum is zero) or link a new node in front of the first smaller one. -/
def insert_walk : List PolyTerm → ℚ → Int → List PolyTerm
  | [], coefficient, exponent => [{ coefficient := coefficient, exponent := exponent }]
  | current :: next, coefficient, exponent =>
    if current.exponent > exponent then
      current :: insert_walk next coefficient exponent
    else if current.exponent = exponent then
      if is_zero (current.coefficient + coefficient) then next
      else { coefficient := current.coefficient + coefficient, exponent := current.exponent } ::
        next
    else
      { coefficient := coefficient, exponent := exponent } :: current :: next

/-- The source's `insert_term(head, coefficient, exponent)`. -/
def insert_term (head : List PolyTerm) (coefficient : ℚ) (exponent : Int) : List PolyTerm :=
  if is_zero coefficient then head else insert_walk head coefficient exponent

/-- The `while (exp)` loop of `power`, with a bound on the number of iterations (`exp`
rounds are enough, see `power_loop_eq`). -/
def power_loop : Nat → ℚ → Int → ℚ → ℚ
  | 0, _, _, result => result
  | fuel + 1, base, exp, result =>
    if exp ≠ 0 then
      power_loop fuel (base * base) (exp >>> 1)
        (if Int.land exp 1 ≠ 0 then result * base else result)
    else result

/-- The source's `power(base, exp)`. -/
def power (base : ℚ) (exp : Int) : ℚ :=
  if exp < 0 then power_loop (-exp).toNat (1 / base) (-exp) 1
  else power_loop exp.toNat base exp 1

/-- The default constructor `Polynomial::Polynomial()`. -/
def Polynomial.new : Polynomial :=
  { head := [] }

/-- The copy constructor `Polynomial::Polynomial(const Polynomial &other)`. -/
def Polynomial.copy (other : Polynomial) : Polynomial :=
  { head := copy_terms other.head }

/-- The source's `Polynomial::addTerm(coefficient, exponent)`. -/
def Polynomial.addTerm (self : Polynomial) (coefficient : ℚ) (exponent : Int) : Polynomial :=
  { head := insert_term self.head coefficient exponent }

/-- The source's `Polynomial::operator+=(other)`. -/
def Polynomial.add_assign (self other : Polynomial) : Polynomial :=
  { head := other.head.foldl (fun head node => insert_term head node.coefficient node.exponent)
      self.head }

/-- The source's unary `Polynomial::operator-() const`. -/
def Polynomial.neg (self : Polynomial) : Polynomial :=
  { head := self.head.foldl
      (fun head node => insert_term head (-node.coefficient) node.exponent) [] }

/-- The source's `Polynomial::operator-=(other)`: `*this += (-other)`. -/
def Polynomial.sub_assign (self other : Polynomial) : Polynomial :=
  self.add_assign other.neg

/-- The source's `operator+(a, b)`: `result = a; return result += b;`. -/
def Polynomial.add (a b : Polynomial) : Polynomial :=
  a.copy.add_assign b

/-- The source's `operator-(a, b)`: `result = a; return result -= b;`. -/
def Polynomial.sub (a b : Polynomial) : Polynomial :=
  a.copy.sub_assign b

/-- The source's `operator*(a, b)`. -/
def Polynomial.mul (a b : Polynomial) : Polynomial :=
  { head := a.head.foldl (fun head pa =>
      b.head.foldl (fun head pb =>
        insert_term head (pa.coefficient * pb.coefficient) (pa.exponent + pb.exponent)) head) [] }

/-- The source's `Polynomial::operator*=(other)`. -/
def Polynomial.mul_assign (self other : Polynomial) : Polynomial :=
  self.mul other

/-- The source's `Polynomial::evaluate(x)`. -/
def Polynomial.evaluate (self : Polynomial) (x : ℚ) : ℚ :=
  self.head.foldl (fun result node => result + node.coefficient * power x node.exponent) 0

/-- The source's `Polynomial::derivative()`. -/
def Polynomial.derivative (self : Polynomial) : Polynomial :=
  { head := self.head.foldl (fun head node =>
      if node.exponent ≠ 0 then
        insert_term head (node.coefficient * (node.exponent : ℚ)) (node.exponent - 1)
      else head) [] }

/-! ### Specification-side notions for polynomials -/

/-- The term list is in strictly descending order of exponent. -/
def descending : List PolyTerm → Prop
  | [] => True
  | [_] => True
  | t :: u :: rest => t.exponent > u.exponent ∧ descending (u :: rest)

/-- The representation invariant: strictly descending exponents and no coefficient of
magnitude below `EPSILON`. -/
def Polynomial.Invariant (p : Polynomial) : Prop :=
  descending p.head ∧ ∀ t ∈ p.head, ¬ (|t.coefficient| < EPSILON)

/-- The coefficient of exponent `e` in a term list: that of the first term with this
exponent, 0 when there is none. -/
def coeff_of : List PolyTerm → Int → ℚ
  | [], _ => 0
  | t :: rest, e => if t.exponent = e then t.coefficient else coeff_of rest e

/-- The coefficient of a polynomial at exponent `e` (0 when absent). -/
def Polynomial.coeff (p : Polynomial) (e : Int) : ℚ :=
  coeff_of p.head e

/-- The polynomial has a term of exponent `e`. -/
def Polynomial.has_term (p : Polynomial) (e : Int) : Prop :=
  ∃ t ∈ p.head, t.exponent = e

/-- The polynomials obtained from the empty one by `addTerm`, `+`, binary and unary `-`,
`*` and `derivative`. -/
inductive Polynomial.Reachable : Polynomial → Prop
  | new : Polynomial.Reachable Polynomial.new
  | addTerm (p : Polynomial) (c : ℚ) (e : Int) :
      Polynomial.Reachable p → Polynomial.Reachable (p.addTerm c e)
  | add (p q : Polynomial) :
      Polynomial.Reachable p → Polynomial.Reachable q → Polynomial.Reachable (p.add q)
  | add_assign (p q : Polynomial) :
      Polynomial.Reachable p → Polynomial.Reachable q → Polynomial.Reachable (p.add_assign q)
  | sub (p q : Polynomial) :
      Polynomial.Reachable p → Polynomial.Reachable q → Polynomial.Reachable (p.sub q)
  | sub_assign (p q : Polynomial) :
      Polynomial.Reachable p → Polynomial.Reachable q → Polynomial.Reachable (p.sub_assign q)
  | neg (p : Polynomial) : Polynomial.Reachable p → Polynomial.Reachable p.neg
  | mul (p q : Polynomial) :
      Polynomial.Reachable p → Polynomial.Reachable q → Polynomial.Reachable (p.mul q)
  | mul_assign (p q : Polynomial) :
      Polynomial.Reachable p → Polynomial.Reachable q → Polynomial.Reachable (p.mul_assign q)
  | derivative (p : Polynomial) : Polynomial.Reachable p → Polynomial.Reachable p.derivative
  | copy (p : Polynomial) : Polynomial.Reachable p → Polynomial.Reachable p.copy

/-- List form of the representation invariant, with the order stated for all pairs. -/
def terms_ok (l : List PolyTerm) : Prop :=
  l.Pairwise (fun t u => t.exponent > u.exponent) ∧ ∀ t ∈ l, ¬ (|t.coefficient| < EPSILON)

/-- What `insert_term` stores for a sum `x` of coefficients: nothing (0) when `x` is
within `EPSILON` of zero, else `x`. -/
def stored (x : ℚ) : ℚ :=
  if is_zero x then 0 else x

/-- An example polynomial: `2x^2 - x + 5`, built by `addTerm(2,2)`, `addTerm(-1,1)`,
`addTerm(5,0)`. -/
def example_polynomial : Polynomial :=
  ((Polynomial.new.addTerm 2 2).addTerm (-1) 1).addTerm 5 0

/-! ## Auxiliary definitions for the shape of accepted input -/

/-- The input starts with a digit. -/
def starts_with_digit : List Char → Bool
  | [] => false
  | ch :: _ => isdigit ch

/-- The number of integer literals (maximal runs of digits) in `input`, counted at the
last digit of each. -/
def literal_count : List Char → Nat
  | [] => 0
  | ch :: input =>
    (if isdigit ch = true ∧ starts_with_digit input = false then 1 else 0) + literal_count input

/-- The number of operator characters of `input` in binary position, that is, outside
the sign runs recognised by `is_unary`; `prev` is the character in front of `input`. -/
def binary_operator_count : Option Char → List Char → Nat
  | _, [] => 0
  | prev, ch :: input =>
    (if is_binary_operator ch ∧ is_unary ch prev = false then 1 else 0) +
      binary_operator_count (some ch) input

/-- The number of operators on the operator stack, the `(` entries left out. -/
def pending_operators (operators : List Char) : Nat :=
  (operators.filter (fun op => decide (op ≠ '('))).length

/-- The character `d` directly after `c` puts two operands side by side: `)` followed by
`(` or by a digit, or a digit followed by `(`. -/
def operand_adjacent (c d : Char) : Prop :=
  (c = ')' ∧ (d = '(' ∨ isdigit d = true)) ∨ (isdigit c = true ∧ d = '(')

instance (c d : Char) : Decidable (operand_adjacent c d) := by
  unfold operand_adjacent; exact inferInstance

/-- A character that can start an operand: a digit, `(` or a sign. -/
def operand_start (d : Char) : Prop :=
  isdigit d = true ∨ d = '(' ∨ d = '+' ∨ d = '-'

instance (d : Char) : Decidable (operand_start d) := by
  unfold operand_start; exact inferInstance

/-- No two operands stand side by side in `input`, read after the character `prev`. -/
def adjacency_free : Char → List Char → Prop
  | _, [] => True
  | prev, ch :: input => ¬ operand_adjacent prev ch ∧ adjacency_free ch input

/-- Every operator character of `prev :: input` is directly followed by the start of an
operand. -/
def operators_followed : Char → List Char → Prop
  | prev, [] => ¬ is_binary_operator prev
  | prev, ch :: input => (is_binary_operator prev → operand_start ch) ∧ operators_followed ch input

/-- An operand ends at `prev`, in front of `input`: 1 when `prev` is `)` or the last digit
of a literal, else 0. -/
def operand_before (prev : Char) (input : List Char) : Nat :=
  if prev = ')' ∨ (isdigit prev = true ∧ starts_with_digit input = false) then 1 else 0
/-! ## Lemmas on `Fraction` -/

theorem normalize_fields (n d : Int) (hd : 0 < d) :
    Fraction.normalize ⟨n, d⟩ = ⟨n / (Int.gcd n d : Nat), d / (Int.gcd n d : Nat)⟩ := by
  have h1 : ¬ d < 0 := by omega
  simp only [Fraction.normalize, h1, if_false]
  rw [Int.tdiv_eq_ediv_of_dvd Int.gcd_dvd_left, Int.tdiv_eq_ediv_of_dvd Int.gcd_dvd_right]

theorem new_of_pos (n d : Int) (hd : 0 < d) :
    Fraction.new n d = ⟨n / (Int.gcd n d : Nat), d / (Int.gcd n d : Nat)⟩ :=
  normalize_fields n d hd

theorem new_of_neg (n d : Int) (hd : d < 0) : Fraction.new n d = Fraction.new (-n) (-d) := by
  have h1 : ¬ (-d < 0) := by omega
  simp [Fraction.new, Fraction.normalize, hd, h1]

theorem normal_new_pos (n d : Int) (hd : 0 < d) : (Fraction.new n d).Normal := by
  rw [new_of_pos n d hd]
  have hg : 0 < Int.gcd n d := Int.gcd_pos_of_ne_zero_right n (by omega)
  refine ⟨?_, Int.gcd_div_gcd_div_gcd hg⟩
  exact Int.ediv_pos_of_pos_of_dvd hd (by positivity) Int.gcd_dvd_right

theorem val_new_pos (n d : Int) (hd : 0 < d) : (Fraction.new n d).val = (n : ℚ) / d := by
  rw [new_of_pos n d hd]
  have hg : 0 < Int.gcd n d := Int.gcd_pos_of_ne_zero_right n (by omega)
  have hgq : ((Int.gcd n d : Nat) : ℚ) ≠ 0 := by positivity
  have hgq2 : (((Int.gcd n d : Nat) : Int) : ℚ) ≠ 0 := by exact_mod_cast hgq
  have hdq : (d : ℚ) ≠ 0 := by exact_mod_cast (ne_of_gt hd)
  simp only [Fraction.val]
  rw [Int.cast_div Int.gcd_dvd_left hgq2, Int.cast_div Int.gcd_dvd_right hgq2]
  field_simp

theorem normal_new (n d : Int) (hd : d ≠ 0) : (Fraction.new n d).Normal := by
  rcases lt_or_gt_of_ne hd with h | h
  · rw [new_of_neg n d h]; exact normal_new_pos _ _ (by omega)
  · exact normal_new_pos n d h

theorem val_new (n d : Int) (hd : d ≠ 0) : (Fraction.new n d).val = (n : ℚ) / d := by
  rcases lt_or_gt_of_ne hd with h | h
  · rw [new_of_neg n d h, val_new_pos _ _ (by omega)]
    push_cast
    rw [neg_div_neg_eq]
  · exact val_new_pos n d h

theorem normal_ofRat (q : ℚ) : (Fraction.ofRat q).Normal := by
  refine ⟨by simp [Fraction.ofRat, Rat.den_pos], ?_⟩
  simpa [Fraction.ofRat, Int.gcd_eq_natAbs] using q.reduced

theorem val_ofRat (q : ℚ) : (Fraction.ofRat q).val = q := by
  simp [Fraction.ofRat, Fraction.val, Rat.num_div_den]

theorem ofRat_val (f : Fraction) (hf : f.Normal) : Fraction.ofRat f.val = f := by
  obtain ⟨hd, hg⟩ := hf
  have hc : f.numerator.natAbs.Coprime f.denominator.natAbs := by
    simpa [Int.gcd_eq_natAbs] using hg
  cases f with
  | mk n d =>
    simp only [Fraction.ofRat, Fraction.val, Fraction.mk.injEq] at *
    exact ⟨Rat.num_div_eq_of_coprime hd hc, Rat.den_div_eq_of_coprime hd hc⟩

theorem normal_ext (f g : Fraction) (hf : f.Normal) (hg : g.Normal) (h : f.val = g.val) :
    f = g := by
  rw [← ofRat_val f hf, ← ofRat_val g hg, h]

theorem new_eq_ofRat (n d : Int) (hd : d ≠ 0) :
    Fraction.new n d = Fraction.ofRat ((n : ℚ) / d) :=
  normal_ext _ _ (normal_new n d hd) (normal_ofRat _) (by rw [val_new n d hd, val_ofRat])

theorem normal_den_ne (f : Fraction) (hf : f.Normal) : f.denominator ≠ 0 :=
  ne_of_gt hf.1

theorem normal_den_ne_rat (f : Fraction) (hf : f.Normal) : (f.denominator : ℚ) ≠ 0 := by
  exact_mod_cast normal_den_ne f hf

theorem val_eq_zero_iff (f : Fraction) (hf : f.Normal) : f.val = 0 ↔ f.numerator = 0 := by
  have := normal_den_ne_rat f hf
  simp [Fraction.val, this]

/-! ### Arithmetic operators against `ℚ` -/

theorem normal_add (a b : Fraction) (ha : a.Normal) (hb : b.Normal) : (a.add b).Normal :=
  normal_new _ _ (mul_ne_zero (normal_den_ne a ha) (normal_den_ne b hb))

theorem normal_sub (a b : Fraction) (ha : a.Normal) (hb : b.Normal) : (a.sub b).Normal :=
  normal_new _ _ (mul_ne_zero (normal_den_ne a ha) (normal_den_ne b hb))

theorem normal_mul (a b : Fraction) (ha : a.Normal) (hb : b.Normal) : (a.mul b).Normal :=
  normal_new _ _ (mul_ne_zero (normal_den_ne a ha) (normal_den_ne b hb))

theorem normal_neg (a : Fraction) (ha : a.Normal) : a.neg.Normal :=
  normal_new _ _ (normal_den_ne a ha)

theorem val_add (a b : Fraction) (ha : a.Normal) (hb : b.Normal) :
    (a.add b).val = a.val + b.val := by
  have h1 := normal_den_ne_rat a ha
  have h2 := normal_den_ne_rat b hb
  rw [Fraction.add, val_new _ _ (mul_ne_zero (normal_den_ne a ha) (normal_den_ne b hb))]
  simp only [Fraction.val]
  push_cast
  field_simp

theorem val_sub (a b : Fraction) (ha : a.Normal) (hb : b.Normal) :
    (a.sub b).val = a.val - b.val := by
  have h1 := normal_den_ne_rat a ha
  have h2 := normal_den_ne_rat b hb
  rw [Fraction.sub, val_new _ _ (mul_ne_zero (normal_den_ne a ha) (normal_den_ne b hb))]
  simp only [Fraction.val]
  push_cast
  field_simp
  ring

theorem val_mul (a b : Fraction) (ha : a.Normal) (hb : b.Normal) :
    (a.mul b).val = a.val * b.val := by
  have h1 := normal_den_ne_rat a ha
  have h2 := normal_den_ne_rat b hb
  rw [Fraction.mul, val_new _ _ (mul_ne_zero (normal_den_ne a ha) (normal_den_ne b hb))]
  simp only [Fraction.val]
  push_cast
  field_simp

theorem val_neg (a : Fraction) (ha : a.Normal) : a.neg.val = -a.val := by
  rw [Fraction.neg, val_new _ _ (normal_den_ne a ha)]
  simp only [Fraction.val]
  push_cast
  rw [neg_div]

theorem div_ok (a b : Fraction) (hb0 : b.numerator ≠ 0) :
    a.div b = .ok (Fraction.new (a.numerator * b.denominator) (a.denominator * b.numerator)) := by
  simp [Fraction.div, hb0]

theorem normal_div (a b : Fraction) (ha : a.Normal) (hb0 : b.numerator ≠ 0) :
    (Fraction.new (a.numerator * b.denominator) (a.denominator * b.numerator)).Normal :=
  normal_new _ _ (mul_ne_zero (normal_den_ne a ha) hb0)

theorem val_div (a b : Fraction) (ha : a.Normal) (hb : b.Normal) (hb0 : b.numerator ≠ 0) :
    (Fraction.new (a.numerator * b.denominator) (a.denominator * b.numerator)).val
      = a.val / b.val := by
  have h1 := normal_den_ne_rat a ha
  have h2 := normal_den_ne_rat b hb
  have h3 : (b.numerator : ℚ) ≠ 0 := by exact_mod_cast hb0
  rw [val_new _ _ (mul_ne_zero (normal_den_ne a ha) hb0)]
  simp only [Fraction.val]
  push_cast
  field_simp

theorem add_ofRat (p q : ℚ) : (Fraction.ofRat p).add (Fraction.ofRat q) = Fraction.ofRat (p + q) :=
  normal_ext _ _ (normal_add _ _ (normal_ofRat p) (normal_ofRat q)) (normal_ofRat _)
    (by rw [val_add _ _ (normal_ofRat p) (normal_ofRat q)]; simp only [val_ofRat])

theorem sub_ofRat (p q : ℚ) : (Fraction.ofRat p).sub (Fraction.ofRat q) = Fraction.ofRat (p - q) :=
  normal_ext _ _ (normal_sub _ _ (normal_ofRat p) (normal_ofRat q)) (normal_ofRat _)
    (by rw [val_sub _ _ (normal_ofRat p) (normal_ofRat q)]; simp only [val_ofRat])

theorem mul_ofRat (p q : ℚ) : (Fraction.ofRat p).mul (Fraction.ofRat q) = Fraction.ofRat (p * q) :=
  normal_ext _ _ (normal_mul _ _ (normal_ofRat p) (normal_ofRat q)) (normal_ofRat _)
    (by rw [val_mul _ _ (normal_ofRat p) (normal_ofRat q)]; simp only [val_ofRat])

theorem ofRat_num_eq_zero (q : ℚ) : (Fraction.ofRat q).numerator = 0 ↔ q = 0 := by
  simp [Fraction.ofRat]

theorem div_ofRat (p q : ℚ) (hq : q ≠ 0) :
    (Fraction.ofRat p).div (Fraction.ofRat q) = .ok (Fraction.ofRat (p / q)) := by
  have h0 : (Fraction.ofRat q).numerator ≠ 0 := by rwa [Ne, ofRat_num_eq_zero]
  rw [div_ok _ _ h0]
  congr 1
  exact normal_ext _ _ (normal_div _ _ (normal_ofRat p) h0) (normal_ofRat _)
    (by rw [val_div _ _ (normal_ofRat p) (normal_ofRat q) h0]; simp only [val_ofRat])

theorem new_one_one : Fraction.new 1 1 = Fraction.ofRat 1 := by decide

theorem new_int_one (n : Int) : Fraction.new n 1 = Fraction.ofRat n := by
  rw [new_eq_ofRat n 1 (by decide)]; simp

theorem new_int_one_fields (n : Int) : Fraction.new n 1 = ⟨n, 1⟩ := by
  rw [new_int_one]; simp [Fraction.ofRat]

/-! ### The exponentiation loop -/

theorem land_one (k : Nat) : Int.land (k : Int) 1 = ((k % 2 : Nat) : Int) := by
  show Int.land (Int.ofNat k) (Int.ofNat 1) = _
  simp only [Int.land]
  show ((k &&& 1 : Nat) : Int) = _
  rw [Nat.and_one_is_mod]

theorem shiftRight_one (k : Nat) : (k : Int) >>> 1 = ((k / 2 : Nat) : Int) := by
  show Int.shiftRight (Int.ofNat k) 1 = _
  simp only [Int.shiftRight]
  show ((k >>> 1 : Nat) : Int) = _
  rw [Nat.shiftRight_eq_div_pow]

/-- The loop computes `result * factor ^ exponent` whenever the iteration bound is at
least the exponent. -/
theorem pow_loop_ofRat (fuel : Nat) : ∀ (k : Nat) (r f : ℚ), k ≤ fuel →
    pow_loop fuel (k : Int) (Fraction.ofRat r) (Fraction.ofRat f) = Fraction.ofRat (r * f ^ k) := by
  induction fuel with
  | zero =>
    intro k r f hk
    have : k = 0 := by omega
    subst this
    simp [pow_loop]
  | succ fuel ih =>
    intro k r f hk
    by_cases hk0 : k = 0
    · subst hk0; simp [pow_loop]
    · have hk0' : (k : Int) ≠ 0 := by exact_mod_cast hk0
      simp only [pow_loop, hk0', ne_eq, not_false_eq_true, if_true, land_one, shiftRight_one,
        mul_ofRat]
      have hdiv : k / 2 ≤ fuel := by omega
      have hk2 : k = 2 * (k / 2) + k % 2 := by omega
      by_cases h1 : (k : Int) > 1
      · have hmod : k % 2 = 0 ∨ k % 2 = 1 := by omega
        rcases hmod with hm | hm
        · simp only [hm, h1, if_true, Nat.cast_zero, not_true_eq_false, if_false]
          rw [ih _ _ _ hdiv]
          congr 1
          conv_rhs => rw [hk2, hm]
          rw [add_zero, pow_mul, pow_two]
        · simp only [hm, h1, if_true, Nat.cast_one, one_ne_zero, not_false_eq_true]
          rw [ih _ _ _ hdiv]
          congr 1
          conv_rhs => rw [hk2, hm]
          rw [pow_add, pow_mul, pow_two, pow_one]
          ring
      · have hk1 : k = 1 := by omega
        subst hk1
        simp only [h1, if_false]
        norm_num
        have : pow_loop fuel (0 : Int) (Fraction.ofRat (r * f)) (Fraction.ofRat f)
            = Fraction.ofRat (r * f) := by
          cases fuel <;> simp [pow_loop]
        simpa using this

theorem pow_ofRat_nonneg (q : ℚ) (k : Nat) :
    (Fraction.ofRat q).pow (k : Int) = .ok (Fraction.ofRat (q ^ k)) := by
  by_cases hk : k = 0
  · subst hk; simp [Fraction.pow, new_one_one]
  · have h1 : (k : Int) ≠ 0 := by exact_mod_cast hk
    have h2 : ¬ ((k : Int) < 0) := by omega
    simp only [Fraction.pow, h1, h2, if_false, and_false, Int.toNat_ofNat, new_one_one]
    rw [pow_loop_ofRat k k 1 q le_rfl, one_mul]

theorem new_den_num (q : ℚ) (hq : q ≠ 0) :
    Fraction.new (Fraction.ofRat q).denominator (Fraction.ofRat q).numerator
      = Fraction.ofRat q⁻¹ := by
  have h0 : (Fraction.ofRat q).numerator ≠ 0 := by rwa [Ne, ofRat_num_eq_zero]
  rw [new_eq_ofRat _ _ h0]
  congr 1
  simp only [Fraction.ofRat]
  rw [Rat.inv_def', Rat.divInt_eq_div]

theorem pow_ofRat_neg (q : ℚ) (hq : q ≠ 0) (k : Nat) (hk : 0 < k) :
    (Fraction.ofRat q).pow (-(k : Int)) = .ok (Fraction.ofRat (q⁻¹ ^ k)) := by
  have h0 : (Fraction.ofRat q).numerator ≠ 0 := by rwa [Ne, ofRat_num_eq_zero]
  have h1 : -(k : Int) ≠ 0 := by omega
  have h2 : -(k : Int) < 0 := by omega
  simp only [Fraction.pow, h1, h2, h0, if_false, if_true, false_and, neg_neg, Int.toNat_ofNat,
    new_one_one]
  rw [new_den_num q hq, pow_loop_ofRat k k 1 q⁻¹ le_rfl, one_mul]

theorem pow_zero_neg (a : Fraction) (e : Int) (ha : a.numerator = 0) (he : e < 0) :
    a.pow e = .error "zero cannot be raised to negative power" := by
  have h1 : e ≠ 0 := by omega
  simp [Fraction.pow, h1, ha, he]

/-- Closed form of `operator^` on normal-form arguments. -/
theorem pow_ofRat (q : ℚ) (e : Int) :
    (Fraction.ofRat q).pow e =
      if q = 0 ∧ e < 0 then .error "zero cannot be raised to negative power"
      else .ok (Fraction.ofRat (q ^ e)) := by
  rcases Int.lt_or_le e 0 with he | he
  · by_cases hq : q = 0
    · rw [pow_zero_neg _ e ((ofRat_num_eq_zero q).2 hq) he]; simp [hq, he]
    · obtain ⟨k, hk⟩ := Int.exists_eq_neg_ofNat (le_of_lt he)
      subst hk
      have hk0 : 0 < k := by omega
      rw [pow_ofRat_neg q hq k hk0]
      simp only [hq, false_and, if_false]
      rw [zpow_neg, zpow_natCast, inv_pow]
  · obtain ⟨k, hk⟩ := Int.eq_ofNat_of_zero_le he
    subst hk
    have h2 : ¬ ((k : Int) < 0) := by omega
    rw [pow_ofRat_nonneg]
    simp only [h2, and_false, if_false, zpow_natCast]

theorem normal_pow (a : Fraction) (ha : a.Normal) (e : Int) (q : Fraction)
    (h : a.pow e = .ok q) : q.Normal := by
  rw [← ofRat_val a ha, pow_ofRat] at h
  split at h
  · cases h
  · cases h; exact normal_ofRat _

theorem npow_ofRat (q : ℚ) (n : Nat) :
    (Fraction.ofRat q).npow n = Fraction.ofRat (q ^ n) := by
  induction n with
  | zero => simp [Fraction.npow, new_one_one]
  | succ n ih => rw [Fraction.npow, ih, mul_ofRat, pow_succ]

theorem ofRat_pow_fields (a : Fraction) (ha : a.Normal) (n : Nat) :
    Fraction.ofRat (a.val ^ n) = ⟨a.numerator ^ n, a.denominator ^ n⟩ := by
  have h := ofRat_val a ha
  simp only [Fraction.ofRat, Rat.num_pow, Rat.den_pow, Fraction.mk.injEq] at *
  cases a with
  | mk num den =>
    simp only [Fraction.mk.injEq] at h
    obtain ⟨h1, h2⟩ := h
    simp only at h1 h2 ⊢
    rw [h1]
    push_cast
    rw [h2]
    exact ⟨rfl, rfl⟩

/-! ## Theorems on `Fraction` (C1 to C6) -/

/-- C1: the constructor yields normal form (positive denominator, numerator and
denominator coprime, and `0/1` for a zero numerator) for every nonzero denominator, and
`+`, binary `-`, unary `-`, `*`, `/` (nonzero divisor) and `^` (whenever it returns) map
normal-form arguments to normal-form results. -/
theorem fraction_normal_form (n d : Int) (hd : d ≠ 0) (a b : Fraction) (ha : a.Normal)
    (hb : b.Normal) (e : Int) :
    (0 < (Fraction.new n d).denominator ∧
      Int.gcd (Fraction.new n d).numerator (Fraction.new n d).denominator = 1) ∧
    Fraction.new 0 d = ⟨0, 1⟩ ∧
    (a.add b).Normal ∧ (a.sub b).Normal ∧ a.neg.Normal ∧ (a.mul b).Normal ∧
    (b.numerator ≠ 0 → ∃ q, a.div b = .ok q ∧ q.Normal) ∧
    (∀ q, a.pow e = .ok q → q.Normal) := by
  refine ⟨normal_new n d hd, ?_, normal_add a b ha hb, normal_sub a b ha hb, normal_neg a ha,
    normal_mul a b ha hb, ?_, fun q h => normal_pow a ha e q h⟩
  · rw [new_eq_ofRat 0 d hd]; simp [Fraction.ofRat]
  · intro hb0
    exact ⟨_, div_ok a b hb0, normal_div a b ha hb0⟩

theorem fraction_normal_form_witness :
    (0 < (Fraction.new 6 (-4)).denominator ∧
      Int.gcd (Fraction.new 6 (-4)).numerator (Fraction.new 6 (-4)).denominator = 1) ∧
    Fraction.new 0 (-4) = ⟨0, 1⟩ ∧
    (Fraction.add ⟨1, 2⟩ ⟨-3, 4⟩).Normal ∧ (Fraction.sub ⟨1, 2⟩ ⟨-3, 4⟩).Normal ∧
    (Fraction.neg ⟨1, 2⟩).Normal ∧ (Fraction.mul ⟨1, 2⟩ ⟨-3, 4⟩).Normal ∧
    (∃ q, Fraction.div ⟨1, 2⟩ ⟨-3, 4⟩ = .ok q ∧ q.Normal) ∧
    Fraction.Normal ⟨8, 1⟩ := by
  have h := fraction_normal_form 6 (-4) (by decide) ⟨1, 2⟩ ⟨-3, 4⟩ (by decide) (by decide) (-3)
  exact ⟨h.1, h.2.1, h.2.2.1, h.2.2.2.1, h.2.2.2.2.1, h.2.2.2.2.2.1,
    h.2.2.2.2.2.2.1 (by decide), h.2.2.2.2.2.2.2 ⟨8, 1⟩ (by decide)⟩

/-- C2: with `val x = x.numerator / x.denominator` in `ℚ`, the operators compute exact
rational arithmetic on normal-form arguments: `val (a + b) = val a + val b`, likewise for
binary `-`, `*` and unary `-`; `a / b` returns a value with `val = val a / val b` when
`b.numerator ≠ 0`; and `val (Fraction(n, d)) = n / d` for `d ≠ 0`. -/
theorem fraction_exact_arithmetic (a b : Fraction) (ha : a.Normal) (hb : b.Normal)
    (n d : Int) (hd : d ≠ 0) :
    (a.add b).val = a.val + b.val ∧
    (a.sub b).val = a.val - b.val ∧
    (a.mul b).val = a.val * b.val ∧
    a.neg.val = -a.val ∧
    (b.numerator ≠ 0 → ∃ q, a.div b = .ok q ∧ q.val = a.val / b.val) ∧
    (Fraction.new n d).val = (n : ℚ) / (d : ℚ) := by
  refine ⟨val_add a b ha hb, val_sub a b ha hb, val_mul a b ha hb, val_neg a ha, ?_,
    val_new n d hd⟩
  intro hb0
  exact ⟨_, div_ok a b hb0, val_div a b ha hb hb0⟩

theorem fraction_exact_arithmetic_witness :
    (Fraction.add ⟨1, 2⟩ ⟨-3, 4⟩).val = Fraction.val ⟨1, 2⟩ + Fraction.val ⟨-3, 4⟩ ∧
    (Fraction.sub ⟨1, 2⟩ ⟨-3, 4⟩).val = Fraction.val ⟨1, 2⟩ - Fraction.val ⟨-3, 4⟩ ∧
    (Fraction.mul ⟨1, 2⟩ ⟨-3, 4⟩).val = Fraction.val ⟨1, 2⟩ * Fraction.val ⟨-3, 4⟩ ∧
    (Fraction.neg ⟨1, 2⟩).val = -Fraction.val ⟨1, 2⟩ ∧
    (∃ q, Fraction.div ⟨1, 2⟩ ⟨-3, 4⟩ = .ok q ∧
      q.val = Fraction.val ⟨1, 2⟩ / Fraction.val ⟨-3, 4⟩) ∧
    (Fraction.new 6 (-4)).val = ((6 : Int) : ℚ) / ((-4 : Int) : ℚ) := by
  have h := fraction_exact_arithmetic ⟨1, 2⟩ ⟨-3, 4⟩ (by decide) (by decide) 6 (-4) (by decide)
  exact ⟨h.1, h.2.1, h.2.2.1, h.2.2.2.1, h.2.2.2.2.1 (by decide), h.2.2.2.2.2⟩

/-- C3: `a / b` throws "division by zero" exactly when `b.numerator = 0` (and returns a
value exactly when it is nonzero), for every `a`; and `expression_evaluate("1 / 0")`
fails with that error. -/
theorem division_by_zero_iff (a b : Fraction) :
    (a.div b = .error "division by zero" ↔ b.numerator = 0) ∧
    ((∃ q, a.div b = .ok q) ↔ b.numerator ≠ 0) ∧
    expression_evaluate "1 / 0" = .error "division by zero" := by
  refine ⟨?_, ?_, by decide⟩
  · by_cases h : b.numerator = 0 <;> simp [Fraction.div, h]
  · by_cases h : b.numerator = 0 <;> simp [Fraction.div, h]

/-- C4: for normal-form `a` and `b` with `b.numerator ≠ 0`, `a / b` returns a value `q`
and `q * b` has the numerator and the denominator of `a`. -/
theorem div_mul_round_trip (a b : Fraction) (ha : a.Normal) (hb : b.Normal)
    (hb0 : b.numerator ≠ 0) :
    ∃ q, a.div b = .ok q ∧ (q.mul b).numerator = a.numerator ∧
      (q.mul b).denominator = a.denominator := by
  refine ⟨_, div_ok a b hb0, ?_⟩
  have hq := normal_div a b ha hb0
  have hbv : b.val ≠ 0 := by rwa [Ne, val_eq_zero_iff b hb]
  have : (Fraction.new (a.numerator * b.denominator) (a.denominator * b.numerator)).mul b = a := by
    apply normal_ext _ _ (normal_mul _ _ hq hb) ha
    rw [val_mul _ _ hq hb, val_div a b ha hb hb0]
    field_simp
  rw [this]
  exact ⟨rfl, rfl⟩

theorem div_mul_round_trip_witness :
    ∃ q, Fraction.div ⟨1, 2⟩ ⟨-3, 4⟩ = .ok q ∧ (q.mul ⟨-3, 4⟩).numerator = 1 ∧
      (q.mul ⟨-3, 4⟩).denominator = 2 :=
  div_mul_round_trip ⟨1, 2⟩ ⟨-3, 4⟩ (by decide) (by decide) (by decide)

/-- C5: for normal-form `a` and every exponent `n ≥ 0`, the square-and-multiply loop of
`a ^ n` returns the product of `n` copies of `a`, which is `Fraction(a.numerator^n,
a.denominator^n)` (already in lowest terms); and `c ^ 0` returns exactly `1/1` for every
`c`, the zero fraction included. -/
theorem pow_eq_repeated_mul (a : Fraction) (ha : a.Normal) (n : Int) (hn : 0 ≤ n)
    (c : Fraction) :
    a.pow n = .ok (a.npow n.toNat) ∧
    a.npow n.toNat = Fraction.new (a.numerator ^ n.toNat) (a.denominator ^ n.toNat) ∧
    a.npow n.toNat = ⟨a.numerator ^ n.toNat, a.denominator ^ n.toNat⟩ ∧
    c.pow 0 = .ok ⟨1, 1⟩ ∧ Fraction.pow ⟨0, 1⟩ 0 = .ok ⟨1, 1⟩ := by
  obtain ⟨k, hk⟩ := Int.eq_ofNat_of_zero_le hn
  subst hk
  have hnp : a.npow k = ⟨a.numerator ^ k, a.denominator ^ k⟩ := by
    conv_lhs => rw [← ofRat_val a ha]
    rw [npow_ofRat, ofRat_pow_fields a ha]
  refine ⟨?_, ?_, ?_, by simp [Fraction.pow, new_int_one_fields], by decide⟩
  · conv_lhs => rw [← ofRat_val a ha]
    conv_rhs => rw [← ofRat_val a ha]
    rw [pow_ofRat_nonneg, Int.toNat_ofNat, npow_ofRat]
  · rw [Int.toNat_ofNat, hnp]
    have hd : a.denominator ^ k ≠ 0 := pow_ne_zero _ (normal_den_ne a ha)
    rw [new_eq_ofRat _ _ hd]
    push_cast
    rw [← div_pow]
    exact (ofRat_pow_fields a ha k).symm
  · rw [Int.toNat_ofNat, hnp]

theorem pow_eq_repeated_mul_witness :
    Fraction.pow ⟨-2, 3⟩ 5 = .ok (Fraction.npow ⟨-2, 3⟩ 5) ∧
    Fraction.npow ⟨-2, 3⟩ 5 = Fraction.new ((-2) ^ 5) (3 ^ 5) ∧
    Fraction.npow ⟨-2, 3⟩ 5 = ⟨(-2) ^ 5, 3 ^ 5⟩ ∧
    Fraction.pow ⟨0, 1⟩ 0 = .ok ⟨1, 1⟩ ∧ Fraction.pow ⟨0, 1⟩ 0 = .ok ⟨1, 1⟩ :=
  pow_eq_repeated_mul ⟨-2, 3⟩ (by decide) 5 (by decide) ⟨0, 1⟩

/-- C6: for normal-form `a` and `n > 0`, `a ^ (-n)` throws "zero cannot be raised to
negative power" when `a.numerator = 0`; otherwise it returns a value, the same one as
`Fraction(a.denominator, a.numerator) ^ n`, whose value in `ℚ` is `(1 / val a) ^ n`. -/
theorem pow_negative_exponent (a : Fraction) (ha : a.Normal) (n : Int) (hn : 0 < n) :
    (a.numerator = 0 → a.pow (-n) = .error "zero cannot be raised to negative power") ∧
    (a.numerator ≠ 0 →
      ∃ q, a.pow (-n) = .ok q ∧
        (Fraction.new a.denominator a.numerator).pow n = .ok q ∧
        q.val = (1 / a.val) ^ n.toNat) := by
  constructor
  · intro h0
    exact pow_zero_neg a (-n) h0 (by omega)
  · intro h0
    obtain ⟨k, hk⟩ := Int.eq_ofNat_of_zero_le (le_of_lt hn)
    subst hk
    have hk0 : 0 < k := by omega
    have hv : a.val ≠ 0 := by rwa [Ne, val_eq_zero_iff a ha]
    refine ⟨Fraction.ofRat (a.val⁻¹ ^ k), ?_, ?_, ?_⟩
    · conv_lhs => rw [← ofRat_val a ha]
      exact pow_ofRat_neg _ hv k hk0
    · have : Fraction.new a.denominator a.numerator = Fraction.ofRat a.val⁻¹ := by
        conv_lhs => rw [← ofRat_val a ha]
        exact new_den_num _ hv
      rw [this, pow_ofRat_nonneg]
    · rw [val_ofRat, Int.toNat_ofNat, one_div]

theorem pow_negative_exponent_witness :
    Fraction.pow ⟨0, 1⟩ (-3) = .error "zero cannot be raised to negative power" ∧
    ∃ q, Fraction.pow ⟨-2, 3⟩ (-3) = .ok q ∧
        (Fraction.new 3 (-2)).pow 3 = .ok q ∧
        q.val = (1 / Fraction.val ⟨-2, 3⟩) ^ (3 : Int).toNat :=
  ⟨(pow_negative_exponent ⟨0, 1⟩ (by decide) 3 (by decide)).1 rfl,
   (pow_negative_exponent ⟨-2, 3⟩ (by decide) 3 (by decide)).2 (by decide)⟩

/-! ## The evaluator: iteration bound and unfolding equations -/

theorem parse_digits_length (text : List Char) : ∀ (prev : Option Char) (value : Int),
    (parse_digits prev text value).2.2.length ≤ text.length := by
  induction text with
  | nil => intro prev value; simp [parse_digits]
  | cons ch text ih =>
    intro prev value
    simp only [parse_digits]
    split
    · exact Nat.le_succ_of_le (ih _ _)
    · simp

theorem parse_integer_length (prev : Option Char) (ch : Char) (input : List Char)
    (number : Int) (prev2 : Option Char) (rest : List Char)
    (h : parse_integer prev (ch :: input) = .ok (number, prev2, rest)) :
    rest.length ≤ input.length := by
  by_cases hd : isdigit ch = true
  · simp only [parse_integer, hd, Bool.not_true, Bool.false_eq_true, if_false, parse_digits,
      if_true, Except.ok.injEq] at h
    have hl := parse_digits_length input (some ch) (0 * 10 + ((ch.toNat : Int) - ('0'.toNat : Int)))
    rw [h] at hl
    exact hl
  · simp [parse_integer, hd] at h

theorem sign_run_length (input : List Char) : ∀ (prev : Option Char) (count : Nat)
    (count2 : Nat) (prev2 : Option Char) (rest : List Char),
    sign_run prev input count = .ok (count2, prev2, rest) → rest.length ≤ input.length := by
  induction input with
  | nil => intro prev count count2 prev2 rest h; simp [sign_run] at h; simp [h]
  | cons ch input ih =>
    intro prev count count2 prev2 rest h
    simp only [sign_run] at h
    split at h
    · split at h
      · cases h
      · exact Nat.le_succ_of_le (ih _ _ _ _ _ h)
    · cases h; simp

theorem sign_run_length_lt (ch : Char) (input : List Char) (prev : Option Char) (count : Nat)
    (count2 : Nat) (prev2 : Option Char) (rest : List Char) (hu : is_unary ch prev = true)
    (h : sign_run prev (ch :: input) count = .ok (count2, prev2, rest)) :
    rest.length ≤ input.length := by
  have hch : ch = '+' ∨ ch = '-' := by
    simp only [is_unary, Bool.and_eq_true, Bool.or_eq_true, decide_eq_true_eq] at hu
    exact hu.1
  simp only [sign_run, hch, if_true] at h
  split at h
  · cases h
  · exact sign_run_length input _ _ _ _ _ h

/-- Any iteration bound that is at least the number of remaining characters gives the
same result: the bound of `eval_loop` is never the reason for a failure. -/
theorem eval_loop_fuel (f1 : Nat) : ∀ (f2 : Nat) (prev : Option Char) (input : List Char)
    (values : List Fraction) (operators : List Char),
    input.length ≤ f1 → input.length ≤ f2 →
    eval_loop f1 prev input values operators = eval_loop f2 prev input values operators := by
  induction f1 with
  | zero =>
    intro f2 prev input values operators h1 _
    have : input = [] := List.length_eq_zero.mp (Nat.le_zero.mp h1)
    subst this
    cases f2 <;> simp [eval_loop]
  | succ f1 ih =>
    intro f2 prev input values operators h1 h2
    cases input with
    | nil => cases f2 <;> simp [eval_loop]
    | cons ch input =>
      cases f2 with
      | zero => simp at h2
      | succ f2 =>
        simp only [List.length_cons, Nat.add_le_add_iff_right] at h1 h2
        simp only [eval_loop]
        split
        · split
          · rfl
          · rename_i hp
            have hl := parse_integer_length _ _ _ _ _ _ hp
            exact ih _ _ _ _ _ (by omega) (by omega)
        · split
          · exact ih _ _ _ _ _ h1 h2
          · split
            · split
              · rfl
              · exact ih _ _ _ _ _ h1 h2
            · split
              · rename_i hu
                split
                · rfl
                · rename_i hs
                  have hl := sign_run_length_lt _ _ _ _ _ _ _ hu hs
                  split
                  · rfl
                  · exact ih _ _ _ _ _ (by omega) (by omega)
              · split
                · rfl
                · exact ih _ _ _ _ _ h1 h2

theorem run_of_fuel (f : Nat) (prev : Option Char) (input : List Char)
    (values : List Fraction) (operators : List Char) (hf : input.length ≤ f) :
    (match eval_loop f prev input values operators with
      | .error e => .error e
      | .ok (values, operators) => finish values operators)
      = run prev input values operators := by
  rw [run, eval_loop_fuel f input.length prev input values operators hf le_rfl]

theorem evaluate_input_eq_run (input : List Char) (h : input ≠ []) :
    evaluate_input input = run none input [] [] := by
  simp only [evaluate_input, h, if_false, run, finish]

theorem run_nil (prev : Option Char) (values : List Fraction) (operators : List Char) :
    run prev [] values operators = finish values operators := by
  simp [run, eval_loop]

theorem run_digit (prev : Option Char) (ch : Char) (input : List Char)
    (values : List Fraction) (operators : List Char) (hd : isdigit ch = true) :
    run prev (ch :: input) values operators =
      run (parse_digits prev (ch :: input) 0).2.1 (parse_digits prev (ch :: input) 0).2.2
        (Fraction.new (parse_digits prev (ch :: input) 0).1 1 :: values) operators := by
  have hl : (parse_digits prev (ch :: input) 0).2.2.length ≤ input.length := by
    simp only [parse_digits, hd, if_true]
    exact parse_digits_length _ _ _
  conv_lhs => simp only [run, List.length_cons, eval_loop, hd, if_true, parse_integer,
    Bool.not_true, Bool.false_eq_true, if_false]
  exact run_of_fuel _ _ _ _ _ hl

theorem run_lparen (prev : Option Char) (input : List Char)
    (values : List Fraction) (operators : List Char) :
    run prev ('(' :: input) values operators = run (some '(') input values ('(' :: operators) := by
  have h1 : isdigit '(' = false := by decide
  conv_lhs => simp only [run, List.length_cons, eval_loop, h1, Bool.false_eq_true, if_false,
    if_true]
  rfl

theorem run_rparen (prev : Option Char) (input : List Char)
    (values : List Fraction) (operators : List Char) :
    run prev (')' :: input) values operators =
      match collapse values operators with
      | .error e => .error e
      | .ok (values, operators) => run (some ')') input values operators := by
  have h1 : isdigit ')' = false := by decide
  have h2 : ¬ (')' = '(') := by decide
  conv_lhs => simp only [run, List.length_cons, eval_loop, h1, h2, Bool.false_eq_true, if_false,
    if_true]
  cases collapse values operators with
  | error e => rfl
  | ok p => rfl

theorem run_operator (prev : Option Char) (ch : Char) (input : List Char)
    (values : List Fraction) (operators : List Char) (h1 : isdigit ch = false)
    (h2 : ch ≠ '(') (h3 : ch ≠ ')') (h4 : is_unary ch prev = false) :
    run prev (ch :: input) values operators =
      match process_operator values operators ch with
      | .error e => .error e
      | .ok (values, operators) => run (some ch) input values operators := by
  conv_lhs => simp only [run, List.length_cons, eval_loop, h1, h2, h3, h4, Bool.false_eq_true,
    if_false]
  cases process_operator values operators ch with
  | error e => rfl
  | ok p => rfl

theorem run_unary (prev : Option Char) (ch : Char) (input : List Char)
    (values : List Fraction) (operators : List Char) (h4 : is_unary ch prev = true) :
    run prev (ch :: input) values operators =
      match sign_run prev (ch :: input) 0 with
      | .error e => .error e
      | .ok (count, prev2, rest) =>
        match process_operator (Fraction.new 0 1 :: values) operators
            (if count % 2 = 0 then '+' else '-') with
        | .error e => .error e
        | .ok (values, operators) => run prev2 rest values operators := by
  have hch : ch = '+' ∨ ch = '-' := by
    simp only [is_unary, Bool.and_eq_true, Bool.or_eq_true, decide_eq_true_eq] at h4
    exact h4.1
  have h1 : isdigit ch = false := by rcases hch with rfl | rfl <;> decide
  have h2 : ch ≠ '(' := by rcases hch with rfl | rfl <;> decide
  have h3 : ch ≠ ')' := by rcases hch with rfl | rfl <;> decide
  conv_lhs => simp only [run, List.length_cons, eval_loop, h1, h2, h3, h4, Bool.false_eq_true,
    if_false, if_true]
  cases hs : sign_run prev (ch :: input) 0 with
  | error e => rfl
  | ok p =>
    obtain ⟨count, prev2, rest⟩ := p
    have hl := sign_run_length_lt _ _ _ _ _ _ _ h4 hs
    simp only []
    cases process_operator (Fraction.new 0 1 :: values) operators
        (if count % 2 = 0 then '+' else '-') with
    | error e => rfl
    | ok q => exact run_of_fuel _ _ _ _ _ hl

/-! ## Literals -/

theorem isdigit_iff (ch : Char) : isdigit ch = true ↔ 48 ≤ ch.toNat ∧ ch.toNat ≤ 57 := by
  simp only [isdigit, Bool.and_eq_true, decide_eq_true_eq]
  rfl

theorem digit_value_cast (ch : Char) (h : isdigit ch = true) :
    ((ch.toNat : Int) - ('0'.toNat : Int)) = (digit_value ch : Int) := by
  have h1 := (isdigit_iff ch).1 h
  have h2 : '0'.toNat = 48 := by decide
  simp only [digit_value, h2]
  omega

theorem literal_value_cons (ch : Char) (ds : List Char) :
    literal_value (ch :: ds) = digit_value ch * 10 ^ ds.length + literal_value ds := by
  simp only [literal_value, List.reverse_cons, List.map_append, List.map_cons, List.map_nil,
    Nat.ofDigits_append, List.length_map, List.length_reverse, Nat.ofDigits_singleton]
  ring

theorem literal_value_nil : literal_value [] = 0 := by
  simp [literal_value]

/-- The digit loop of `parse_integer` reads a digit string as its decimal value. -/
theorem parse_digits_literal (ds : List Char) : ∀ (p : Char) (acc : Nat) (rest : List Char),
    (∀ ch ∈ ds, isdigit ch = true) → (∀ ch ∈ rest.head?, isdigit ch = false) →
    parse_digits (some p) (ds ++ rest) (acc : Int) =
      (((acc * 10 ^ ds.length + literal_value ds : Nat) : Int), some (last_char p ds), rest) := by
  induction ds with
  | nil =>
    intro p acc rest _ hr
    cases rest with
    | nil => simp [parse_digits, literal_value_nil, last_char]
    | cons d rest =>
      have hd : isdigit d = false := hr d (by simp)
      simp [parse_digits, hd, literal_value_nil, last_char]
  | cons ch ds ih =>
    intro p acc rest hds hr
    have hch : isdigit ch = true := hds ch (by simp)
    have hds' : ∀ c ∈ ds, isdigit c = true := fun c hc => hds c (by simp [hc])
    rw [List.cons_append]
    simp only [parse_digits, hch, if_true, digit_value_cast ch hch]
    have : ((acc : Int) * 10 + (digit_value ch : Int)) = ((acc * 10 + digit_value ch : Nat) : Int) := by
      push_cast; rfl
    rw [this, ih ch _ rest hds' hr, literal_value_cons]
    simp only [last_char, List.length_cons, Prod.mk.injEq, and_true]
    congr 1
    ring

theorem last_char_digit (ds : List Char) : ∀ (p : Char), isdigit p = true →
    (∀ ch ∈ ds, isdigit ch = true) → isdigit (last_char p ds) = true := by
  induction ds with
  | nil => intro p hp _; simpa [last_char] using hp
  | cons ch ds ih =>
    intro p _ hds
    simp only [last_char]
    exact ih ch (hds ch (by simp)) (fun c hc => hds c (by simp [hc]))

/-- Reading a literal at the head of the input pushes its value. -/
theorem run_literal (ds : List Char) (hl : is_literal ds) (prev : Option Char)
    (rest : List Char) (hr : ∀ ch ∈ rest.head?, isdigit ch = false)
    (values : List Fraction) (operators : List Char) :
    run prev (ds ++ rest) values operators =
      run (some (Ast.lit ds).lastc) rest (Fraction.new (literal_value ds) 1 :: values)
        operators := by
  obtain ⟨hne, hds⟩ := hl
  cases ds with
  | nil => exact absurd rfl hne
  | cons ch ds =>
    have hch : isdigit ch = true := hds ch (by simp)
    have hds' : ∀ c ∈ ds, isdigit c = true := fun c hc => hds c (by simp [hc])
    rw [List.cons_append, run_digit _ _ _ _ _ hch]
    have hp : parse_digits prev (ch :: (ds ++ rest)) 0 =
        (((literal_value (ch :: ds) : Nat) : Int), some (last_char ch ds), rest) := by
      simp only [parse_digits, hch, if_true, digit_value_cast ch hch]
      have h0 : ((0 : Int) * 10 + (digit_value ch : Int)) = ((digit_value ch : Nat) : Int) := by
        simp
      rw [h0, parse_digits_literal ds ch _ rest hds' hr, literal_value_cons]
    rw [hp]
    rfl

/-! ## Operators on the stacks -/

theorem apply_operator_binop (op : Char) (a b : Fraction) (values : List Fraction) :
    apply_operator (b :: a :: values) op =
      match binop op a b with
      | .ok v => .ok (v :: values)
      | .error m => .error m := by
  simp only [apply_operator, binop]
  split_ifs <;> rfl

theorem precedence_level (op : Char) (h : is_binary_operator op) :
    precedence op = .ok (level op : Int) := by
  rcases h with rfl | rfl | rfl | rfl | rfl <;> decide

theorem binary_operator_facts (op : Char) (h : is_binary_operator op) :
    isdigit op = false ∧ op ≠ '(' ∧ op ≠ ')' := by
  rcases h with rfl | rfl | rfl | rfl | rfl <;> decide

theorem level_range (op : Char) : 1 ≤ level op ∧ level op ≤ 3 := by
  unfold level; split_ifs <;> omega

theorem level_eq_three (op : Char) (h : is_binary_operator op) : level op = 3 ↔ op = '^' := by
  rcases h with rfl | rfl | rfl | rfl | rfl <;> decide

theorem not_unary_after_operand (ch p : Char) (hp : operand_end p) :
    is_unary ch (some p) = false := by
  have h : p ≠ '(' ∧ p ≠ '+' ∧ p ≠ '-' ∧ p ≠ '*' ∧ p ≠ '/' ∧ p ≠ '^' := by
    rcases hp with hp | rfl
    · rw [isdigit_iff] at hp
      refine ⟨?_, ?_, ?_, ?_, ?_, ?_⟩ <;> (rintro rfl; revert hp; decide)
    · decide
  simp [is_unary, h]

/-- An incoming operator that binds more tightly than the stack top (or `^` on `^`) is
pushed without applying anything. -/
theorem process_operator_push (k : Nat) (values : List Fraction) (operators : List Char)
    (op : Char) (hop : is_binary_operator op) (hk : k ≤ level op) (hc : ctx_ok k operators) :
    process_operator values operators op = .ok (values, op :: operators) := by
  cases operators with
  | nil => rfl
  | cons top operators =>
    simp only [ctx_ok] at hc
    rcases hc with rfl | ⟨htop, hlt⟩
    · simp [process_operator]
    · have h1 : top ≠ '(' := by
        rcases htop with rfl | rfl | rfl | rfl | rfl <;> decide
      simp only [process_operator, h1, if_false, precedence_level top htop,
        precedence_level op hop]
      have hno : ¬ (((level top : Nat) : Int) > ((level op : Nat) : Int) ∨
          (((level top : Nat) : Int) = ((level op : Nat) : Int) ∧
            (!is_right_associative op) = true)) := by
        rcases hlt with hlt | ⟨rfl, h3⟩
        · omega
        · have h4 := (level_range op).2
          have h5 : level op = 3 := by omega
          have h6 : op = '^' := (level_eq_three op hop).1 h5
          subst h6
          decide
      simp only [hno, if_false]

/-- An incoming operator that binds at most as tightly as the stack top (and is not `^`
on `^`) makes `process_operator` apply the top first. -/
theorem process_operator_pop (a b : Fraction) (values : List Fraction) (top : Char)
    (operators : List Char) (d : Char) (htop : is_binary_operator top)
    (hd : is_binary_operator d) (hlv : level d < level top ∨ (level d = level top ∧ d ≠ '^')) :
    process_operator (b :: a :: values) (top :: operators) d =
      match binop top a b with
      | .ok v => process_operator (v :: values) operators d
      | .error m => .error m := by
  have h1 : top ≠ '(' := by
    rcases htop with rfl | rfl | rfl | rfl | rfl <;> decide
  have hyes : (((level top : Nat) : Int) > ((level d : Nat) : Int) ∨
      (((level top : Nat) : Int) = ((level d : Nat) : Int) ∧
        (!is_right_associative d) = true)) := by
    rcases hlv with hlt | ⟨heq, hne⟩
    · left; omega
    · right
      refine ⟨by omega, ?_⟩
      simp [is_right_associative, hne]
  conv_lhs => simp only [process_operator, h1, if_false, precedence_level top htop,
    precedence_level d hd, hyes, if_true, apply_operator_binop]
  cases binop top a b <;> rfl

theorem collapse_pop (a b : Fraction) (values : List Fraction) (top : Char)
    (operators : List Char) (htop : is_binary_operator top) :
    collapse (b :: a :: values) (top :: operators) =
      match binop top a b with
      | .ok v => collapse (v :: values) operators
      | .error m => .error m := by
  have h1 : top ≠ '(' := by
    rcases htop with rfl | rfl | rfl | rfl | rfl <;> decide
  conv_lhs => simp only [collapse, h1, ne_eq, not_false_eq_true, if_true, apply_operator_binop]
  cases binop top a b <;> rfl

theorem finish_pop (a b : Fraction) (values : List Fraction) (top : Char)
    (operators : List Char) (htop : is_binary_operator top) :
    finish (b :: a :: values) (top :: operators) =
      match binop top a b with
      | .ok v => finish (v :: values) operators
      | .error m => .error m := by
  have h1 : ¬ (top = '(' ∨ top = ')') := by
    rcases htop with rfl | rfl | rfl | rfl | rfl <;> decide
  conv_lhs => simp only [finish, drain, h1, if_false, apply_operator_binop]
  cases binop top a b <;> rfl

/-- When the rest of the input ends an operand of the pending operator `top`, the next
step of the evaluator applies `top` to the two operands on the stack. -/
theorem run_flush (p : Char) (hp : operand_end p) (a b : Fraction) (values : List Fraction)
    (top : Char) (operators : List Char) (htop : is_binary_operator top) (rest : List Char)
    (hr : delim (level top) rest) :
    run (some p) rest (b :: a :: values) (top :: operators) =
      match binop top a b with
      | .ok v => run (some p) rest (v :: values) operators
      | .error m => .error m := by
  cases rest with
  | nil =>
    simp only [run_nil, finish_pop a b values top operators htop]
  | cons d rest =>
    simp only [delim] at hr
    rcases hr with rfl | ⟨hd, hlv⟩
    · simp only [run_rparen, collapse_pop a b values top operators htop]
      cases binop top a b <;> rfl
    · obtain ⟨h1, h2, h3⟩ := binary_operator_facts d hd
      have h4 := not_unary_after_operand d p hp
      simp only [run_operator _ _ _ _ _ h1 h2 h3 h4,
        process_operator_pop a b values top operators d htop hd hlv]
      cases binop top a b <;> rfl

theorem delim_mono (k k2 : Nat) (rest : List Char) (h : delim k rest) (hk : k ≤ k2) :
    delim k2 rest := by
  cases rest with
  | nil => trivial
  | cons d rest =>
    simp only [delim] at h ⊢
    rcases h with h | ⟨hd, hlv⟩
    · exact Or.inl h
    · refine Or.inr ⟨hd, ?_⟩
      rcases hlv with hlt | ⟨heq, hne⟩
      · left; omega
      · rcases Nat.lt_or_ge (level d) k2 with h2 | h2
        · left; exact h2
        · right; exact ⟨by omega, hne⟩

theorem ctx_ok_mono (k k2 : Nat) (operators : List Char) (h : ctx_ok k operators)
    (hk : k ≤ k2) : ctx_ok k2 operators := by
  cases operators with
  | nil => trivial
  | cons top operators =>
    simp only [ctx_ok] at h ⊢
    rcases h with h | ⟨ht, hlv⟩
    · exact Or.inl h
    · refine Or.inr ⟨ht, ?_⟩
      rcases hlv with hlt | ⟨heq, h3⟩
      · left; omega
      · right; exact ⟨heq, by omega⟩

theorem delim_not_digit (k : Nat) (rest : List Char) (h : delim k rest) :
    ∀ ch ∈ rest.head?, isdigit ch = false := by
  cases rest with
  | nil => simp
  | cons d rest =>
    simp only [delim] at h
    intro ch hch
    simp only [List.head?_cons, Option.mem_def, Option.some.injEq] at hch
    subst hch
    rcases h with rfl | ⟨hd, _⟩
    · decide
    · exact (binary_operator_facts _ hd).1

theorem lastc_operand_end (e : Ast) : ∀ (k : Nat), e.Std k → operand_end e.lastc := by
  induction e with
  | lit ds =>
    intro k h
    obtain ⟨hne, hds⟩ := h
    cases ds with
    | nil => exact absurd rfl hne
    | cons ch ds =>
      left
      exact last_char_digit ds ch (hds ch (by simp)) (fun c hc => hds c (by simp [hc]))
  | paren e _ => intro k _; right; rfl
  | bin op l r _ ihr =>
    intro k h
    simp only [Ast.Std] at h
    obtain ⟨_, _, h3⟩ := h
    simp only [Ast.lastc]
    split_ifs at h3
    · exact ihr _ h3.2
    · exact ihr _ h3.2

/-! ## The evaluator on trees of the standard grammar -/

/-- Main invariant of the two-stack algorithm.  Reading the text of a standard parse tree
of level `k`, in front of a rest that ends it and on top of an operator stack that does
not interfere, has the same effect as pushing the value of the tree, or fails with the
error of the tree's evaluation. -/
theorem run_ast (e : Ast) : ∀ (k : Nat), e.Std k → ∀ (prev : Option Char) (rest : List Char)
    (values : List Fraction) (operators : List Char), ctx_ok k operators → delim k rest →
    run prev (e.print ++ rest) values operators =
      match e.eval with
      | .ok v => run (some e.lastc) rest (v :: values) operators
      | .error m => .error m := by
  induction e with
  | lit ds =>
    intro k h prev rest values operators _ hd
    rw [Ast.print, run_literal ds h prev rest (delim_not_digit k rest hd)]
    rfl
  | paren e ih =>
    intro k h prev rest values operators _ hd
    simp only [Ast.Std] at h
    have hd2 : delim 1 (')' :: rest) := Or.inl rfl
    have hc2 : ctx_ok 1 ('(' :: operators) := Or.inl rfl
    simp only [Ast.print, List.cons_append, List.append_assoc, List.nil_append, run_lparen,
      ih 1 h (some '(') (')' :: rest) values ('(' :: operators) hc2 hd2, Ast.eval]
    cases e.eval with
    | error m => rfl
    | ok v =>
      simp only [run_rparen, collapse]
      rfl
  | bin op l r ihl ihr =>
    intro k h prev rest values operators hc hd
    simp only [Ast.Std] at h
    obtain ⟨hop, hk, h3⟩ := h
    obtain ⟨h1, h2, h2b⟩ := binary_operator_facts op hop
    have hstd : Ast.Std k (.bin op l r) := by
      simp only [Ast.Std]; exact ⟨hop, hk, h3⟩
    have hlr : ∃ kl kr, Ast.Std kl l ∧ Ast.Std kr r ∧ ctx_ok kl operators ∧
        delim kl (op :: (r.print ++ rest)) ∧ ctx_ok kr (op :: operators) ∧ delim kr rest := by
      by_cases hpow : op = '^'
      · subst hpow
        simp only [if_true] at h3
        have hl3 : level '^' = 3 := by decide
        rw [hl3] at hk
        exact ⟨4, 3, h3.1, h3.2, ctx_ok_mono k 4 operators hc (by omega),
          Or.inr ⟨hop, Or.inl (by decide)⟩, Or.inr ⟨hop, Or.inr ⟨rfl, le_rfl⟩⟩,
          delim_mono k 3 rest hd hk⟩
      · simp only [hpow, if_false] at h3
        exact ⟨level op, level op + 1, h3.1, h3.2, ctx_ok_mono k _ operators hc hk,
          Or.inr ⟨hop, Or.inr ⟨rfl, hpow⟩⟩, Or.inr ⟨hop, Or.inl (Nat.lt_succ_self _)⟩,
          delim_mono k _ rest hd (by omega)⟩
    obtain ⟨kl, kr, hl, hr, hcl, hdl, hcr, hdr⟩ := hlr
    have hend_l := lastc_operand_end l kl hl
    have hend_r := lastc_operand_end r kr hr
    simp only [Ast.print, List.append_assoc, List.cons_append, Ast.eval, Ast.lastc]
    rw [ihl kl hl prev (op :: (r.print ++ rest)) values operators hcl hdl]
    cases l.eval with
    | error m => rfl
    | ok a =>
      simp only []
      rw [run_operator _ _ _ _ _ h1 h2 h2b (not_unary_after_operand op _ hend_l),
        process_operator_push k (a :: values) operators op hop hk hc]
      simp only []
      rw [ihr kr hr (some op) rest (a :: values) (op :: operators) hcr hdr]
      cases r.eval with
      | error m => rfl
      | ok b =>
        simp only []
        exact run_flush r.lastc hend_r a b values op operators hop rest
          (delim_mono k _ rest hd hk)

/-- The evaluator on the text of a complete standard parse tree returns the value that
the `Fraction` operators give to the tree, or fails with the same error. -/
theorem evaluate_input_ast (t : Ast) (ht : t.Std 1) :
    evaluate_input t.print = t.eval := by
  have hne : t.print ≠ [] := by
    cases t with
    | lit ds => exact ht.1
    | paren e => simp [Ast.print]
    | bin op l r => simp [Ast.print]
  rw [evaluate_input_eq_run _ hne]
  have h := run_ast t 1 ht none [] [] [] trivial trivial
  rw [List.append_nil] at h
  rw [h]
  cases t.eval with
  | error m => rfl
  | ok v => simp [run_nil, finish, drain]

/-! ## Tree evaluation against the mathematical value -/

theorem toInt32_of_fits (x : Int) (h1 : -2147483648 < x) (h2 : x < 2147483648) :
    toInt32 x = x := by
  unfold toInt32
  omega

theorem std_valid (t : Ast) : ∀ (k : Nat), t.Std k → t.Valid := by
  induction t with
  | lit ds => intro k h; exact h
  | paren e ih => intro k h; exact ih 1 h
  | bin op l r ihl ihr =>
    intro k h
    simp only [Ast.Std] at h
    obtain ⟨hop, _, h3⟩ := h
    split_ifs at h3
    · exact ⟨hop, ihl _ h3.1, ihr _ h3.2⟩
    · exact ⟨hop, ihl _ h3.1, ihr _ h3.2⟩

theorem binop_ofRat (op : Char) (hop : is_binary_operator op) (a b : ℚ)
    (hfit : op = '^' → b.den = 1 → -2147483648 < b.num ∧ b.num < 2147483648) :
    binop op (Fraction.ofRat a) (Fraction.ofRat b) =
      if op = '+' then .ok (Fraction.ofRat (a + b))
      else if op = '-' then .ok (Fraction.ofRat (a - b))
      else if op = '*' then .ok (Fraction.ofRat (a * b))
      else if op = '/' then
        (if b = 0 then .error "division by zero" else .ok (Fraction.ofRat (a / b)))
      else if b.den ≠ 1 then .error "exponent must be integer"
      else if a = 0 ∧ b.num < 0 then .error "zero cannot be raised to negative power"
      else .ok (Fraction.ofRat (a ^ b.num)) := by
  rcases hop with rfl | rfl | rfl | rfl | rfl
  · simp [binop, add_ofRat]
  · simp [binop, sub_ofRat]
  · simp [binop, mul_ofRat]
  · by_cases hb : b = 0
    · subst hb
      simp [binop, Fraction.div, Fraction.ofRat]
    · have h := div_ofRat a b hb
      simp [binop, h, hb]
  · have hne : ¬ ('^' = '+') ∧ ¬ ('^' = '-') ∧ ¬ ('^' = '*') ∧ ¬ ('^' = '/') := by decide
    simp only [binop, hne, if_false, if_true]
    by_cases hd : b.den = 1
    · have hd2 : (Fraction.ofRat b).denominator = 1 := by simp [Fraction.ofRat, hd]
      obtain ⟨h1, h2⟩ := hfit rfl hd
      have hn : (Fraction.ofRat b).numerator = b.num := rfl
      simp only [hd2, hd, ne_eq, not_true_eq_false, if_false, hn, toInt32_of_fits _ h1 h2,
        pow_ofRat]
    · have hd2 : (Fraction.ofRat b).denominator ≠ 1 := by
        simp only [Fraction.ofRat]
        exact_mod_cast hd
      simp only [hd2, hd, ne_eq, not_false_eq_true, if_true]

/-- With every exponent in the range of `int`, the `Fraction` operators give a tree its
mathematical value in lowest terms, and fail exactly when that value is undefined. -/
theorem eval_of_value (t : Ast) : t.Valid → t.ExpFits →
    (∀ q, t.value = some q → t.eval = .ok (Fraction.ofRat q)) ∧
    (t.value = none → ∃ m ∈ domain_errors, t.eval = .error m) := by
  induction t with
  | lit ds =>
    intro _ _
    constructor
    · intro q hq
      simp only [Ast.value, Option.some.injEq] at hq
      subst hq
      simp only [Ast.eval]
      rw [new_int_one]
      simp
    · intro h; simp [Ast.value] at h
  | paren e ih =>
    intro hv hf
    exact ih hv hf
  | bin op l r ihl ihr =>
    intro hv hf
    obtain ⟨hop, hvl, hvr⟩ := hv
    obtain ⟨hfl, hfr, hfe⟩ := hf
    obtain ⟨il1, il2⟩ := ihl hvl hfl
    obtain ⟨ir1, ir2⟩ := ihr hvr hfr
    simp only [Ast.value, Ast.eval]
    cases hl : l.value with
    | none =>
      obtain ⟨m, hm, he⟩ := il2 hl
      constructor
      · intro q hq; cases hq
      · intro _; exact ⟨m, hm, by rw [he]⟩
    | some a =>
      rw [il1 a hl]
      cases hr : r.value with
      | none =>
        obtain ⟨m, hm, he⟩ := ir2 hr
        constructor
        · intro q hq; cases hq
        · intro _; exact ⟨m, hm, by rw [he]⟩
      | some b =>
        rw [ir1 b hr]
        simp only []
        rw [binop_ofRat op hop a b (fun h1 h2 => hfe h1 b hr h2)]
        split_ifs <;> simp [domain_errors]

/-! ## Existence of the standard parse -/

theorem std_atom (t : Ast) (h : t.Std 4) : ∀ (k : Nat), t.Std k := by
  intro k
  cases t with
  | lit ds => exact h
  | paren e => exact h
  | bin op l r =>
    simp only [Ast.Std] at h
    have := (level_range op).2
    omega

theorem std_mono (t : Ast) (k k2 : Nat) (h : t.Std k) (hk : k2 ≤ k) : t.Std k2 := by
  cases t with
  | lit ds => exact h
  | paren e => exact h
  | bin op l r =>
    simp only [Ast.Std] at h ⊢
    exact ⟨h.1, by omega, h.2.2⟩

theorem snoc_print (t : Ast) (op : Char) (a : Ast) :
    (t.snoc op a).print = t.print ++ op :: a.print := by
  induction t with
  | lit ds => rfl
  | paren e _ => rfl
  | bin o l r _ ihr =>
    simp only [Ast.snoc]
    split_ifs
    · simp only [Ast.print, ihr, List.append_assoc, List.cons_append]
    · simp only [Ast.print, List.append_assoc, List.cons_append]

theorem snoc_std (t : Ast) (op : Char) (a : Ast) (hop : is_binary_operator op)
    (ha : a.Std 4) : ∀ (k : Nat), t.Std k → (t.snoc op a).Std (min k (level op)) := by
  have hlop := level_range op
  have hatom : ∀ (u : Ast) (k : Nat), u.Std 4 → (Ast.bin op u a).Std (min k (level op)) := by
    intro u k hu
    simp only [Ast.Std]
    refine ⟨hop, Nat.min_le_right _ _, ?_⟩
    split_ifs
    · exact ⟨hu, std_atom a ha 3⟩
    · exact ⟨std_atom u hu _, std_atom a ha _⟩
  induction t with
  | lit ds => intro k h; exact hatom _ k h
  | paren e _ => intro k h; exact hatom _ k h
  | bin o l r _ ihr =>
    intro k h
    simp only [Ast.Std] at h
    obtain ⟨ho, hk, h3⟩ := h
    simp only [Ast.snoc]
    by_cases hc : level o < level op ∨ (o = '^' ∧ op = '^')
    · simp only [hc, if_true, Ast.Std]
      refine ⟨ho, le_trans (Nat.min_le_left _ _) hk, ?_⟩
      by_cases hpow : o = '^'
      · simp only [hpow, if_true] at h3 ⊢
        refine ⟨h3.1, ?_⟩
        have h5 := ihr 3 h3.2
        have hl3 : level op = 3 := by
          rcases hc with hc | ⟨_, rfl⟩
          · subst hpow
            have : level '^' = 3 := by decide
            omega
          · decide
        rw [hl3] at h5
        exact h5
      · simp only [hpow, if_false] at h3 ⊢
        refine ⟨h3.1, ?_⟩
        have h5 := ihr _ h3.2
        have hlt : level o < level op := by
          rcases hc with hc | ⟨h6, _⟩
          · exact hc
          · exact absurd h6 hpow
        rw [Nat.min_eq_left (by omega)] at h5
        exact h5
    · simp only [hc, if_false, Ast.Std]
      have hc1 : ¬ level o < level op := fun h => hc (Or.inl h)
      have hne : op ≠ '^' := by
        rintro rfl
        have h3' : level '^' = 3 := by decide
        have h4 := (level_range o).2
        have h5 : level o = 3 := by omega
        exact hc (Or.inr ⟨(level_eq_three o ho).1 h5, rfl⟩)
      simp only [hne, if_false]
      exact ⟨hop, Nat.min_le_right _ _, ⟨ho, by omega, h3⟩, std_atom a ha _⟩

/-- The tree produced by `build` is a standard parse of the same text. -/
theorem build_spec (e : Ast) : e.Valid →
    ((Ast.build none e).Std 1 ∧ (Ast.build none e).print = e.print) ∧
    (∀ (t : Ast) (op : Char), t.Std 1 → is_binary_operator op →
      (Ast.build (some (t, op)) e).Std 1 ∧
      (Ast.build (some (t, op)) e).print = t.print ++ op :: e.print) := by
  induction e with
  | lit ds =>
    intro hv
    refine ⟨⟨hv, rfl⟩, ?_⟩
    intro t op ht hop
    simp only [Ast.build]
    have h := snoc_std t op (.lit ds) hop hv 1 ht
    rw [Nat.min_eq_left (level_range op).1] at h
    exact ⟨h, snoc_print _ _ _⟩
  | paren e ih =>
    intro hv
    obtain ⟨⟨h1, h2⟩, _⟩ := ih hv
    have hp : (Ast.paren (Ast.build none e)).Std 4 := h1
    refine ⟨⟨h1, by simp only [Ast.build, Ast.print, h2]⟩, ?_⟩
    intro t op ht hop
    simp only [Ast.build]
    have h := snoc_std t op _ hop hp 1 ht
    rw [Nat.min_eq_left (level_range op).1] at h
    exact ⟨h, by rw [snoc_print]; simp only [Ast.print, h2]⟩
  | bin o l r ihl ihr =>
    intro hv
    obtain ⟨ho, hvl, hvr⟩ := hv
    obtain ⟨⟨hl1, hl2⟩, hl3⟩ := ihl hvl
    obtain ⟨_, hr3⟩ := ihr hvr
    constructor
    · obtain ⟨h1, h2⟩ := hr3 _ o hl1 ho
      refine ⟨by simpa only [Ast.build] using h1, ?_⟩
      simp only [Ast.build, h2, hl2, Ast.print]
    · intro t op ht hop
      obtain ⟨h1, h2⟩ := hl3 t op ht hop
      obtain ⟨h3, h4⟩ := hr3 _ o h1 ho
      refine ⟨by simpa only [Ast.build] using h3, ?_⟩
      simp only [Ast.build, h4, h2, Ast.print, List.append_assoc, List.cons_append]

theorem reparse_spec (e : Ast) (he : e.Valid) :
    e.reparse.Std 1 ∧ e.reparse.print = e.print :=
  (build_spec e he).1

/-! ## White space -/

theorem expression_evaluate_of_text (s : String) (t : Ast) (ht : t.Std 1)
    (hs : remove_spaces s.toList = t.print) : expression_evaluate s = t.eval := by
  rw [expression_evaluate, hs, evaluate_input_ast t ht]

theorem remove_spaces_append (xs ys : List Char) :
    remove_spaces (xs ++ ys) = remove_spaces xs ++ remove_spaces ys := by
  simp [remove_spaces]

theorem remove_spaces_cons (ch : Char) (xs : List Char) (h : isspace ch = false) :
    remove_spaces (ch :: xs) = ch :: remove_spaces xs := by
  simp [remove_spaces, h]

theorem remove_spaces_id (xs : List Char) (h : ∀ ch ∈ xs, isspace ch = false) :
    remove_spaces xs = xs := by
  simp only [remove_spaces, List.filter_eq_self]
  intro ch hch
  simp [h ch hch]

theorem isspace_of_isdigit (ch : Char) (h : isdigit ch = true) : isspace ch = false := by
  rw [isdigit_iff] at h
  simp only [isspace, Bool.or_eq_false_iff, decide_eq_false_iff_not]
  refine ⟨⟨⟨⟨⟨?_, ?_⟩, ?_⟩, ?_⟩, ?_⟩, ?_⟩ <;> (rintro rfl; revert h; decide)

theorem remove_spaces_literal (ds : List Char) (h : is_literal ds) : remove_spaces ds = ds :=
  remove_spaces_id ds (fun ch hch => isspace_of_isdigit ch (h.2 ch hch))

/-! ## Theorems on the evaluator (C7 to C10) -/

/-- C7: let `e` be any tree of `E ::= literal | (E) | E+E | E-E | E*E | E/E | E^E` and `s`
its text with arbitrary white space.  The text has a standard parse (`e.reparse`:
precedence `^` over `* /` over `+ -`, `^` right-associative, the others left-associative),
and for every standard parse `t` of the text in which no exponent overflows `int`,
`expression_evaluate s` returns the value of `t` in lowest terms when that value is
defined, and fails with a domain error when it is not. -/
theorem evaluator_standard_reading (e : Ast) (he : e.Valid) (s : String)
    (hs : remove_spaces s.toList = e.print) (t : Ast) (ht : t.Std 1)
    (hte : t.print = e.print) (hfit : t.ExpFits) :
    (e.reparse.Std 1 ∧ e.reparse.print = e.print) ∧
    (∀ q : ℚ, t.value = some q →
      expression_evaluate s = .ok { numerator := q.num, denominator := q.den }) ∧
    (t.value = none → ∃ m ∈ domain_errors, expression_evaluate s = .error m) := by
  have h := expression_evaluate_of_text s t ht (by rw [hs, hte])
  obtain ⟨h1, h2⟩ := eval_of_value t (std_valid t 1 ht) hfit
  refine ⟨reparse_spec e he, ?_, ?_⟩
  · intro q hq
    rw [h, h1 q hq]
    rfl
  · intro hn
    obtain ⟨m, hm, he⟩ := h2 hn
    exact ⟨m, hm, by rw [h, he]⟩

theorem evaluator_standard_reading_witness :
    (example_tree.reparse.Std 1 ∧ example_tree.reparse.print = example_tree.print) ∧
    expression_evaluate "(1 + 2) * 3 ^ 2 / 6 - 10" =
      .ok { numerator := (-11 / 2 : ℚ).num, denominator := (-11 / 2 : ℚ).den } := by
  have h := evaluator_standard_reading example_tree (by decide) "(1 + 2) * 3 ^ 2 / 6 - 10"
    (by decide) example_parse (by decide) (by decide)
    (by simp [example_parse, Ast.ExpFits, Ast.value, literal_value, digit_value, Nat.ofDigits])
  refine ⟨h.1, h.2.1 (-11 / 2) ?_⟩
  simp [example_parse, Ast.value, literal_value, digit_value, Nat.ofDigits]
  norm_num

/-! ### Three-operand expressions -/

theorem lit_std (ds : List Char) (h : is_literal ds) (k : Nat) : (Ast.lit ds).Std k := h

theorem value_lit (ds : List Char) : (Ast.lit ds).value = some ((literal_value ds : Nat) : ℚ) :=
  rfl

/-- The value of `l ^ r` when both operands have natural-number values. -/
theorem value_pow_nat (l r : Ast) (x y : Nat) (hl : l.value = some (x : ℚ))
    (hr : r.value = some (y : ℚ)) :
    (Ast.bin '^' l r).value = some ((x ^ y : Nat) : ℚ) := by
  have hne : ¬ ('^' = '+') ∧ ¬ ('^' = '-') ∧ ¬ ('^' = '*') ∧ ¬ ('^' = '/') := by decide
  simp only [Ast.value, hl, hr, hne, if_false, Rat.den_natCast, Rat.num_natCast, ne_eq,
    not_true_eq_false]
  have h0 : ¬ ((x : ℚ) = 0 ∧ (y : Int) < 0) := by
    rintro ⟨_, h⟩; omega
  simp only [h0, if_false, zpow_natCast, Nat.cast_pow]

theorem fits_pow_nat (l r : Ast) (y : Nat) (hl : l.ExpFits) (hr : r.ExpFits)
    (hv : r.value = some (y : ℚ)) (hy : y < 2147483648) : (Ast.bin '^' l r).ExpFits := by
  refine ⟨hl, hr, ?_⟩
  intro _ b hb _
  rw [hv] at hb
  cases hb
  simp only [Rat.num_natCast]
  omega

theorem ofRat_natCast (n : Nat) : Fraction.ofRat (n : ℚ) = ⟨(n : Int), 1⟩ := by
  simp [Fraction.ofRat]

theorem isspace_operator (op : Char) (h : is_binary_operator op) : isspace op = false := by
  rcases h with rfl | rfl | rfl | rfl | rfl <;> decide

/-- C8: for digit strings `A`, `B`, `C` with values `a`, `b`, `c` such that the exponents
`c` and `b ^ c` do not overflow `int`, the evaluator returns `a ^ (b ^ c) / 1` on
`A ^ B ^ C` (with any white space); so `^` groups to the right: `"2 ^ 3 ^ 2"` returns
`512/1`, which is not `(2 ^ 3) ^ 2 = 64`. -/
theorem power_right_associative (A B C : List Char) (hA : is_literal A) (hB : is_literal B)
    (hC : is_literal C) (hc : literal_value C < 2147483648)
    (hbc : literal_value B ^ literal_value C < 2147483648) (s : String)
    (hs : remove_spaces s.toList = A ++ '^' :: (B ++ '^' :: C)) :
    expression_evaluate s =
      .ok ⟨(literal_value A : Int) ^ (literal_value B ^ literal_value C), 1⟩ ∧
    expression_evaluate (String.mk (A ++ [' ', '^', ' '] ++ B ++ [' ', '^', ' '] ++ C)) =
      .ok ⟨(literal_value A : Int) ^ (literal_value B ^ literal_value C), 1⟩ ∧
    expression_evaluate "2 ^ 3 ^ 2" = .ok ⟨512, 1⟩ ∧
    expression_evaluate "2 ^ 3 ^ 2" ≠ .ok ⟨(2 ^ 3) ^ 2, 1⟩ := by
  have key : ∀ s2 : String, remove_spaces s2.toList = A ++ '^' :: (B ++ '^' :: C) →
      expression_evaluate s2 =
        .ok ⟨(literal_value A : Int) ^ (literal_value B ^ literal_value C), 1⟩ := by
    intro s2 hs2
    have hop : is_binary_operator '^' := by decide
    have ht : (Ast.bin '^' (.lit A) (.bin '^' (.lit B) (.lit C))).Std 1 := by
      simp only [Ast.Std, if_true]
      exact ⟨hop, by decide, hA, hop, by decide, hB, hC⟩
    have hin := value_pow_nat (.lit B) (.lit C) _ _ (value_lit B) (value_lit C)
    have hval := value_pow_nat (.lit A) _ _ _ (value_lit A) hin
    have hfit : (Ast.bin '^' (.lit A) (.bin '^' (.lit B) (.lit C))).ExpFits :=
      fits_pow_nat _ _ _ trivial (fits_pow_nat _ _ _ trivial trivial (value_lit C) hc) hin hbc
    rw [expression_evaluate_of_text s2 _ ht hs2,
      (eval_of_value _ (std_valid _ 1 ht) hfit).1 _ hval, ofRat_natCast]
    push_cast
    rfl
  refine ⟨key s hs, key _ ?_, by decide, by decide⟩
  show remove_spaces (A ++ [' ', '^', ' '] ++ B ++ [' ', '^', ' '] ++ C) = _
  have h1 : remove_spaces [' ', '^', ' '] = ['^'] := by decide
  rw [remove_spaces_append, remove_spaces_append, remove_spaces_append, remove_spaces_append,
    remove_spaces_literal _ hA, remove_spaces_literal _ hB, remove_spaces_literal _ hC, h1]
  simp only [List.append_assoc, List.cons_append, List.nil_append]

theorem power_right_associative_witness :
    expression_evaluate "4^3^2" =
      .ok ⟨(literal_value ['4'] : Int) ^ (literal_value ['3'] ^ literal_value ['2']), 1⟩ ∧
    expression_evaluate (String.mk (['4'] ++ [' ', '^', ' '] ++ ['3'] ++ [' ', '^', ' '] ++ ['2'])) =
      .ok ⟨(literal_value ['4'] : Int) ^ (literal_value ['3'] ^ literal_value ['2']), 1⟩ ∧
    expression_evaluate "2 ^ 3 ^ 2" = .ok ⟨512, 1⟩ ∧
    expression_evaluate "2 ^ 3 ^ 2" ≠ .ok ⟨(2 ^ 3) ^ 2, 1⟩ :=
  power_right_associative ['4'] ['3'] ['2'] (by decide) (by decide) (by decide) (by decide)
    (by decide) "4^3^2" (by decide)

/-- C9: for digit strings `A`, `B`, `C` with values `a`, `b`, `c` and operators `o1`, `o2`
among `+ - * /`, the evaluator on `A o1 B o2 C` has the outcome (value or error) of
`(a o1 b) o2 c` when `o1` binds at least as tightly as `o2`, and of `a o1 (b o2 c)`
otherwise; on `(A o1 B) o2 C` it has the outcome of `(a o1 b) o2 c`; and `"2 + 3 * 4"`
returns `14/1`, `"(2 + 3) * 4"` returns `20/1`.  Binding strength is `level`, which is
the source's `precedence` on these operators. -/
theorem precedence_three_operands (A B C : List Char) (hA : is_literal A) (hB : is_literal B)
    (hC : is_literal C) (o1 o2 : Char)
    (h1 : o1 = '+' ∨ o1 = '-' ∨ o1 = '*' ∨ o1 = '/')
    (h2 : o2 = '+' ∨ o2 = '-' ∨ o2 = '*' ∨ o2 = '/')
    (s : String) (hs : remove_spaces s.toList = A ++ o1 :: (B ++ o2 :: C))
    (sp : String) (hsp : remove_spaces sp.toList = '(' :: (A ++ o1 :: (B ++ ')' :: o2 :: C))) :
    (level o2 ≤ level o1 →
      expression_evaluate s =
        (binop o1 (Fraction.new (literal_value A) 1) (Fraction.new (literal_value B) 1) >>=
          fun x => binop o2 x (Fraction.new (literal_value C) 1))) ∧
    (level o1 < level o2 →
      expression_evaluate s =
        (binop o2 (Fraction.new (literal_value B) 1) (Fraction.new (literal_value C) 1) >>=
          fun y => binop o1 (Fraction.new (literal_value A) 1) y)) ∧
    expression_evaluate sp =
      (binop o1 (Fraction.new (literal_value A) 1) (Fraction.new (literal_value B) 1) >>=
        fun x => binop o2 x (Fraction.new (literal_value C) 1)) ∧
    (precedence o1 = .ok (level o1 : Int) ∧ precedence o2 = .ok (level o2 : Int)) ∧
    expression_evaluate "2 + 3 * 4" = .ok ⟨14, 1⟩ ∧
    expression_evaluate "(2 + 3) * 4" = .ok ⟨20, 1⟩ := by
  have hop1 : is_binary_operator o1 := by
    rcases h1 with h | h | h | h <;> simp [is_binary_operator, h]
  have hop2 : is_binary_operator o2 := by
    rcases h2 with h | h | h | h <;> simp [is_binary_operator, h]
  have hn1 : o1 ≠ '^' := by rcases h1 with rfl | rfl | rfl | rfl <;> decide
  have hn2 : o2 ≠ '^' := by rcases h2 with rfl | rfl | rfl | rfl <;> decide
  have hl1 := level_range o1
  have hl2 := level_range o2
  refine ⟨?_, ?_, ?_, ⟨precedence_level o1 hop1, precedence_level o2 hop2⟩, by decide,
    by decide⟩
  · intro hlv
    have ht : (Ast.bin o2 (.bin o1 (.lit A) (.lit B)) (.lit C)).Std 1 := by
      simp only [Ast.Std, hn1, hn2, if_false]
      exact ⟨hop2, hl2.1, ⟨hop1, hlv, hA, hB⟩, hC⟩
    rw [expression_evaluate_of_text s _ ht (by rw [hs]; simp [Ast.print])]
    simp only [Ast.eval]
    cases binop o1 (Fraction.new (literal_value A) 1) (Fraction.new (literal_value B) 1) <;> rfl
  · intro hlv
    have ht : (Ast.bin o1 (.lit A) (.bin o2 (.lit B) (.lit C))).Std 1 := by
      simp only [Ast.Std, hn1, hn2, if_false]
      exact ⟨hop1, hl1.1, hA, hop2, hlv, hB, hC⟩
    rw [expression_evaluate_of_text s _ ht (by rw [hs]; simp [Ast.print])]
    simp only [Ast.eval]
    cases binop o2 (Fraction.new (literal_value B) 1) (Fraction.new (literal_value C) 1) <;> rfl
  · have ht : (Ast.bin o2 (.paren (.bin o1 (.lit A) (.lit B))) (.lit C)).Std 1 := by
      simp only [Ast.Std, hn1, hn2, if_false]
      exact ⟨hop2, hl2.1, ⟨hop1, hl1.1, hA, hB⟩, hC⟩
    rw [expression_evaluate_of_text sp _ ht (by rw [hsp]; simp [Ast.print])]
    simp only [Ast.eval]
    cases binop o1 (Fraction.new (literal_value A) 1) (Fraction.new (literal_value B) 1) <;> rfl

theorem precedence_three_operands_witness :
    expression_evaluate "7 - 12 / 0" = .error "division by zero" ∧
    expression_evaluate "(7 - 12) / 0" = .error "division by zero" ∧
    expression_evaluate "2 + 3 * 4" = .ok ⟨14, 1⟩ ∧
    expression_evaluate "(2 + 3) * 4" = .ok ⟨20, 1⟩ := by
  have h := precedence_three_operands ['7'] ['1', '2'] ['0'] (by decide) (by decide) (by decide)
    '-' '/' (by decide) (by decide) "7 - 12 / 0" (by decide) "(7 - 12) / 0" (by decide)
  exact ⟨(h.2.1 (by decide)).trans (by decide), h.2.2.1.trans (by decide), h.2.2.2.2.1,
    h.2.2.2.2.2⟩

/-! ### Leading sign runs -/

theorem sign_run_signs (sg : List Char) : ∀ (prev : Option Char) (count : Nat)
    (rest : List Char), (∀ ch ∈ sg, ch = '+' ∨ ch = '-') →
    (prev ≠ some '*' ∧ prev ≠ some '/' ∧ prev ≠ some '^') →
    (∀ ch ∈ rest.head?, ch ≠ '+' ∧ ch ≠ '-') →
    ∃ p, sign_run prev (sg ++ rest) count = .ok (count + sg.count '-', p, rest) := by
  induction sg with
  | nil =>
    intro prev count rest _ _ hr
    cases rest with
    | nil => exact ⟨prev, by simp [sign_run]⟩
    | cons d rest =>
      have hd := hr d (by simp)
      exact ⟨prev, by simp [sign_run, hd.1, hd.2]⟩
  | cons ch sg ih =>
    intro prev count rest hsg hp hr
    have hch : ch = '+' ∨ ch = '-' := hsg ch (by simp)
    have hsg' : ∀ c ∈ sg, c = '+' ∨ c = '-' := fun c hc => hsg c (by simp [hc])
    have hp' : some ch ≠ some '*' ∧ some ch ≠ some '/' ∧ some ch ≠ some '^' := by
      rcases hch with rfl | rfl <;> decide
    have hnot : ¬ (prev = some '*' ∨ prev = some '/' ∨ prev = some '^') := by
      rintro (h | h | h)
      · exact hp.1 h
      · exact hp.2.1 h
      · exact hp.2.2 h
    obtain ⟨p, hrun⟩ := ih (some ch) (if ch = '-' then count + 1 else count) rest hsg' hp' hr
    refine ⟨p, ?_⟩
    rw [List.cons_append]
    simp only [sign_run, hch, if_true, hnot, if_false, hrun]
    rcases hch with rfl | rfl
    · have : ¬ ('+' = '-') := by decide
      simp [this, List.count_cons]
    · simp [List.count_cons]
      omega

theorem sign_binop (k : Nat) (a : Nat) :
    binop (if k % 2 = 0 then '+' else '-') (Fraction.new 0 1) (Fraction.new (a : Int) 1) =
      .ok (if k % 2 = 0 then ⟨(a : Int), 1⟩ else ⟨-(a : Int), 1⟩) := by
  by_cases h : k % 2 = 0
  · simp only [h, if_true, binop, new_int_one_fields, Fraction.add]
    simp [new_int_one_fields]
  · have hne : ¬ ('-' = '+') := by decide
    simp only [h, if_false, binop, hne, if_true, new_int_one_fields, Fraction.sub]
    simp [new_int_one_fields]

theorem literal_head_not_sign (A : List Char) (hA : is_literal A) (rest : List Char) :
    ∀ ch ∈ (A ++ rest).head?, ch ≠ '+' ∧ ch ≠ '-' := by
  obtain ⟨hne, hds⟩ := hA
  cases A with
  | nil => exact absurd rfl hne
  | cons d A =>
    intro ch hch
    simp only [List.cons_append, List.head?_cons, Option.mem_def, Option.some.injEq] at hch
    subst hch
    have hd := (isdigit_iff d).1 (hds d (by simp))
    constructor <;> (rintro rfl; revert hd; decide)

/-- A sign run at the start of the input in front of a literal. -/
theorem run_sign_literal (sg : List Char) (hne : sg ≠ [])
    (hsg : ∀ ch ∈ sg, ch = '+' ∨ ch = '-') (A : List Char) (hA : is_literal A) :
    evaluate_input (sg ++ A) =
      .ok (if sg.count '-' % 2 = 0 then ⟨(literal_value A : Int), 1⟩
        else ⟨-(literal_value A : Int), 1⟩) := by
  cases sg with
  | nil => exact absurd rfl hne
  | cons ch sg =>
    have hch : ch = '+' ∨ ch = '-' := hsg ch (by simp)
    have hu : is_unary ch none = true := by rcases hch with rfl | rfl <;> decide
    obtain ⟨p, hrun⟩ := sign_run_signs (ch :: sg) none 0 (A ++ []) hsg (by decide)
      (literal_head_not_sign A hA [])
    rw [List.append_nil] at hrun
    rw [evaluate_input_eq_run _ (by simp), List.cons_append, run_unary _ _ _ _ _ hu,
      ← List.cons_append, hrun]
    simp only [process_operator, Nat.zero_add]
    have hl := run_literal A hA p [] (by simp) [Fraction.new 0 1]
      [if (ch :: sg).count '-' % 2 = 0 then '+' else '-']
    rw [List.append_nil] at hl
    have hop : is_binary_operator (if (ch :: sg).count '-' % 2 = 0 then '+' else '-') := by
      split_ifs <;> decide
    rw [hl, run_nil, finish_pop _ _ _ _ _ hop, sign_binop]
    simp [finish, drain]

/-- A sign run directly after an opening parenthesis, in front of a literal. -/
theorem run_paren_sign_literal (sg : List Char) (hne : sg ≠ [])
    (hsg : ∀ ch ∈ sg, ch = '+' ∨ ch = '-') (A : List Char) (hA : is_literal A) :
    evaluate_input ('(' :: (sg ++ A ++ [')'])) =
      .ok (if sg.count '-' % 2 = 0 then ⟨(literal_value A : Int), 1⟩
        else ⟨-(literal_value A : Int), 1⟩) := by
  cases sg with
  | nil => exact absurd rfl hne
  | cons ch sg =>
    have hch : ch = '+' ∨ ch = '-' := hsg ch (by simp)
    have hu : is_unary ch (some '(') = true := by rcases hch with rfl | rfl <;> decide
    obtain ⟨p, hrun⟩ := sign_run_signs (ch :: sg) (some '(') 0 (A ++ [')']) hsg (by decide)
      (literal_head_not_sign A hA [')'])
    rw [evaluate_input_eq_run _ (by simp), run_lparen, List.append_assoc, List.cons_append,
      run_unary _ _ _ _ _ hu, ← List.cons_append, hrun]
    simp only [process_operator, Nat.zero_add, if_true]
    have hl := run_literal A hA p [')'] (by simp; decide) [Fraction.new 0 1]
      [if (ch :: sg).count '-' % 2 = 0 then '+' else '-', '(']
    have hop : is_binary_operator (if (ch :: sg).count '-' % 2 = 0 then '+' else '-') := by
      split_ifs <;> decide
    rw [hl, run_rparen, collapse_pop _ _ _ _ _ hop, sign_binop]
    simp [collapse, run_nil, finish, drain]

theorem isspace_sign (sg : List Char) (hsg : ∀ ch ∈ sg, ch = '+' ∨ ch = '-') :
    remove_spaces sg = sg :=
  remove_spaces_id sg (fun ch hch => by rcases hsg ch hch with rfl | rfl <;> decide)

/-- C10: for a non-empty run `sg` of `+`/`-` characters with `k` minus signs and a digit
string `A` with value `a`, the evaluator on `sg A` and on `( sg A )` returns `a/1` when
`k` is even and `-a/1` when `k` is odd; and `"-3 + 5"` returns `2/1`. -/
theorem leading_sign_parity (sg : List Char) (hne : sg ≠ [])
    (hsg : ∀ ch ∈ sg, ch = '+' ∨ ch = '-') (A : List Char) (hA : is_literal A) :
    (sg.count '-' % 2 = 0 →
      expression_evaluate (String.mk (sg ++ A)) = .ok ⟨(literal_value A : Int), 1⟩ ∧
      expression_evaluate (String.mk ('(' :: (sg ++ A ++ [')']))) =
        .ok ⟨(literal_value A : Int), 1⟩) ∧
    (sg.count '-' % 2 = 1 →
      expression_evaluate (String.mk (sg ++ A)) = .ok ⟨-(literal_value A : Int), 1⟩ ∧
      expression_evaluate (String.mk ('(' :: (sg ++ A ++ [')']))) =
        .ok ⟨-(literal_value A : Int), 1⟩) ∧
    expression_evaluate "-3 + 5" = .ok ⟨2, 1⟩ := by
  have e1 : expression_evaluate (String.mk (sg ++ A)) = evaluate_input (sg ++ A) := by
    show evaluate_input (remove_spaces (sg ++ A)) = _
    rw [remove_spaces_append, isspace_sign sg hsg, remove_spaces_literal A hA]
  have e2 : expression_evaluate (String.mk ('(' :: (sg ++ A ++ [')']))) =
      evaluate_input ('(' :: (sg ++ A ++ [')'])) := by
    show evaluate_input (remove_spaces ('(' :: (sg ++ A ++ [')']))) = _
    have h1 : remove_spaces [')'] = [')'] := by decide
    rw [remove_spaces_cons _ _ (by decide), remove_spaces_append, remove_spaces_append,
      isspace_sign sg hsg, remove_spaces_literal A hA, h1]
  rw [e1, e2, run_sign_literal sg hne hsg A hA, run_paren_sign_literal sg hne hsg A hA]
  refine ⟨?_, ?_, by decide⟩
  · intro h; simp [h]
  · intro h
    have : ¬ (sg.count '-' % 2 = 0) := by omega
    simp [this]

theorem leading_sign_parity_witness :
    (expression_evaluate "--+-37" = .ok ⟨-(literal_value ['3', '7'] : Int), 1⟩ ∧
      expression_evaluate "(--+-37)" = .ok ⟨-(literal_value ['3', '7'] : Int), 1⟩) ∧
    expression_evaluate "-3 + 5" = .ok ⟨2, 1⟩ :=
  ⟨(leading_sign_parity ['-', '-', '+', '-'] (by decide) (by decide) ['3', '7']
      (by decide)).2.1 (by decide),
    (leading_sign_parity ['-', '-', '+', '-'] (by decide) (by decide) ['3', '7']
      (by decide)).2.2⟩

/-! ## Errors of the evaluator -/

theorem div_error_mem (a b : Fraction) (e : String) (h : a.div b = .error e) :
    e ∈ source_errors := by
  unfold Fraction.div at h
  split at h
  · cases h; decide
  · cases h

theorem pow_error_mem (a : Fraction) (n : Int) (e : String) (h : a.pow n = .error e) :
    e ∈ source_errors := by
  unfold Fraction.pow at h
  split at h
  · cases h
  · split at h
    · cases h; decide
    · simp only at h
      split at h <;> cases h

theorem binop_error_mem (op : Char) (a b : Fraction) (e : String)
    (h : binop op a b = .error e) : e ∈ source_errors := by
  unfold binop at h
  split_ifs at h <;>
    first
    | exact div_error_mem _ _ _ h
    | exact pow_error_mem _ _ _ h
    | (cases h; decide)

theorem apply_operator_error_mem (values : List Fraction) (op : Char) (e : String)
    (h : apply_operator values op = .error e) : e ∈ source_errors := by
  match values with
  | [] => simp [apply_operator] at h; subst h; decide
  | [_] => simp [apply_operator] at h; subst h; decide
  | b :: a :: values =>
    rw [apply_operator_binop] at h
    cases hb : binop op a b with
    | error m =>
      rw [hb] at h
      cases h
      exact binop_error_mem op a b _ hb
    | ok v => rw [hb] at h; cases h

theorem precedence_error_mem (op : Char) (e : String) (h : precedence op = .error e) :
    e ∈ source_errors := by
  unfold precedence at h
  split_ifs at h
  cases h
  decide

theorem process_operator_error_mem (operators : List Char) : ∀ (values : List Fraction)
    (op : Char) (e : String), process_operator values operators op = .error e →
    e ∈ source_errors := by
  induction operators with
  | nil => intro values op e h; simp [process_operator] at h
  | cons top operators ih =>
    intro values op e h
    simp only [process_operator] at h
    split at h
    · cases h
    · split at h
      · rename_i m hp
        cases h
        exact precedence_error_mem _ _ hp
      · split at h
        · rename_i m hp
          cases h
          exact precedence_error_mem _ _ hp
        · split at h
          · split at h
            · rename_i m ha
              cases h
              exact apply_operator_error_mem _ _ _ ha
            · exact ih _ _ _ h
          · cases h

theorem collapse_error_mem (operators : List Char) : ∀ (values : List Fraction) (e : String),
    collapse values operators = .error e → e ∈ source_errors := by
  induction operators with
  | nil => intro values e h; simp [collapse] at h; subst h; decide
  | cons top operators ih =>
    intro values e h
    simp only [collapse] at h
    split at h
    · split at h
      · rename_i m ha
        cases h
        exact apply_operator_error_mem _ _ _ ha
      · exact ih _ _ h
    · cases h

theorem drain_error_mem (operators : List Char) : ∀ (values : List Fraction) (e : String),
    drain values operators = .error e → e ∈ source_errors := by
  induction operators with
  | nil => intro values e h; simp [drain] at h
  | cons top operators ih =>
    intro values e h
    simp only [drain] at h
    split at h
    · cases h; decide
    · split at h
      · rename_i m ha
        cases h
        exact apply_operator_error_mem _ _ _ ha
      · exact ih _ _ h

theorem finish_error_mem (values : List Fraction) (operators : List Char) (e : String)
    (h : finish values operators = .error e) : e ∈ source_errors := by
  unfold finish at h
  split at h
  · rename_i m hd
    cases h
    exact drain_error_mem _ _ _ hd
  · cases h
  · cases h; decide

theorem sign_run_error_mem (input : List Char) : ∀ (prev : Option Char) (count : Nat)
    (e : String), sign_run prev input count = .error e → e ∈ source_errors := by
  induction input with
  | nil => intro prev count e h; simp [sign_run] at h
  | cons ch input ih =>
    intro prev count e h
    simp only [sign_run] at h
    split at h
    · split at h
      · cases h; decide
      · exact ih _ _ _ h
    · cases h

/-! ## Induction over the main loop -/

/-- Induction principle for the evaluator: a property of (position, stacks, result) that
holds at the end of the input and is carried backwards over each kind of iteration of
the main loop holds for every run. -/
theorem run_induction
    (P : Option Char → List Char → List Fraction → List Char → Except String Fraction → Prop)
    (h_nil : ∀ prev values operators, P prev [] values operators (finish values operators))
    (h_digit : ∀ prev ch input values operators r, isdigit ch = true →
      P (parse_digits prev (ch :: input) 0).2.1 (parse_digits prev (ch :: input) 0).2.2
        (Fraction.new (parse_digits prev (ch :: input) 0).1 1 :: values) operators r →
      P prev (ch :: input) values operators r)
    (h_lparen : ∀ prev input values operators r,
      P (some '(') input values ('(' :: operators) r → P prev ('(' :: input) values operators r)
    (h_rparen_error : ∀ prev input values operators e, collapse values operators = .error e →
      P prev (')' :: input) values operators (.error e))
    (h_rparen : ∀ prev input values operators values2 operators2 r,
      collapse values operators = .ok (values2, operators2) →
      P (some ')') input values2 operators2 r → P prev (')' :: input) values operators r)
    (h_sign_error : ∀ prev ch input values operators e, is_unary ch prev = true →
      sign_run prev (ch :: input) 0 = .error e → P prev (ch :: input) values operators (.error e))
    (h_unary_error : ∀ prev ch input values operators count prev2 rest e,
      is_unary ch prev = true → sign_run prev (ch :: input) 0 = .ok (count, prev2, rest) →
      process_operator (Fraction.new 0 1 :: values) operators
        (if count % 2 = 0 then '+' else '-') = .error e →
      P prev (ch :: input) values operators (.error e))
    (h_unary : ∀ prev ch input values operators count prev2 rest values2 operators2 r,
      is_unary ch prev = true → sign_run prev (ch :: input) 0 = .ok (count, prev2, rest) →
      process_operator (Fraction.new 0 1 :: values) operators
        (if count % 2 = 0 then '+' else '-') = .ok (values2, operators2) →
      P prev2 rest values2 operators2 r → P prev (ch :: input) values operators r)
    (h_operator_error : ∀ prev ch input values operators e, isdigit ch = false → ch ≠ '(' →
      ch ≠ ')' → is_unary ch prev = false → process_operator values operators ch = .error e →
      P prev (ch :: input) values operators (.error e))
    (h_operator : ∀ prev ch input values operators values2 operators2 r, isdigit ch = false →
      ch ≠ '(' → ch ≠ ')' → is_unary ch prev = false →
      process_operator values operators ch = .ok (values2, operators2) →
      P (some ch) input values2 operators2 r → P prev (ch :: input) values operators r) :
    ∀ (n : Nat) (prev : Option Char) (input : List Char) (values : List Fraction)
      (operators : List Char), input.length ≤ n →
      P prev input values operators (run prev input values operators) := by
  intro n
  induction n with
  | zero =>
    intro prev input values operators hn
    have : input = [] := List.length_eq_zero.mp (Nat.le_zero.mp hn)
    subst this
    rw [run_nil]
    exact h_nil _ _ _
  | succ n ih =>
    intro prev input values operators hn
    cases input with
    | nil => rw [run_nil]; exact h_nil _ _ _
    | cons ch input =>
      simp only [List.length_cons, Nat.add_le_add_iff_right] at hn
      by_cases hd : isdigit ch = true
      · rw [run_digit _ _ _ _ _ hd]
        apply h_digit _ _ _ _ _ _ hd
        apply ih
        have hl : (parse_digits prev (ch :: input) 0).2.2.length ≤ input.length := by
          simp only [parse_digits, hd, if_true]
          exact parse_digits_length _ _ _
        omega
      · have hd' : isdigit ch = false := by simpa using hd
        by_cases hl : ch = '('
        · subst hl
          rw [run_lparen]
          exact h_lparen _ _ _ _ _ (ih _ _ _ _ hn)
        · by_cases hr : ch = ')'
          · subst hr
            rw [run_rparen]
            cases hc : collapse values operators with
            | error e => exact h_rparen_error _ _ _ _ _ hc
            | ok p =>
              obtain ⟨values2, operators2⟩ := p
              exact h_rparen _ _ _ _ _ _ _ hc (ih _ _ _ _ hn)
          · by_cases hu : is_unary ch prev = true
            · rw [run_unary _ _ _ _ _ hu]
              cases hs : sign_run prev (ch :: input) 0 with
              | error e => exact h_sign_error _ _ _ _ _ _ hu hs
              | ok p =>
                obtain ⟨count, prev2, rest⟩ := p
                have hlen := sign_run_length_lt _ _ _ _ _ _ _ hu hs
                simp only []
                cases hp : process_operator (Fraction.new 0 1 :: values) operators
                    (if count % 2 = 0 then '+' else '-') with
                | error e => exact h_unary_error _ _ _ _ _ _ _ _ _ hu hs hp
                | ok q =>
                  obtain ⟨values2, operators2⟩ := q
                  exact h_unary _ _ _ _ _ _ _ _ _ _ _ hu hs hp (ih _ _ _ _ (by omega))
            · have hu' : is_unary ch prev = false := by simpa using hu
              rw [run_operator _ _ _ _ _ hd' hl hr hu']
              cases hp : process_operator values operators ch with
              | error e => exact h_operator_error _ _ _ _ _ _ hd' hl hr hu' hp
              | ok q =>
                obtain ⟨values2, operators2⟩ := q
                exact h_operator _ _ _ _ _ _ _ _ hd' hl hr hu' hp (ih _ _ _ _ hn)

/-- Every failure of the evaluator carries a message of the source: the iteration bound
of the model is never the cause. -/
theorem run_error_mem (prev : Option Char) (input : List Char) (values : List Fraction)
    (operators : List Char) (e : String) (h : run prev input values operators = .error e) :
    e ∈ source_errors := by
  have key := run_induction (fun _ _ _ _ r => ∀ e, r = .error e → e ∈ source_errors)
    (fun _ values operators e h => finish_error_mem values operators e h)
    (fun _ _ _ _ _ _ _ ih => ih)
    (fun _ _ _ _ _ ih => ih)
    (fun _ _ values operators e hc e2 h2 => by
      cases h2; exact collapse_error_mem operators values _ hc)
    (fun _ _ _ _ _ _ _ _ ih => ih)
    (fun prev ch input _ _ e _ hs e2 h2 => by
      cases h2; exact sign_run_error_mem _ _ _ _ hs)
    (fun _ _ _ values operators count _ _ e _ _ hp e2 h2 => by
      cases h2; exact process_operator_error_mem _ _ _ _ hp)
    (fun _ _ _ _ _ _ _ _ _ _ _ _ _ _ ih => ih)
    (fun _ ch _ values operators e _ _ _ _ hp e2 h2 => by
      cases h2; exact process_operator_error_mem _ _ _ _ hp)
    (fun _ _ _ _ _ _ _ _ _ _ _ _ _ ih => ih)
    input.length prev input values operators le_rfl
  exact key e h

theorem expression_evaluate_error_mem (s : String) (e : String)
    (h : expression_evaluate s = .error e) : e ∈ source_errors := by
  unfold expression_evaluate at h
  by_cases hne : remove_spaces s.toList = []
  · rw [hne] at h
    have h0 : evaluate_input [] = .error "expression is empty" := rfl
    rw [h0] at h
    cases h
    decide
  · rw [evaluate_input_eq_run _ hne] at h
    exact run_error_mem _ _ _ _ _ h

/-- An evaluation that returns no value fails with a message of the source. -/
theorem fails_of_not_ok (s : String) (h : ∀ v, expression_evaluate s ≠ .ok v) :
    ∃ e ∈ source_errors, expression_evaluate s = .error e := by
  cases hr : expression_evaluate s with
  | ok v => exact absurd hr (h v)
  | error e => exact ⟨e, expression_evaluate_error_mem s e hr, rfl⟩

/-! ## Parentheses -/

theorem paren_depth_skip (ch : Char) (h1 : ch ≠ '(') (h2 : ch ≠ ')') (depth : Nat)
    (input : List Char) : paren_depth depth (ch :: input) = paren_depth depth input := by
  simp [paren_depth, h1, h2]

theorem digit_not_paren (ch : Char) (h : isdigit ch = true) : ch ≠ '(' ∧ ch ≠ ')' := by
  rw [isdigit_iff] at h
  constructor <;> (rintro rfl; revert h; decide)

theorem paren_depth_parse_digits (text : List Char) : ∀ (prev : Option Char) (value : Int)
    (depth : Nat), paren_depth depth text = paren_depth depth (parse_digits prev text value).2.2 := by
  induction text with
  | nil => intro prev value depth; rfl
  | cons ch text ih =>
    intro prev value depth
    simp only [parse_digits]
    split
    · rename_i hd
      obtain ⟨h1, h2⟩ := digit_not_paren ch hd
      rw [paren_depth_skip ch h1 h2]
      exact ih _ _ _
    · rfl

theorem paren_depth_sign_run (input : List Char) : ∀ (prev : Option Char) (count : Nat)
    (count2 : Nat) (prev2 : Option Char) (rest : List Char) (depth : Nat),
    sign_run prev input count = .ok (count2, prev2, rest) →
    paren_depth depth input = paren_depth depth rest := by
  induction input with
  | nil =>
    intro prev count count2 prev2 rest depth h
    simp [sign_run] at h
    rw [h.2.2]
  | cons ch input ih =>
    intro prev count count2 prev2 rest depth h
    simp only [sign_run] at h
    split at h
    · rename_i hch
      split at h
      · cases h
      · have h1 : ch ≠ '(' := by rcases hch with rfl | rfl <;> decide
        have h2 : ch ≠ ')' := by rcases hch with rfl | rfl <;> decide
        rw [paren_depth_skip ch h1 h2]
        exact ih _ _ _ _ _ _ h
    · cases h; rfl

theorem apply_operator_ok_binary (values : List Fraction) (op : Char)
    (values2 : List Fraction) (h : apply_operator values op = .ok values2) :
    is_binary_operator op := by
  match values with
  | [] => simp [apply_operator] at h
  | [_] => simp [apply_operator] at h
  | b :: a :: values =>
    rw [apply_operator_binop] at h
    by_contra hn
    simp only [is_binary_operator, not_or] at hn
    obtain ⟨h1, h2, h3, h4, h5⟩ := hn
    simp [binop, h1, h2, h3, h4, h5] at h

theorem precedence_ok_binary (op : Char) (p : Int) (h : precedence op = .ok p) :
    is_binary_operator op := by
  by_contra hn
  simp only [is_binary_operator, not_or] at hn
  obtain ⟨h1, h2, h3, h4, h5⟩ := hn
  simp [precedence, h1, h2, h3, h4, h5] at h

theorem binary_ne_lparen (op : Char) (h : is_binary_operator op) : op ≠ '(' :=
  (binary_operator_facts op h).2.1

/-- A successful `collapse` removes exactly one `(` from the operator stack. -/
theorem collapse_count (operators : List Char) : ∀ (values values2 : List Fraction)
    (operators2 : List Char), collapse values operators = .ok (values2, operators2) →
    operators.count '(' = operators2.count '(' + 1 := by
  induction operators with
  | nil => intro values values2 operators2 h; simp [collapse] at h
  | cons top operators ih =>
    intro values values2 operators2 h
    simp only [collapse] at h
    split at h
    · rename_i htop
      split at h
      · cases h
      · rw [List.count_cons_of_ne (Ne.symm htop)]
        exact ih _ _ _ h
    · rename_i htop
      have : top = '(' := by simpa using htop
      subst this
      cases h
      simp

/-- A successful `process_operator` keeps the number of `(` on the operator stack. -/
theorem process_operator_count (operators : List Char) : ∀ (values values2 : List Fraction)
    (op : Char) (operators2 : List Char), op ≠ '(' →
    process_operator values operators op = .ok (values2, operators2) →
    operators2.count '(' = operators.count '(' := by
  induction operators with
  | nil =>
    intro values values2 op operators2 hop h
    simp only [process_operator, Except.ok.injEq, Prod.mk.injEq] at h
    rw [← h.2]
    simp [List.count_cons_of_ne (Ne.symm hop)]
  | cons top operators ih =>
    intro values values2 op operators2 hop h
    simp only [process_operator] at h
    split at h
    · cases h
      rw [List.count_cons_of_ne (Ne.symm hop)]
    · rename_i htop
      split at h
      · cases h
      · split at h
        · cases h
        · split at h
          · split at h
            · cases h
            · rw [List.count_cons_of_ne (Ne.symm htop)]
              exact ih _ _ _ _ hop h
          · cases h
            rw [List.count_cons_of_ne (Ne.symm hop)]

theorem drain_count (operators : List Char) : ∀ (values values2 : List Fraction),
    drain values operators = .ok values2 → operators.count '(' = 0 := by
  induction operators with
  | nil => intro values values2 _; rfl
  | cons top operators ih =>
    intro values values2 h
    simp only [drain] at h
    split at h
    · cases h
    · rename_i htop
      have h1 : top ≠ '(' := fun h => htop (Or.inl h)
      split at h
      · cases h
      · rw [List.count_cons_of_ne (Ne.symm h1)]
        exact ih _ _ h

theorem finish_count (values : List Fraction) (operators : List Char) (v : Fraction)
    (h : finish values operators = .ok v) : operators.count '(' = 0 := by
  unfold finish at h
  split at h
  · cases h
  · rename_i hd
    exact drain_count _ _ _ hd
  · cases h

/-- When the evaluator returns a value, the parentheses of the remaining input close
exactly the `(` that are on the operator stack. -/
theorem run_ok_paren_depth (prev : Option Char) (input : List Char) (values : List Fraction)
    (operators : List Char) (v : Fraction) (h : run prev input values operators = .ok v) :
    paren_depth (operators.count '(') input = some 0 := by
  have key := run_induction
    (fun _ input _ operators r => ∀ v, r = .ok v →
      paren_depth (operators.count '(') input = some 0)
    (fun _ values operators v h => by
      rw [finish_count values operators v h]; rfl)
    (fun prev ch input _ operators _ _ ih v h => by
      rw [paren_depth_parse_digits (ch :: input) prev 0]
      exact ih v h)
    (fun _ input _ operators _ ih v h => by
      have := ih v h
      simpa [paren_depth] using this)
    (fun _ _ _ _ _ _ v h => by cases h)
    (fun _ input values operators values2 operators2 _ hc ih v h => by
      have h1 := collapse_count _ _ _ _ hc
      have h2 := ih v h
      have h3 : ¬ (')' = '(') := by decide
      simp only [paren_depth, h3, if_false, if_true, h1, Nat.add_sub_cancel]
      simpa using h2)
    (fun _ _ _ _ _ _ _ _ v h => by cases h)
    (fun _ _ _ _ _ _ _ _ _ _ _ _ v h => by cases h)
    (fun prev ch input values operators count prev2 rest values2 operators2 _ _ hs hp ih v h => by
      have h1 := process_operator_count _ _ _ _ _
        (by split_ifs <;> decide) hp
      rw [paren_depth_sign_run _ _ _ _ _ _ (operators.count '(') hs, ← h1]
      exact ih v h)
    (fun _ _ _ _ _ _ _ _ _ _ _ v h => by cases h)
    (fun prev ch input values operators values2 operators2 _ _ hl hr _ hp ih v h => by
      have h1 := process_operator_count _ _ _ _ _ hl hp
      rw [paren_depth_skip ch hl hr, ← h1]
      exact ih v h)
    input.length prev input values operators le_rfl
  exact key v h

theorem paren_depth_remove_spaces (input : List Char) : ∀ (depth : Nat),
    paren_depth depth (remove_spaces input) = paren_depth depth input := by
  induction input with
  | nil => intro depth; rfl
  | cons ch input ih =>
    intro depth
    by_cases hs : isspace ch = true
    · have h1 : ch ≠ '(' := by rintro rfl; revert hs; decide
      have h2 : ch ≠ ')' := by rintro rfl; revert hs; decide
      have : remove_spaces (ch :: input) = remove_spaces input := by
        simp [remove_spaces, hs]
      rw [this, paren_depth_skip ch h1 h2, ih]
    · have hs' : isspace ch = false := by simpa using hs
      rw [remove_spaces_cons ch input hs']
      simp only [paren_depth, ih]

/-- The depth computed by `paren_depth` in terms of counts: no prefix closes more than
it opens, and the final depth is the difference of the totals. -/
theorem paren_depth_counts (input : List Char) : ∀ (depth depth2 : Nat),
    paren_depth depth input = some depth2 →
    (∀ n, (input.take n).count ')' ≤ depth + (input.take n).count '(') ∧
    depth + input.count '(' = depth2 + input.count ')' := by
  induction input with
  | nil =>
    intro depth depth2 h
    simp only [paren_depth, Option.some.injEq] at h
    simp [h]
  | cons ch input ih =>
    intro depth depth2 h
    simp only [paren_depth] at h
    by_cases h1 : ch = '('
    · subst h1
      simp only [if_true] at h
      obtain ⟨ha, hb⟩ := ih _ _ h
      have hne : ¬ ('(' = ')') := by decide
      constructor
      · intro n
        cases n with
        | zero => simp
        | succ n =>
          have := ha n
          simp only [List.take_succ_cons, List.count_cons_self,
            List.count_cons_of_ne (show ')' ≠ '(' by decide)]
          omega
      · simp only [List.count_cons_self, List.count_cons_of_ne (show ')' ≠ '(' by decide)]
        omega
    · simp only [h1, if_false] at h
      by_cases h2 : ch = ')'
      · subst h2
        simp only [if_true] at h
        split at h
        · cases h
        · rename_i hd
          obtain ⟨ha, hb⟩ := ih _ _ h
          constructor
          · intro n
            cases n with
            | zero => simp
            | succ n =>
              have := ha n
              simp only [List.take_succ_cons, List.count_cons_self,
                List.count_cons_of_ne (show '(' ≠ ')' by decide)]
              omega
          · simp only [List.count_cons_self, List.count_cons_of_ne (show '(' ≠ ')' by decide)]
            omega
      · simp only [h2, if_false] at h
        obtain ⟨ha, hb⟩ := ih _ _ h
        constructor
        · intro n
          cases n with
          | zero => simp
          | succ n =>
            have := ha n
            simp only [List.take_succ_cons, List.count_cons_of_ne (Ne.symm h1),
              List.count_cons_of_ne (Ne.symm h2)]
            omega
        · simp only [List.count_cons_of_ne (Ne.symm h1), List.count_cons_of_ne (Ne.symm h2)]
          omega

/-- C11: if `expression_evaluate` returns a value then the parentheses of the input are
balanced: every prefix has at least as many `(` as `)`, and the totals are equal.  So a
`)` without a matching `(`, or a `(` that is never closed, makes the evaluation fail;
`"(1 + 2"` fails with "mismatched parentheses" and `"1 + 2)"` with "missing opening
parenthesis". -/
theorem unbalanced_parentheses_rejected (s : String) (v : Fraction)
    (h : expression_evaluate s = .ok v) :
    (∀ n, (s.toList.take n).count ')' ≤ (s.toList.take n).count '(') ∧
    s.toList.count '(' = s.toList.count ')' ∧
    expression_evaluate "(1 + 2" = .error "mismatched parentheses" ∧
    expression_evaluate "1 + 2)" = .error "missing opening parenthesis" := by
  have hne : remove_spaces s.toList ≠ [] := by
    intro h0
    unfold expression_evaluate at h
    rw [h0] at h
    cases h
  unfold expression_evaluate at h
  rw [evaluate_input_eq_run _ hne] at h
  have hd := run_ok_paren_depth _ _ _ _ _ h
  rw [List.count_nil, paren_depth_remove_spaces] at hd
  obtain ⟨ha, hb⟩ := paren_depth_counts _ _ _ hd
  refine ⟨fun n => by simpa using ha n, by simpa using hb, by decide, by decide⟩

theorem unbalanced_parentheses_rejected_witness :
    ("((1 + 2) * 3)".toList.take 5).count ')' ≤ ("((1 + 2) * 3)".toList.take 5).count '(' ∧
    "((1 + 2) * 3)".toList.count '(' = "((1 + 2) * 3)".toList.count ')' :=
  ⟨(unbalanced_parentheses_rejected "((1 + 2) * 3)" ⟨9, 1⟩ (by decide)).1 5,
   (unbalanced_parentheses_rejected "((1 + 2) * 3)" ⟨9, 1⟩ (by decide)).2.1⟩

/-! ## Signs after `*`, `/`, `^` -/

theorem sign_after_operator_skip (prev : Option Char) (ch : Char) (input : List Char)
    (h : ¬ ((ch = '+' ∨ ch = '-') ∧ (prev = some '*' ∨ prev = some '/' ∨ prev = some '^'))) :
    sign_after_operator prev (ch :: input) = sign_after_operator (some ch) input := by
  simp only [sign_after_operator]
  have : (decide (ch = '+' ∨ ch = '-') &&
      decide (prev = some '*' ∨ prev = some '/' ∨ prev = some '^')) = false := by
    simpa using h
  rw [this, Bool.false_or]

theorem digit_not_sign (ch : Char) (h : isdigit ch = true) : ¬ (ch = '+' ∨ ch = '-') := by
  rw [isdigit_iff] at h
  rintro (rfl | rfl) <;> (revert h; decide)

theorem sign_after_operator_parse_digits (text : List Char) : ∀ (prev : Option Char)
    (value : Int), sign_after_operator prev text =
      sign_after_operator (parse_digits prev text value).2.1
        (parse_digits prev text value).2.2 := by
  induction text with
  | nil => intro prev value; rfl
  | cons ch text ih =>
    intro prev value
    simp only [parse_digits]
    split
    · rename_i hd
      rw [sign_after_operator_skip prev ch text (fun h => digit_not_sign ch hd h.1)]
      exact ih _ _
    · rfl

theorem sign_after_operator_sign_run (input : List Char) : ∀ (prev : Option Char)
    (count count2 : Nat) (prev2 : Option Char) (rest : List Char),
    sign_run prev input count = .ok (count2, prev2, rest) →
    sign_after_operator prev input = sign_after_operator prev2 rest := by
  induction input with
  | nil =>
    intro prev count count2 prev2 rest h
    simp [sign_run] at h
    rw [h.2.1, h.2.2]
  | cons ch input ih =>
    intro prev count count2 prev2 rest h
    simp only [sign_run] at h
    split at h
    · split at h
      · cases h
      · rename_i hp
        rw [sign_after_operator_skip prev ch input (fun h => hp h.2)]
        exact ih _ _ _ _ _ h
    · cases h; rfl

theorem sign_after_operator_not_unary (prev : Option Char) (ch : Char) (input : List Char)
    (h : is_unary ch prev = false) :
    sign_after_operator prev (ch :: input) = sign_after_operator (some ch) input := by
  apply sign_after_operator_skip
  rintro ⟨h1, h2⟩
  have : is_unary ch prev = true := by
    simp only [is_unary, Bool.and_eq_true, Bool.or_eq_true, decide_eq_true_eq]
    refine ⟨h1, ?_⟩
    rcases h2 with h2 | h2 | h2 <;> simp [h2]
  rw [h] at this
  cases this

/-- When the evaluator returns a value, no sign of the remaining input stands directly
after `*`, `/` or `^`. -/
theorem run_ok_no_sign_after_operator (prev : Option Char) (input : List Char)
    (values : List Fraction) (operators : List Char) (v : Fraction)
    (h : run prev input values operators = .ok v) :
    sign_after_operator prev input = false := by
  have key := run_induction
    (fun prev input _ _ r => ∀ v, r = .ok v → sign_after_operator prev input = false)
    (fun _ _ _ _ _ => rfl)
    (fun prev ch input _ _ _ _ ih v h => by
      rw [sign_after_operator_parse_digits (ch :: input) prev 0]
      exact ih v h)
    (fun prev input _ _ _ ih v h => by
      rw [sign_after_operator_skip prev '(' input (fun h => by
        rcases h.1 with h | h <;> revert h <;> decide)]
      exact ih v h)
    (fun _ _ _ _ _ _ v h => by cases h)
    (fun prev input _ _ _ _ _ _ ih v h => by
      rw [sign_after_operator_skip prev ')' input (fun h => by
        rcases h.1 with h | h <;> revert h <;> decide)]
      exact ih v h)
    (fun _ _ _ _ _ _ _ _ v h => by cases h)
    (fun _ _ _ _ _ _ _ _ _ _ _ _ v h => by cases h)
    (fun prev ch input _ _ count prev2 rest _ _ _ _ hs _ ih v h => by
      rw [sign_after_operator_sign_run _ _ _ _ _ _ hs]
      exact ih v h)
    (fun _ _ _ _ _ _ _ _ _ _ _ v h => by cases h)
    (fun prev ch input _ _ _ _ _ _ _ _ hu _ ih v h => by
      rw [sign_after_operator_not_unary prev ch input hu]
      exact ih v h)
    input.length prev input values operators le_rfl
  exact key v h

theorem sign_after_operator_of_pair (pre : List Char) : ∀ (prev : Option Char) (c1 c2 : Char)
    (post : List Char), (c1 = '*' ∨ c1 = '/' ∨ c1 = '^') → (c2 = '+' ∨ c2 = '-') →
    sign_after_operator prev (pre ++ c1 :: c2 :: post) = true := by
  induction pre with
  | nil =>
    intro prev c1 c2 post h1 h2
    have h3 : (some c1 = some '*' ∨ some c1 = some '/' ∨ some c1 = some '^') := by
      rcases h1 with rfl | rfl | rfl <;> simp
    rw [List.nil_append]
    simp only [sign_after_operator, decide_eq_true h2, decide_eq_true h3, Bool.and_self,
      Bool.true_or, Bool.or_true]
  | cons ch pre ih =>
    intro prev c1 c2 post h1 h2
    rw [List.cons_append]
    simp only [sign_after_operator]
    rw [ih (some ch) c1 c2 post h1 h2, Bool.or_true]

/-- C12: if the input without white space contains a `+` or `-` immediately preceded by
`*`, `/` or `^`, then `expression_evaluate` returns no value and fails with a message of
the source; `"2*-3"` and `"2^-1"` fail with "invalid use of unary operator after '*',
'/' or '^'". -/
theorem sign_after_operator_rejected (s : String) (pre post : List Char) (c1 c2 : Char)
    (h1 : c1 = '*' ∨ c1 = '/' ∨ c1 = '^') (h2 : c2 = '+' ∨ c2 = '-')
    (hs : remove_spaces s.toList = pre ++ c1 :: c2 :: post) :
    (∀ v, expression_evaluate s ≠ .ok v) ∧
    (∃ e ∈ source_errors, expression_evaluate s = .error e) ∧
    expression_evaluate "2*-3" =
      .error "invalid use of unary operator after '*', '/' or '^'" ∧
    expression_evaluate "2^-1" =
      .error "invalid use of unary operator after '*', '/' or '^'" := by
  have hno : ∀ v, expression_evaluate s ≠ .ok v := by
    intro v h
    unfold expression_evaluate at h
    rw [evaluate_input_eq_run _ (by rw [hs]; simp)] at h
    have h3 := run_ok_no_sign_after_operator _ _ _ _ _ h
    rw [hs, sign_after_operator_of_pair pre none c1 c2 post h1 h2] at h3
    cases h3
  exact ⟨hno, fails_of_not_ok s hno, by decide, by decide⟩

theorem sign_after_operator_rejected_witness :
    expression_evaluate "(4 + 2 / -3) * 5" ≠ .ok ⟨0, 1⟩ ∧
    (∃ e ∈ source_errors, expression_evaluate "(4 + 2 / -3) * 5" = .error e) :=
  ⟨(sign_after_operator_rejected "(4 + 2 / -3) * 5" "(4+2".toList "3)*5".toList '/' '-'
      (by decide) (by decide) (by decide)).1 ⟨0, 1⟩,
   (sign_after_operator_rejected "(4 + 2 / -3) * 5" "(4+2".toList "3)*5".toList '/' '-'
      (by decide) (by decide) (by decide)).2.1⟩

/-! ## Unknown characters -/

/-- What a successful run leaves only on the operator stack: `(` and binary operators. -/
theorem process_operator_stack_ok (operators : List Char) : ∀ (values values2 : List Fraction)
    (op : Char) (operators2 : List Char),
    process_operator values operators op = .ok (values2, operators2) →
    (∀ c ∈ operators2, c = '(' ∨ is_binary_operator c) →
    (op = '(' ∨ is_binary_operator op) ∧ ∀ c ∈ operators, c = '(' ∨ is_binary_operator c := by
  induction operators with
  | nil =>
    intro values values2 op operators2 h hok
    simp only [process_operator, Except.ok.injEq, Prod.mk.injEq] at h
    rw [← h.2] at hok
    exact ⟨hok op (by simp), by simp⟩
  | cons top operators ih =>
    intro values values2 op operators2 h hok
    simp only [process_operator] at h
    split at h
    · cases h
      exact ⟨hok op (by simp), fun c hc => hok c (List.mem_cons_of_mem _ hc)⟩
    · split at h
      · cases h
      · rename_i p hp
        split at h
        · cases h
        · split at h
          · split at h
            · cases h
            · obtain ⟨h1, h2⟩ := ih _ _ _ _ h hok
              refine ⟨h1, ?_⟩
              intro c hc
              rcases List.mem_cons.1 hc with rfl | hc
              · exact Or.inr (precedence_ok_binary _ _ hp)
              · exact h2 c hc
          · cases h
            exact ⟨hok op (by simp), fun c hc => hok c (List.mem_cons_of_mem _ hc)⟩

theorem collapse_stack_ok (operators : List Char) : ∀ (values values2 : List Fraction)
    (operators2 : List Char), collapse values operators = .ok (values2, operators2) →
    (∀ c ∈ operators2, c = '(' ∨ is_binary_operator c) →
    ∀ c ∈ operators, c = '(' ∨ is_binary_operator c := by
  induction operators with
  | nil => intro values values2 operators2 h; simp [collapse] at h
  | cons top operators ih =>
    intro values values2 operators2 h hok
    simp only [collapse] at h
    split at h
    · split at h
      · cases h
      · rename_i ha
        intro c hc
        rcases List.mem_cons.1 hc with rfl | hc
        · exact Or.inr (apply_operator_ok_binary _ _ _ ha)
        · exact ih _ _ _ h hok c hc
    · rename_i htop
      have : top = '(' := by simpa using htop
      cases h
      intro c hc
      rcases List.mem_cons.1 hc with rfl | hc
      · exact Or.inl this
      · exact hok c hc

theorem drain_stack_ok (operators : List Char) : ∀ (values values2 : List Fraction),
    drain values operators = .ok values2 → ∀ c ∈ operators, is_binary_operator c := by
  induction operators with
  | nil => intro values values2 _ c hc; cases hc
  | cons top operators ih =>
    intro values values2 h
    simp only [drain] at h
    split at h
    · cases h
    · split at h
      · cases h
      · rename_i ha
        intro c hc
        rcases List.mem_cons.1 hc with rfl | hc
        · exact apply_operator_ok_binary _ _ _ ha
        · exact ih _ _ h c hc

theorem finish_stack_ok (values : List Fraction) (operators : List Char) (v : Fraction)
    (h : finish values operators = .ok v) : ∀ c ∈ operators, is_binary_operator c := by
  unfold finish at h
  split at h
  · cases h
  · rename_i hd
    exact drain_stack_ok _ _ _ hd
  · cases h

theorem known_of_digit (ch : Char) (h : isdigit ch = true) : known_char ch := Or.inl h

theorem known_of_binary (ch : Char) (h : is_binary_operator ch) : known_char ch := by
  rcases h with h | h | h | h | h <;> simp [known_char, h]

theorem known_parse_digits (text : List Char) : ∀ (prev : Option Char) (value : Int),
    (∀ c ∈ (parse_digits prev text value).2.2, known_char c) → ∀ c ∈ text, known_char c := by
  induction text with
  | nil => intro prev value _ c hc; cases hc
  | cons ch text ih =>
    intro prev value h c hc
    simp only [parse_digits] at h
    split at h
    · rename_i hd
      rcases List.mem_cons.1 hc with rfl | hc
      · exact known_of_digit _ hd
      · exact ih _ _ h c hc
    · exact h c hc

theorem known_sign_run (input : List Char) : ∀ (prev : Option Char) (count count2 : Nat)
    (prev2 : Option Char) (rest : List Char),
    sign_run prev input count = .ok (count2, prev2, rest) →
    (∀ c ∈ rest, known_char c) → ∀ c ∈ input, known_char c := by
  induction input with
  | nil => intro prev count count2 prev2 rest _ _ c hc; cases hc
  | cons ch input ih =>
    intro prev count count2 prev2 rest h hk c hc
    simp only [sign_run] at h
    split at h
    · rename_i hch
      split at h
      · cases h
      · rcases List.mem_cons.1 hc with rfl | hc
        · rcases hch with h | h <;> simp [known_char, h]
        · exact ih _ _ _ _ _ h hk c hc
    · cases h
      exact hk c hc

/-- When the evaluator returns a value, the remaining input consists of known characters
and the operator stack of `(` and binary operators. -/
theorem run_ok_known (prev : Option Char) (input : List Char) (values : List Fraction)
    (operators : List Char) (v : Fraction) (h : run prev input values operators = .ok v) :
    (∀ c ∈ input, known_char c) ∧ (∀ c ∈ operators, c = '(' ∨ is_binary_operator c) := by
  have key := run_induction
    (fun _ input _ operators r => ∀ v, r = .ok v →
      (∀ c ∈ input, known_char c) ∧ (∀ c ∈ operators, c = '(' ∨ is_binary_operator c))
    (fun _ values operators v h => by
      refine ⟨?_, ?_⟩
      · intro c hc; cases hc
      · intro c hc; exact Or.inr (finish_stack_ok values operators v h c hc))
    (fun prev ch input _ _ _ _ ih v h => by
      exact ⟨known_parse_digits (ch :: input) prev 0 (ih v h).1, (ih v h).2⟩)
    (fun _ input _ operators _ ih v h => by
      obtain ⟨h1, h2⟩ := ih v h
      refine ⟨?_, fun c hc => h2 c (List.mem_cons_of_mem _ hc)⟩
      intro c hc
      rcases List.mem_cons.1 hc with rfl | hc
      · simp [known_char]
      · exact h1 c hc)
    (fun _ _ _ _ _ _ v h => by cases h)
    (fun _ input _ _ _ _ _ hc ih v h => by
      obtain ⟨h1, h2⟩ := ih v h
      refine ⟨?_, collapse_stack_ok _ _ _ _ hc h2⟩
      intro c hc
      rcases List.mem_cons.1 hc with rfl | hc
      · simp [known_char]
      · exact h1 c hc)
    (fun _ _ _ _ _ _ _ _ v h => by cases h)
    (fun _ _ _ _ _ _ _ _ _ _ _ _ v h => by cases h)
    (fun prev ch input _ _ count prev2 rest _ _ _ _ hs hp ih v h => by
      obtain ⟨h1, h2⟩ := ih v h
      exact ⟨known_sign_run _ _ _ _ _ _ hs h1, (process_operator_stack_ok _ _ _ _ _ hp h2).2⟩)
    (fun _ _ _ _ _ _ _ _ _ _ _ v h => by cases h)
    (fun prev ch input _ _ _ _ _ _ hl _ _ hp ih v h => by
      obtain ⟨h1, h2⟩ := ih v h
      obtain ⟨h3, h4⟩ := process_operator_stack_ok _ _ _ _ _ hp h2
      refine ⟨?_, h4⟩
      intro c hc
      rcases List.mem_cons.1 hc with rfl | hc
      · rcases h3 with h3 | h3
        · exact absurd h3 hl
        · exact known_of_binary _ h3
      · exact h1 c hc)
    input.length prev input values operators le_rfl
  exact key v h

/-- C13: if the input without white space contains a character other than a decimal
digit, `+`, `-`, `*`, `/`, `^`, `(` or `)`, at any position, then `expression_evaluate`
returns no value and fails with a message of the source. -/
theorem unknown_character_rejected (s : String) (x : Char)
    (hx : x ∈ remove_spaces s.toList) (hk : ¬ known_char x) :
    (∀ v, expression_evaluate s ≠ .ok v) ∧
    (∃ e ∈ source_errors, expression_evaluate s = .error e) := by
  have hno : ∀ v, expression_evaluate s ≠ .ok v := by
    intro v h
    unfold expression_evaluate at h
    rw [evaluate_input_eq_run _ (List.ne_nil_of_mem hx)] at h
    exact hk ((run_ok_known _ _ _ _ _ h).1 x hx)
  exact ⟨hno, fails_of_not_ok s hno⟩

theorem unknown_character_rejected_witness :
    expression_evaluate "(1 + x) * 2" ≠ .ok ⟨4, 1⟩ ∧
    (∃ e ∈ source_errors, expression_evaluate "(1 + x) * 2" = .error e) :=
  ⟨(unknown_character_rejected "(1 + x) * 2" 'x' (by decide) (by decide)).1 ⟨4, 1⟩,
   (unknown_character_rejected "(1 + x) * 2" 'x' (by decide) (by decide)).2⟩

/-! ## Stack: buffer lemmas -/

theorem allocate_length {α : Type} [Inhabited α] (capacity : Nat) :
    (allocate capacity : List α).length = capacity := by
  unfold allocate
  split
  · rename_i h; simp [h]
  · simp

theorem copy_elements_length {α : Type} [Inhabited α] (dst src : List α) (n : Nat) :
    (copy_elements dst src n).length = dst.length := by
  induction n with
  | zero => rfl
  | succ i ih => simp [copy_elements, ih]

theorem copy_elements_getElem? {α : Type} [Inhabited α] (dst src : List α) (n : Nat) :
    n ≤ dst.length → ∀ j, (copy_elements dst src n)[j]? =
      if j < n then some (src.getD j default) else dst[j]? := by
  induction n with
  | zero => intro _ j; simp [copy_elements]
  | succ i ih =>
    intro hn j
    have hi : i < (copy_elements dst src i).length := by
      rw [copy_elements_length]; omega
    simp only [copy_elements, List.getElem?_set]
    by_cases hij : i = j
    · subst hij
      simp [hi]
    · rw [if_neg hij, ih (by omega) j]
      by_cases hj : j < i
      · simp [hj, Nat.lt_succ_of_lt hj]
      · have : ¬ j < i + 1 := by omega
        simp [hj, this]

theorem copy_elements_take {α : Type} [Inhabited α] (dst src : List α) (n : Nat)
    (h1 : n ≤ dst.length) (h2 : n ≤ src.length) :
    (copy_elements dst src n).take n = src.take n := by
  apply List.ext_getElem?
  intro m
  rw [List.getElem?_take, List.getElem?_take, copy_elements_getElem? dst src n h1]
  by_cases hm : m < n
  · have : m < src.length := by omega
    simp [hm, List.getD_eq_getElem?_getD, List.getElem?_eq_getElem this]
  · simp [hm]

theorem grow_capacity_ge (fuel : Nat) : ∀ (new_capacity min_capacity : Nat),
    min_capacity ≤ new_capacity * 2 ^ fuel →
    min_capacity ≤ grow_capacity fuel new_capacity min_capacity := by
  induction fuel with
  | zero => intro nc m h; simpa [grow_capacity] using h
  | succ fuel ih =>
    intro nc m h
    simp only [grow_capacity]
    split
    · apply ih
      calc m ≤ nc * 2 ^ (fuel + 1) := h
        _ = nc * 2 * 2 ^ fuel := by rw [pow_succ]; ring
    · omega

theorem grow_capacity_start_le (fuel : Nat) : ∀ (new_capacity min_capacity : Nat),
    new_capacity ≤ grow_capacity fuel new_capacity min_capacity := by
  induction fuel with
  | zero => intro nc m; simp [grow_capacity]
  | succ fuel ih =>
    intro nc m
    simp only [grow_capacity]
    split
    · exact le_trans (by omega) (ih (nc * 2) m)
    · exact le_rfl

theorem grow_capacity_full (capacity : Nat) (h : 0 < capacity) :
    grow_capacity (capacity + 1) capacity (capacity + 1) = 2 * capacity := by
  obtain ⟨k, rfl⟩ : ∃ k, capacity = k + 1 := ⟨capacity - 1, by omega⟩
  simp only [grow_capacity]
  have h1 : k + 1 < k + 1 + 1 := by omega
  have h2 : ¬ ((k + 1) * 2 < k + 1 + 1) := by omega
  simp only [h1, h2, if_true, if_false]
  ring

theorem wf_elements_length {α : Type} (s : Stack α) (h : s.WF) :
    s.elements.length = s.size_ := by
  obtain ⟨h1, h2⟩ := h
  simp only [Stack.elements, List.length_take]
  omega

/-! ## Stack: the member functions -/

theorem ensure_capacity_spec {α : Type} [Inhabited α] (s : Stack α) (m : Nat) (h : s.WF) :
    (s.ensure_capacity m).WF ∧ m ≤ (s.ensure_capacity m).capacity_ ∧
    (s.ensure_capacity m).size_ = s.size_ ∧ (s.ensure_capacity m).elements = s.elements := by
  obtain ⟨h1, h2⟩ := h
  unfold Stack.ensure_capacity
  split
  · rename_i hc
    exact ⟨⟨h1, h2⟩, hc, rfl, rfl⟩
  · rename_i hc
    have hc' : s.capacity_ < m := by omega
    have hpos : 1 ≤ (if s.capacity_ = 0 then DEFAULT_CAPACITY else s.capacity_) := by
      split
      · decide
      · omega
    have hge : m ≤ grow_capacity m (if s.capacity_ = 0 then DEFAULT_CAPACITY else s.capacity_) m := by
      apply grow_capacity_ge
      calc m ≤ 2 ^ m := le_of_lt (Nat.lt_two_pow m)
        _ = 1 * 2 ^ m := (one_mul _).symm
        _ ≤ _ := Nat.mul_le_mul_right _ hpos
    refine ⟨⟨?_, ?_⟩, hge, rfl, ?_⟩
    · show s.size_ ≤ grow_capacity m _ m
      omega
    · show (copy_elements _ _ _).length = _
      rw [copy_elements_length, allocate_length]
    · show (copy_elements _ _ _).take s.size_ = s.data_.take s.size_
      apply copy_elements_take
      · rw [allocate_length]; omega
      · omega

/-- On a well-formed stack `push` appends the value to the elements. -/
theorem push_spec {α : Type} [Inhabited α] (s : Stack α) (x : α) (h : s.WF) :
    (s.push x).WF ∧ (s.push x).size_ = s.size_ + 1 ∧ (s.push x).elements = s.elements ++ [x] := by
  obtain ⟨⟨e1, e2⟩, e3, e4, e5⟩ := ensure_capacity_spec s (s.size_ + 1) h
  have hlt : (s.ensure_capacity (s.size_ + 1)).size_ <
      (s.ensure_capacity (s.size_ + 1)).data_.length := by omega
  refine ⟨⟨?_, ?_⟩, ?_, ?_⟩
  · show (s.ensure_capacity (s.size_ + 1)).size_ + 1 ≤ (s.ensure_capacity (s.size_ + 1)).capacity_
    omega
  · show ((s.ensure_capacity (s.size_ + 1)).data_.set _ x).length = _
    rw [List.length_set, e2]
    rfl
  · show (s.ensure_capacity (s.size_ + 1)).size_ + 1 = _
    rw [e4]
  · show ((s.ensure_capacity (s.size_ + 1)).data_.set _ x).take
      ((s.ensure_capacity (s.size_ + 1)).size_ + 1) = _
    rw [← e5]
    simp only [Stack.elements]
    rw [List.take_succ, List.getElem?_set_self hlt, List.set_take,
      List.set_eq_of_length_le (by rw [List.length_take]; exact Nat.min_le_left _ _)]
    rfl

/-- On a well-formed stack whose elements end with `x`, `pop` returns `x` and removes
it. -/
theorem pop_spec {α : Type} [Inhabited α] (s : Stack α) (l : List α) (x : α) (h : s.WF)
    (he : s.elements = l ++ [x]) :
    (s.pop).1 = .ok x ∧ (s.pop).2.WF ∧ (s.pop).2.size_ = l.length ∧ (s.pop).2.elements = l ∧
    (s.pop).2.capacity_ = s.capacity_ := by
  have hlen := wf_elements_length s h
  rw [he, List.length_append, List.length_singleton] at hlen
  obtain ⟨h1, h2⟩ := h
  have hne : s.size_ ≠ 0 := by omega
  have hx : s.data_[s.size_ - 1]? = some x := by
    have : (s.data_.take s.size_)[s.size_ - 1]? = some x := by
      have he' : s.data_.take s.size_ = l ++ [x] := he
      rw [he', List.getElem?_append]
      have : ¬ (s.size_ - 1 < l.length) := by omega
      simp [this, ← hlen]
    rwa [List.getElem?_take_of_lt (by omega)] at this
  have hpop : s.pop = (.ok (s.data_.getD (s.size_ - 1) default),
      { data_ := s.data_, size_ := s.size_ - 1, capacity_ := s.capacity_ }) := by
    simp only [Stack.pop, hne, if_false]
  rw [hpop]
  refine ⟨?_, ⟨by show s.size_ - 1 ≤ s.capacity_; omega, h2⟩, by show s.size_ - 1 = _; omega, ?_,
    rfl⟩
  · rw [List.getD_eq_getElem?_getD, hx]; rfl
  · show s.data_.take (s.size_ - 1) = l
    have he' : s.data_.take s.size_ = l ++ [x] := he
    have : s.data_.take (s.size_ - 1) = (s.data_.take s.size_).take (s.size_ - 1) := by
      rw [List.take_take, Nat.min_eq_left (by omega)]
    rw [this, he', List.take_append_eq_append_take]
    have h3 : s.size_ - 1 - l.length = 0 := by omega
    have h4 : l.take (s.size_ - 1) = l := by
      rw [List.take_of_length_le (by omega)]
    rw [h3, h4]
    simp

theorem pop_n_snoc {α : Type} [Inhabited α] (n : Nat) : ∀ (s : Stack α),
    Stack.pop_n (n + 1) s =
      ((Stack.pop_n n s).1 ++ [((Stack.pop_n n s).2.pop).1], ((Stack.pop_n n s).2.pop).2) := by
  induction n with
  | zero => intro s; rfl
  | succ n ih =>
    intro s
    have h := ih (s.pop).2
    show ((s.pop).1 :: (Stack.pop_n (n + 1) (s.pop).2).1, (Stack.pop_n (n + 1) (s.pop).2).2) = _
    rw [h]
    rfl

/-- Pushing `xs` and popping as many times gives back `xs` reversed and a stack with the
elements it had before. -/
theorem push_all_pop_n {α : Type} [Inhabited α] (xs : List α) : ∀ (s : Stack α), s.WF →
    (Stack.pop_n xs.length (s.push_all xs)).1 = xs.reverse.map Except.ok ∧
    (Stack.pop_n xs.length (s.push_all xs)).2.WF ∧
    (Stack.pop_n xs.length (s.push_all xs)).2.size_ = s.size_ ∧
    (Stack.pop_n xs.length (s.push_all xs)).2.elements = s.elements := by
  induction xs with
  | nil => intro s h; exact ⟨rfl, h, rfl, rfl⟩
  | cons x xs ih =>
    intro s h
    obtain ⟨p1, p2, p3⟩ := push_spec s x h
    obtain ⟨i1, i2, i3, i4⟩ := ih (s.push x) p1
    have hpa : s.push_all (x :: xs) = (s.push x).push_all xs := rfl
    rw [hpa, List.length_cons, pop_n_snoc]
    rw [p3] at i4
    obtain ⟨q1, q2, q3, q4, _⟩ := pop_spec _ s.elements x i2 i4
    refine ⟨?_, q2, ?_, q4⟩
    · simp only [i1, q1, List.reverse_cons, List.map_append, List.map_cons, List.map_nil]
    · rw [q3, wf_elements_length s h]

/-! ## Theorems on `Stack` (C14 to C16) -/

/-- C14: for every well-formed stack `s` and every list `xs`, pushing the elements of
`xs` in order and then calling `pop()` `|xs|` times succeeds every time, returns the
elements of `xs` in reverse order, and leaves a stack with the size and the elements of
`s`. -/
theorem stack_lifo {α : Type} [Inhabited α] (s : Stack α) (hs : s.WF) (xs : List α) :
    (Stack.pop_n xs.length (s.push_all xs)).1 = xs.reverse.map Except.ok ∧
    (Stack.pop_n xs.length (s.push_all xs)).2.size_ = s.size_ ∧
    (Stack.pop_n xs.length (s.push_all xs)).2.elements = s.elements := by
  obtain ⟨h1, _, h3, h4⟩ := push_all_pop_n xs s hs
  exact ⟨h1, h3, h4⟩

theorem stack_lifo_witness :
    (Stack.pop_n 9 (((Stack.new : Stack Nat).push 5).push_all [1, 2, 3, 4, 5, 6, 7, 8, 9])).1
      = [.ok 9, .ok 8, .ok 7, .ok 6, .ok 5, .ok 4, .ok 3, .ok 2, .ok 1] ∧
    (Stack.pop_n 9 (((Stack.new : Stack Nat).push 5).push_all
      [1, 2, 3, 4, 5, 6, 7, 8, 9])).2.size_ = 1 ∧
    (Stack.pop_n 9 (((Stack.new : Stack Nat).push 5).push_all
      [1, 2, 3, 4, 5, 6, 7, 8, 9])).2.elements = [5] :=
  stack_lifo ((Stack.new : Stack Nat).push 5) (by decide) [1, 2, 3, 4, 5, 6, 7, 8, 9]

/-- C15: `pop()` fails exactly when `size_` is 0 (with "stack underflow"), `top()` fails
exactly when `size_` is 0 (with "stack is empty"), a failing `pop()` or `top()` leaves the
object unchanged, `top()` never changes the object, and on a non-empty stack `top()`
returns the last of the elements still present; right after `push(x)` that is `x`. -/
theorem stack_underflow {α : Type} [Inhabited α] (s : Stack α) (hs : s.WF) (x : α) :
    ((∃ e, (s.pop).1 = .error e) ↔ s.size_ = 0) ∧
    ((∃ e, (s.top).1 = .error e) ↔ s.size_ = 0) ∧
    (s.size_ = 0 → s.pop = (.error "stack underflow", s) ∧ s.top = (.error "stack is empty", s)) ∧
    (∀ e, (s.pop).1 = .error e → (s.pop).2 = s) ∧
    (s.top).2 = s ∧
    (s.size_ ≠ 0 → ∃ v, (s.top).1 = .ok v ∧ s.elements.getLast? = some v) ∧
    ((s.push x).top).1 = .ok x := by
  have htop : s.size_ ≠ 0 → ∃ v, (s.top).1 = .ok v ∧ s.elements.getLast? = some v := by
    intro hne
    obtain ⟨h1, h2⟩ := hs
    have hlt : s.size_ - 1 < s.data_.length := by omega
    refine ⟨s.data_[s.size_ - 1], ?_, ?_⟩
    · simp only [Stack.top, hne, if_false, List.getD_eq_getElem?_getD,
        List.getElem?_eq_getElem hlt, Option.getD_some]
    · rw [List.getLast?_eq_getElem?, Stack.elements, List.length_take,
        Nat.min_eq_left (by omega), List.getElem?_take_of_lt (by omega),
        List.getElem?_eq_getElem hlt]
  refine ⟨?_, ?_, ?_, ?_, ?_, htop, ?_⟩
  · by_cases h : s.size_ = 0 <;> simp [Stack.pop, h]
  · by_cases h : s.size_ = 0 <;> simp [Stack.top, h]
  · intro h; simp [Stack.pop, Stack.top, h]
  · intro e he
    by_cases h : s.size_ = 0
    · simp [Stack.pop, h]
    · simp [Stack.pop, h] at he
  · by_cases h : s.size_ = 0 <;> simp [Stack.top, h]
  · obtain ⟨p1, p2, p3⟩ := push_spec s x hs
    have hne : (s.push x).size_ ≠ 0 := by omega
    have hlen := p1.2
    have hsz := p1.1
    have hlt : (s.push x).size_ - 1 < (s.push x).data_.length := by omega
    have hl : (s.push x).elements.getLast? = some x := by rw [p3]; simp
    rw [List.getLast?_eq_getElem?, Stack.elements, List.length_take,
      Nat.min_eq_left (by omega), List.getElem?_take_of_lt (by omega)] at hl
    simp only [Stack.top, hne, if_false, List.getD_eq_getElem?_getD, hl, Option.getD_some]

theorem stack_underflow_witness :
    ((∃ e, (((Stack.new : Stack Nat).push 5).push 6).pop.1 = .error e) ↔
      (((Stack.new : Stack Nat).push 5).push 6).size_ = 0) ∧
    (((Stack.new : Stack Nat).push 5).push 6).top.2 = ((Stack.new : Stack Nat).push 5).push 6 ∧
    (((Stack.new : Stack Nat).push 5).push 6).top.1 = .ok 6 ∧
    ((((Stack.new : Stack Nat).push 5).push 6).push 7).top.1 = .ok 7 := by
  have h := stack_underflow (((Stack.new : Stack Nat).push 5).push 6) (by decide) 7
  obtain ⟨v, hv, hl⟩ := h.2.2.2.2.2.1 (by decide)
  have h6 : (((Stack.new : Stack Nat).push 5).push 6).elements.getLast? = some 6 := by decide
  rw [h6] at hl
  rw [← Option.some.inj hl] at hv
  exact ⟨h.1, h.2.2.2.2.1, hv, h.2.2.2.2.2.2⟩

theorem ensure_capacity_inv {α : Type} [Inhabited α] (s : Stack α) (m : Nat) :
    m ≤ (s.ensure_capacity m).capacity_ ∧ (s.ensure_capacity m).size_ = s.size_ := by
  unfold Stack.ensure_capacity
  split
  · rename_i hc; exact ⟨hc, rfl⟩
  · refine ⟨?_, rfl⟩
    have hpos : 1 ≤ (if s.capacity_ = 0 then DEFAULT_CAPACITY else s.capacity_) := by
      split
      · decide
      · omega
    apply grow_capacity_ge
    calc m ≤ 2 ^ m := le_of_lt (Nat.lt_two_pow m)
      _ = 1 * 2 ^ m := (one_mul _).symm
      _ ≤ _ := Nat.mul_le_mul_right _ hpos

theorem push_capacity {α : Type} [Inhabited α] (s : Stack α) (x : α) :
    (s.push x).capacity_ = (s.ensure_capacity (s.size_ + 1)).capacity_ := rfl

/-- C16 (as stated, refuted): on a moved-from stack, which satisfies the invariant with
`size_ = capacity_ = 0`, `push` changes the capacity to `DEFAULT_CAPACITY = 8`, and 8 is
not obtained from 0 by doubling any number of times. -/
theorem push_on_moved_from_not_doubling :
    moved_from_stack.size_ ≤ moved_from_stack.capacity_ ∧
    moved_from_stack.size_ = moved_from_stack.capacity_ ∧
    (moved_from_stack.push 7).capacity_ = 8 ∧
    ¬ ∃ k : Nat, (moved_from_stack.push 7).capacity_ = 2 ^ k * moved_from_stack.capacity_ := by
  refine ⟨by decide, by decide, by decide, ?_⟩
  rintro ⟨k, hk⟩
  have h8 : (moved_from_stack.push 7).capacity_ = 8 := by decide
  have h0 : moved_from_stack.capacity_ = 0 := by decide
  rw [h8, h0] at hk
  simp at hk

/-- C16 (amended): `size_ ≤ capacity_` holds for every stack produced by the constructors
and is preserved by `push`, `pop`, `top`, `clear`, copy construction and assignment, move
construction and assignment (for the object and for the moved-from argument, whose
capacity is 0, and for a push onto it); `clear()` sets `size_` to 0 and keeps
`capacity_`; `push` changes `capacity_` only when `size_ = capacity_`, and then to twice
the capacity when the capacity is positive and to `DEFAULT_CAPACITY = 8` when it is 0. -/
theorem stack_capacity_invariant {α : Type} [Inhabited α] (s o : Stack α)
    (hs : s.size_ ≤ s.capacity_) (ho : o.size_ ≤ o.capacity_) (x : α) (n : Nat) :
    ((Stack.new : Stack α).size_ ≤ (Stack.new : Stack α).capacity_ ∧
      (Stack.with_capacity n : Stack α).size_ ≤ (Stack.with_capacity n : Stack α).capacity_) ∧
    (s.push x).size_ ≤ (s.push x).capacity_ ∧
    (s.pop).2.size_ ≤ (s.pop).2.capacity_ ∧
    (s.top).2.size_ ≤ (s.top).2.capacity_ ∧
    s.clear.size_ ≤ s.clear.capacity_ ∧
    s.copy.size_ ≤ s.copy.capacity_ ∧
    (s.copy_assign o).size_ ≤ (s.copy_assign o).capacity_ ∧
    ((s.move).1.size_ ≤ (s.move).1.capacity_ ∧ (s.move).2.size_ ≤ (s.move).2.capacity_) ∧
    ((s.move_assign o).1.size_ ≤ (s.move_assign o).1.capacity_ ∧
      (s.move_assign o).2.size_ ≤ (s.move_assign o).2.capacity_) ∧
    ((s.move).2.capacity_ = 0 ∧ ((s.move).2.push x).size_ ≤ ((s.move).2.push x).capacity_) ∧
    (s.clear.size_ = 0 ∧ s.clear.capacity_ = s.capacity_) ∧
    ((s.push x).capacity_ ≠ s.capacity_ → s.size_ = s.capacity_) ∧
    (s.size_ = s.capacity_ →
      s.capacity_ < (s.push x).capacity_ ∧
      (s.push x).capacity_ = if s.capacity_ = 0 then DEFAULT_CAPACITY else 2 * s.capacity_) := by
  have hpush : ∀ t : Stack α, (t.push x).size_ ≤ (t.push x).capacity_ := by
    intro t
    obtain ⟨h1, h2⟩ := ensure_capacity_inv t (t.size_ + 1)
    show (t.ensure_capacity (t.size_ + 1)).size_ + 1 ≤ (t.ensure_capacity (t.size_ + 1)).capacity_
    omega
  refine ⟨⟨by simp [Stack.new], by simp [Stack.with_capacity]⟩, hpush s, ?_, ?_, by simp [Stack.clear],
    hs, ?_, ⟨hs, le_rfl⟩, ⟨ho, le_rfl⟩, ⟨rfl, hpush _⟩, ⟨rfl, rfl⟩, ?_, ?_⟩
  · by_cases h : s.size_ = 0
    · simp [Stack.pop, h]
    · simp only [Stack.pop, h, if_false]
      omega
  · by_cases h : s.size_ = 0 <;> simp [Stack.top, h, hs]
  · by_cases h : o.size_ > s.capacity_
    · by_cases h2 : o.capacity_ < o.size_
      · simp only [Stack.copy_assign, h, h2, if_true]
        exact le_rfl
      · simp only [Stack.copy_assign, h, h2, if_true, if_false]
        omega
    · simp only [Stack.copy_assign, h, if_false]
      omega
  · intro hne
    by_contra hlt
    apply hne
    have : s.capacity_ ≥ s.size_ + 1 := by omega
    simp [push_capacity, Stack.ensure_capacity, this]
  · intro heq
    have hnot : ¬ (s.capacity_ ≥ s.size_ + 1) := by omega
    have hcap : (s.push x).capacity_ =
        grow_capacity (s.size_ + 1) (if s.capacity_ = 0 then DEFAULT_CAPACITY else s.capacity_)
          (s.size_ + 1) := by
      simp [push_capacity, Stack.ensure_capacity, hnot]
    by_cases h0 : s.capacity_ = 0
    · have hs0 : s.size_ = 0 := by omega
      rw [hcap, hs0, h0]
      simp [grow_capacity, DEFAULT_CAPACITY]
    · rw [hcap, heq, if_neg h0, if_neg h0, grow_capacity_full _ (by omega)]
      exact ⟨by omega, rfl⟩

theorem stack_capacity_invariant_witness :
    ((Stack.with_capacity 3 : Stack Nat).push_all [1, 2, 3]).size_ =
      ((Stack.with_capacity 3 : Stack Nat).push_all [1, 2, 3]).capacity_ ∧
    (((Stack.with_capacity 3 : Stack Nat).push_all [1, 2, 3]).push 4).capacity_ = 6 ∧
    (((Stack.with_capacity 3 : Stack Nat).push_all [1, 2, 3]).copy_assign
      ((Stack.new : Stack Nat).push_all [1, 2, 3, 4, 5])).size_ ≤
    (((Stack.with_capacity 3 : Stack Nat).push_all [1, 2, 3]).copy_assign
      ((Stack.new : Stack Nat).push_all [1, 2, 3, 4, 5])).capacity_ := by
  have h := stack_capacity_invariant ((Stack.with_capacity 3 : Stack Nat).push_all [1, 2, 3])
    ((Stack.new : Stack Nat).push_all [1, 2, 3, 4, 5]) (by decide) (by decide) 4 0
  exact ⟨by decide, ((h.2.2.2.2.2.2.2.2.2.2.2.2 (by decide)).2).trans (by decide),
    h.2.2.2.2.2.2.1⟩

/-! ## Polynomial: the representation invariant -/

theorem is_zero_iff (x : ℚ) : is_zero x = true ↔ |x| < EPSILON := by
  simp [is_zero]

theorem is_zero_zero : is_zero 0 = true := by
  rw [is_zero_iff]; norm_num [EPSILON]

theorem descending_iff_pairwise (l : List PolyTerm) :
    descending l ↔ l.Pairwise (fun t u => t.exponent > u.exponent) := by
  induction l with
  | nil => simp [descending]
  | cons t rest ih =>
    cases rest with
    | nil => simp [descending]
    | cons u rest =>
      simp only [descending, ih, List.pairwise_cons]
      constructor
      · rintro ⟨h1, h2, h3⟩
        refine ⟨?_, h2, h3⟩
        intro v hv
        rcases List.mem_cons.1 hv with rfl | hv
        · exact h1
        · exact lt_trans (h2 v hv) h1
      · rintro ⟨h1, h2, h3⟩
        exact ⟨h1 u (by simp), h2, h3⟩

theorem invariant_iff (p : Polynomial) : p.Invariant ↔ terms_ok p.head := by
  simp only [Polynomial.Invariant, terms_ok, descending_iff_pairwise]

theorem mem_insert_walk (l : List PolyTerm) (c : ℚ) (e : Int) (hc : is_zero c = false) :
    ∀ u ∈ insert_walk l c e, u ∈ l ∨ (u.exponent = e ∧ is_zero u.coefficient = false) := by
  induction l with
  | nil =>
    intro u hu
    simp only [insert_walk, List.mem_singleton] at hu
    subst hu
    exact Or.inr ⟨rfl, hc⟩
  | cons t rest ih =>
    intro u hu
    simp only [insert_walk] at hu
    split at hu
    · rcases List.mem_cons.1 hu with rfl | hu
      · exact Or.inl (by simp)
      · rcases ih u hu with h | h
        · exact Or.inl (List.mem_cons_of_mem _ h)
        · exact Or.inr h
    · split at hu
      · rename_i heq
        split at hu
        · exact Or.inl (List.mem_cons_of_mem _ hu)
        · rename_i hz
          rcases List.mem_cons.1 hu with rfl | hu
          · exact Or.inr ⟨heq, by simpa using hz⟩
          · exact Or.inl (List.mem_cons_of_mem _ hu)
      · rcases List.mem_cons.1 hu with rfl | hu
        · exact Or.inr ⟨rfl, hc⟩
        · exact Or.inl hu

theorem pairwise_insert_walk (l : List PolyTerm) (c : ℚ) (e : Int) (hc : is_zero c = false)
    (h : l.Pairwise (fun t u => t.exponent > u.exponent)) :
    (insert_walk l c e).Pairwise (fun t u => t.exponent > u.exponent) := by
  induction l with
  | nil => simp [insert_walk]
  | cons t rest ih =>
    rw [List.pairwise_cons] at h
    obtain ⟨h1, h2⟩ := h
    simp only [insert_walk]
    split
    · rename_i hgt
      rw [List.pairwise_cons]
      refine ⟨?_, ih h2⟩
      intro u hu
      rcases mem_insert_walk rest c e hc u hu with hm | ⟨he, _⟩
      · exact h1 u hm
      · rw [he]; exact hgt
    · split
      · split
        · exact h2
        · rw [List.pairwise_cons]
          exact ⟨h1, h2⟩
      · rename_i hgt hne
        have hlt : t.exponent < e := by omega
        rw [List.pairwise_cons, List.pairwise_cons]
        refine ⟨?_, h1, h2⟩
        intro u hu
        rcases List.mem_cons.1 hu with rfl | hu
        · exact hlt
        · exact lt_trans (h1 u hu) hlt

theorem terms_ok_insert_term (l : List PolyTerm) (c : ℚ) (e : Int) (h : terms_ok l) :
    terms_ok (insert_term l c e) := by
  unfold insert_term
  split
  · exact h
  · rename_i hc
    have hc' : is_zero c = false := by simpa using hc
    refine ⟨pairwise_insert_walk l c e hc' h.1, ?_⟩
    intro u hu
    rcases mem_insert_walk l c e hc' u hu with hm | ⟨_, hz⟩
    · exact h.2 u hm
    · intro hlt
      rw [(is_zero_iff _).2 hlt] at hz
      cases hz

theorem terms_ok_nil : terms_ok [] := ⟨List.Pairwise.nil, fun _ h => by cases h⟩

theorem terms_ok_foldl {β : Type} (f : List PolyTerm → β → List PolyTerm)
    (hf : ∀ l b, terms_ok l → terms_ok (f l b)) (bs : List β) :
    ∀ l, terms_ok l → terms_ok (bs.foldl f l) := by
  induction bs with
  | nil => intro l h; exact h
  | cons b bs ih => intro l h; exact ih _ (hf l b h)

theorem copy_terms_eq (l : List PolyTerm) : copy_terms l = l := by
  induction l with
  | nil => rfl
  | cons t rest ih => simp [copy_terms, ih]

theorem ok_addTerm (p : Polynomial) (c : ℚ) (e : Int) (h : terms_ok p.head) :
    terms_ok (p.addTerm c e).head :=
  terms_ok_insert_term _ _ _ h

theorem ok_add_assign (p q : Polynomial) (h : terms_ok p.head) :
    terms_ok (p.add_assign q).head :=
  terms_ok_foldl _ (fun l _ hl => terms_ok_insert_term l _ _ hl) _ _ h

theorem ok_neg (p : Polynomial) : terms_ok p.neg.head :=
  terms_ok_foldl _ (fun l _ hl => terms_ok_insert_term l _ _ hl) _ _ terms_ok_nil

theorem ok_copy (p : Polynomial) (h : terms_ok p.head) : terms_ok p.copy.head := by
  simp only [Polynomial.copy, copy_terms_eq]
  exact h

theorem ok_mul (p q : Polynomial) : terms_ok (p.mul q).head :=
  terms_ok_foldl _ (fun _ _ hl =>
    terms_ok_foldl _ (fun l2 _ hl2 => terms_ok_insert_term l2 _ _ hl2) _ _ hl) _ _ terms_ok_nil

theorem ok_derivative (p : Polynomial) : terms_ok p.derivative.head :=
  terms_ok_foldl _ (fun l t hl => by
    show terms_ok (if t.exponent ≠ 0 then _ else l)
    split
    · exact terms_ok_insert_term l _ _ hl
    · exact hl) _ _ terms_ok_nil

theorem reachable_ok (p : Polynomial) (h : p.Reachable) : terms_ok p.head := by
  induction h with
  | new => exact terms_ok_nil
  | addTerm p c e _ ih => exact ok_addTerm p c e ih
  | add p q _ _ ihp _ => exact ok_add_assign _ q (ok_copy p ihp)
  | add_assign p q _ _ ihp _ => exact ok_add_assign p q ihp
  | sub p q _ _ ihp _ => exact ok_add_assign _ _ (ok_copy p ihp)
  | sub_assign p q _ _ ihp _ => exact ok_add_assign p _ ihp
  | neg p _ _ => exact ok_neg p
  | mul p q _ _ _ _ => exact ok_mul p q
  | mul_assign p q _ _ _ _ => exact ok_mul p q
  | derivative p _ _ => exact ok_derivative p
  | copy p _ ih => exact ok_copy p ih

/-- C17: every polynomial obtained from the empty one by a finite sequence of `addTerm`,
`+`, `+=`, binary `-`, `-=`, unary `-`, `*`, `*=`, `derivative` (and copies) has its terms
in strictly descending order of exponent, so that no two terms share an exponent, and
has no term whose coefficient has magnitude below `EPSILON = 1e-9`. -/
theorem polynomial_invariant (p : Polynomial) (h : p.Reachable) :
    descending p.head ∧ (p.head.map PolyTerm.exponent).Nodup ∧
    (∀ t ∈ p.head, ¬ (|t.coefficient| < EPSILON)) ∧ EPSILON = 1 / 10 ^ 9 := by
  obtain ⟨h1, h2⟩ := reachable_ok p h
  refine ⟨(descending_iff_pairwise _).2 h1, ?_, h2, by norm_num [EPSILON]⟩
  rw [List.Nodup, List.pairwise_map]
  exact h1.imp (fun h => ne_of_gt h)

theorem polynomial_invariant_witness :
    descending (example_polynomial.mul example_polynomial.derivative).head ∧
    ((example_polynomial.mul example_polynomial.derivative).head.map PolyTerm.exponent).Nodup ∧
    (∀ t ∈ (example_polynomial.mul example_polynomial.derivative).head,
      ¬ (|t.coefficient| < EPSILON)) ∧ EPSILON = 1 / 10 ^ 9 :=
  polynomial_invariant _
    (.mul _ _ (.addTerm _ _ _ (.addTerm _ _ _ (.addTerm _ _ _ .new)))
      (.derivative _ (.addTerm _ _ _ (.addTerm _ _ _ (.addTerm _ _ _ .new)))))

/-! ## Polynomial: coefficients after an insertion -/

theorem example_invariant : example_polynomial.Invariant :=
  (invariant_iff _).2
    (reachable_ok _ (.addTerm _ _ _ (.addTerm _ _ _ (.addTerm _ _ _ .new))))

theorem coeff_of_absent (l : List PolyTerm) (e : Int) (h : ∀ t ∈ l, t.exponent ≠ e) :
    coeff_of l e = 0 := by
  induction l with
  | nil => rfl
  | cons t rest ih =>
    have h1 : t.exponent ≠ e := h t (by simp)
    simp only [coeff_of, h1, if_false]
    exact ih (fun u hu => h u (List.mem_cons_of_mem _ hu))

theorem coeff_of_mem (l : List PolyTerm) (h : l.Pairwise (fun t u => t.exponent > u.exponent)) :
    ∀ t ∈ l, coeff_of l t.exponent = t.coefficient := by
  induction l with
  | nil => intro t ht; cases ht
  | cons u rest ih =>
    rw [List.pairwise_cons] at h
    intro t ht
    rcases List.mem_cons.1 ht with rfl | ht
    · simp [coeff_of]
    · have hne : u.exponent ≠ t.exponent := ne_of_gt (h.1 t ht)
      simp only [coeff_of, hne, if_false]
      exact ih h.2 t ht

theorem coeff_of_ne_zero (l : List PolyTerm) (e : Int) (h : coeff_of l e ≠ 0) :
    ∃ t ∈ l, t.exponent = e := by
  by_contra hn
  push_neg at hn
  exact h (coeff_of_absent l e hn)

/-- In a list that satisfies the invariant, a term of exponent `e` exists exactly when
the coefficient at `e` is not 0, and then its magnitude is at least `EPSILON`. -/
theorem has_term_iff (l : List PolyTerm) (h : terms_ok l) (e : Int) :
    ((∃ t ∈ l, t.exponent = e) ↔ coeff_of l e ≠ 0) ∧
    (coeff_of l e ≠ 0 → ¬ (|coeff_of l e| < EPSILON)) := by
  have key : (∃ t ∈ l, t.exponent = e) → ¬ (|coeff_of l e| < EPSILON) := by
    rintro ⟨t, ht, rfl⟩
    rw [coeff_of_mem l h.1 t ht]
    exact h.2 t ht
  have hz : ¬ (|coeff_of l e| < EPSILON) → coeff_of l e ≠ 0 := by
    intro h1 h2
    apply h1
    rw [h2]
    norm_num [EPSILON]
  exact ⟨⟨fun hx => hz (key hx), coeff_of_ne_zero l e⟩, fun hne => key (coeff_of_ne_zero l e hne)⟩

theorem stored_of_not_zero (x : ℚ) (h : ¬ (|x| < EPSILON)) : stored x = x := by
  unfold stored
  have : ¬ (is_zero x = true) := fun hz => h ((is_zero_iff x).1 hz)
  simp [this]

theorem stored_of_zero (x : ℚ) (h : |x| < EPSILON) : stored x = 0 := by
  unfold stored
  simp [(is_zero_iff x).2 h]

theorem stored_ne_zero_iff (x : ℚ) : stored x ≠ 0 ↔ ¬ (|x| < EPSILON) := by
  constructor
  · intro h hlt
    exact h (stored_of_zero x hlt)
  · intro h hx
    rw [stored_of_not_zero x h] at hx
    apply h
    rw [hx]
    norm_num [EPSILON]

theorem coeff_insert_walk_same (l : List PolyTerm) (c : ℚ) (e : Int)
    (hc : is_zero c = false) (h : l.Pairwise (fun t u => t.exponent > u.exponent)) :
    coeff_of (insert_walk l c e) e = stored (coeff_of l e + c) := by
  have hcs : stored (0 + c) = c := by
    rw [zero_add]
    unfold stored
    simp [hc]
  induction l with
  | nil => simp only [insert_walk, coeff_of, if_true, hcs]
  | cons t rest ih =>
    rw [List.pairwise_cons] at h
    obtain ⟨h1, h2⟩ := h
    simp only [insert_walk]
    split
    · rename_i hgt
      have hne : t.exponent ≠ e := ne_of_gt hgt
      simp only [coeff_of, hne, if_false]
      exact ih h2
    · split
      · rename_i heq
        have hrest : coeff_of rest e = 0 :=
          coeff_of_absent rest e (fun u hu => by have := h1 u hu; omega)
        simp only [coeff_of, heq, if_true]
        split
        · rename_i hz
          rw [hrest]
          unfold stored
          simp [hz]
        · rename_i hz
          simp only [coeff_of, heq, if_true]
          unfold stored
          simp [hz]
      · rename_i hgt hne
        have hl : coeff_of (t :: rest) e = 0 := by
          apply coeff_of_absent
          intro u hu
          rcases List.mem_cons.1 hu with rfl | hu
          · exact hne
          · have := h1 u hu; omega
        rw [hl, hcs]
        simp [coeff_of]

theorem coeff_insert_walk_other (l : List PolyTerm) (c : ℚ) (e e2 : Int) (hne : e2 ≠ e) :
    coeff_of (insert_walk l c e) e2 = coeff_of l e2 := by
  induction l with
  | nil => simp [insert_walk, coeff_of, Ne.symm hne]
  | cons t rest ih =>
    simp only [insert_walk]
    split
    · simp only [coeff_of, ih]
    · split
      · rename_i heq
        have h3 : t.exponent ≠ e2 := by rw [heq]; exact Ne.symm hne
        split
        · simp only [coeff_of, h3, if_false]
        · simp only [coeff_of, h3, if_false]
      · simp only [coeff_of, Ne.symm hne, if_false]

theorem filter_insert_walk (l : List PolyTerm) (c : ℚ) (e : Int) :
    (insert_walk l c e).filter (fun t => decide (t.exponent ≠ e)) =
      l.filter (fun t => decide (t.exponent ≠ e)) := by
  induction l with
  | nil => simp [insert_walk]
  | cons t rest ih =>
    simp only [insert_walk]
    split
    · rename_i hgt
      have hne : t.exponent ≠ e := ne_of_gt hgt
      simp only [List.filter_cons, hne, ne_eq, not_false_eq_true, decide_True, if_true, ih]
    · split
      · rename_i heq
        split
        · simp [List.filter_cons, heq]
        · simp [List.filter_cons, heq]
      · simp [List.filter_cons]

theorem coeff_insert_term (l : List PolyTerm) (c : ℚ) (e e2 : Int) (h : terms_ok l) :
    coeff_of (insert_term l c e) e2 =
      if e2 = e ∧ is_zero c = false then stored (coeff_of l e + c) else coeff_of l e2 := by
  unfold insert_term
  by_cases hc : is_zero c = true
  · simp [hc]
  · have hc' : is_zero c = false := by simpa using hc
    simp only [hc, if_false, hc', and_true]
    by_cases he : e2 = e
    · subst he
      simp only [if_true]
      exact coeff_insert_walk_same l c e2 hc' h.1
    · simp only [he, if_false]
      exact coeff_insert_walk_other l c e e2 he

/-- C18: for a polynomial `p` that satisfies the representation invariant, with `old`
the coefficient of `p` at `e` (0 if absent): if `|c| < EPSILON` then `addTerm(c, e)`
leaves `p` unchanged; otherwise afterwards there is a term at `e` with coefficient
`old + c` when `|old + c| ≥ EPSILON`, there is no term at `e` when `|old + c| < EPSILON`,
and the terms of every other exponent are the same, with the same coefficients and in
the same order. -/
theorem addTerm_merge_on_insert (p : Polynomial) (hp : p.Invariant) (c : ℚ) (e : Int) :
    (|c| < EPSILON → p.addTerm c e = p) ∧
    (¬ (|c| < EPSILON) →
      (¬ (|p.coeff e + c| < EPSILON) →
        (p.addTerm c e).has_term e ∧ (p.addTerm c e).coeff e = p.coeff e + c) ∧
      (|p.coeff e + c| < EPSILON → ¬ (p.addTerm c e).has_term e) ∧
      (p.addTerm c e).head.filter (fun t => decide (t.exponent ≠ e)) =
        p.head.filter (fun t => decide (t.exponent ≠ e)) ∧
      (∀ e2, e2 ≠ e → (p.addTerm c e).coeff e2 = p.coeff e2)) := by
  have hok := (invariant_iff p).1 hp
  have hok2 := terms_ok_insert_term p.head c e hok
  constructor
  · intro hc
    have hz := (is_zero_iff c).2 hc
    cases p with
    | mk head => simp [Polynomial.addTerm, insert_term, hz]
  · intro hc
    have hz : is_zero c = false := by
      cases hzc : is_zero c with
      | false => rfl
      | true => exact absurd ((is_zero_iff c).1 hzc) hc
    have hco : coeff_of (insert_term p.head c e) e = stored (coeff_of p.head e + c) := by
      rw [coeff_insert_term p.head c e e hok]
      simp [hz]
    refine ⟨?_, ?_, ?_, ?_⟩
    · intro hs
      replace hs : ¬ (|coeff_of p.head e + c| < EPSILON) := hs
      have h1 : coeff_of (insert_term p.head c e) e = coeff_of p.head e + c := by
        rw [hco, stored_of_not_zero _ hs]
      refine ⟨?_, h1⟩
      apply ((has_term_iff _ hok2 e).1).2
      rw [hco]
      exact (stored_ne_zero_iff _).2 hs
    · intro hs hterm
      replace hs : |coeff_of p.head e + c| < EPSILON := hs
      have := ((has_term_iff _ hok2 e).1).1 hterm
      rw [hco, stored_of_zero _ hs] at this
      exact this rfl
    · show (insert_term p.head c e).filter _ = _
      simp only [insert_term, hz, Bool.false_eq_true, if_false]
      exact filter_insert_walk p.head c e
    · intro e2 he2
      show coeff_of (insert_term p.head c e) e2 = coeff_of p.head e2
      rw [coeff_insert_term p.head c e e2 hok]
      simp [he2]

theorem addTerm_merge_on_insert_witness :
    example_polynomial.Invariant ∧
    ((example_polynomial.addTerm 3 1).has_term 1 ∧
      (example_polynomial.addTerm 3 1).coeff 1 = example_polynomial.coeff 1 + 3) ∧
    ¬ (example_polynomial.addTerm (-5) 0).has_term 0 ∧
    (example_polynomial.addTerm (-5) 0).head = [⟨2, 2⟩, ⟨-1, 1⟩] :=
  ⟨example_invariant,
    ((addTerm_merge_on_insert example_polynomial example_invariant 3 1).2 (by decide!)).1
      (by decide!),
    ((addTerm_merge_on_insert example_polynomial example_invariant (-5) 0).2 (by decide!)).2.1
      (by decide!),
    by decide!⟩

/-! ## Polynomial: addition -/

theorem stored_coeff_of (l : List PolyTerm) (h : terms_ok l) (e : Int) :
    stored (coeff_of l e) = coeff_of l e := by
  by_cases hz : coeff_of l e = 0
  · rw [hz]
    exact stored_of_zero 0 (by norm_num [EPSILON])
  · exact stored_of_not_zero _ ((has_term_iff l h e).2 hz)

theorem stored_idem (x : ℚ) : stored (stored x) = stored x := by
  by_cases h : |x| < EPSILON
  · rw [stored_of_zero x h]
    exact stored_of_zero 0 (by norm_num [EPSILON])
  · rw [stored_of_not_zero x h, stored_of_not_zero x h]

/-- Merging the terms of `bs` one by one into `l` adds the coefficients exponent by
exponent, a sum within `EPSILON` of zero being stored as no term. -/
theorem coeff_foldl_insert (bs : List PolyTerm) :
    ∀ l : List PolyTerm, terms_ok l → terms_ok bs → ∀ e : Int,
      coeff_of (bs.foldl (fun head node => insert_term head node.coefficient node.exponent) l) e
        = stored (coeff_of l e + coeff_of bs e) := by
  induction bs with
  | nil =>
    intro l hl _ e
    simp only [List.foldl_nil, coeff_of, add_zero]
    exact (stored_coeff_of l hl e).symm
  | cons t rest ih =>
    intro l hl hb e
    have hb1 := hb.1
    rw [List.pairwise_cons] at hb1
    have hrest : terms_ok rest := ⟨hb1.2, fun u hu => hb.2 u (List.mem_cons_of_mem _ hu)⟩
    have htz : is_zero t.coefficient = false := by
      cases hzc : is_zero t.coefficient with
      | false => rfl
      | true => exact absurd ((is_zero_iff _).1 hzc) (hb.2 t (by simp))
    have hl2 := terms_ok_insert_term l t.coefficient t.exponent hl
    rw [List.foldl_cons, ih _ hl2 hrest e, coeff_insert_term l _ _ e hl]
    by_cases he : e = t.exponent
    · subst he
      have h0 : coeff_of rest t.exponent = 0 :=
        coeff_of_absent rest _ (fun u hu => ne_of_lt (hb1.1 u hu))
      simp only [htz, and_self, if_true, h0, add_zero, coeff_of]
      exact stored_idem _
    · have he2 : t.exponent ≠ e := fun h => he h.symm
      simp only [he, false_and, if_false, coeff_of, he2]

theorem coeff_add (a b : Polynomial) (ha : terms_ok a.head) (hb : terms_ok b.head) (e : Int) :
    coeff_of (a.add b).head e = stored (coeff_of a.head e + coeff_of b.head e) := by
  show coeff_of (b.head.foldl _ (copy_terms a.head)) e = _
  rw [copy_terms_eq]
  exact coeff_foldl_insert b.head a.head ha hb e

/-- C19: for polynomials `a` and `b` that satisfy the representation invariant and every
exponent `e`: when `coeff(a, e) + coeff(b, e)` (absent counted as 0) has magnitude at
least `EPSILON`, `a + b` has a term of exponent `e` whose coefficient is that sum, and
otherwise `a + b` has no term of exponent `e`.  The sum satisfies the invariant again;
`a` and `b` are values of the model, which `operator+` only reads (it works on a copy of
`a`, equal to `a`). -/
theorem add_coefficientwise (a b : Polynomial) (ha : a.Invariant) (hb : b.Invariant)
    (e : Int) :
    (¬ (|a.coeff e + b.coeff e| < EPSILON) →
      (a.add b).has_term e ∧ (a.add b).coeff e = a.coeff e + b.coeff e) ∧
    (|a.coeff e + b.coeff e| < EPSILON → ¬ (a.add b).has_term e) ∧
    (a.add b).Invariant ∧ a.copy = a := by
  have hoa := (invariant_iff a).1 ha
  have hob := (invariant_iff b).1 hb
  have hsum : terms_ok (a.add b).head := ok_add_assign a.copy b (ok_copy a hoa)
  have hco := coeff_add a b hoa hob e
  refine ⟨?_, ?_, (invariant_iff _).2 hsum, ?_⟩
  · intro hs
    replace hs : ¬ (|coeff_of a.head e + coeff_of b.head e| < EPSILON) := hs
    have h1 : coeff_of (a.add b).head e = coeff_of a.head e + coeff_of b.head e := by
      rw [hco, stored_of_not_zero _ hs]
    refine ⟨?_, h1⟩
    apply ((has_term_iff _ hsum e).1).2
    rw [hco]
    exact (stored_ne_zero_iff _).2 hs
  · intro hs hterm
    replace hs : |coeff_of a.head e + coeff_of b.head e| < EPSILON := hs
    have := ((has_term_iff _ hsum e).1).1 hterm
    rw [hco, stored_of_zero _ hs] at this
    exact this rfl
  · cases a with
    | mk head => simp [Polynomial.copy, copy_terms_eq]

theorem add_coefficientwise_witness :
    example_polynomial.Invariant ∧ example_polynomial.derivative.neg.Invariant ∧
    ((example_polynomial.add example_polynomial.derivative.neg).has_term 2 ∧
      (example_polynomial.add example_polynomial.derivative.neg).coeff 2 =
        example_polynomial.coeff 2 + example_polynomial.derivative.neg.coeff 2) ∧
    (example_polynomial.add example_polynomial.neg).head = [] :=
  ⟨example_invariant, (invariant_iff _).2 (ok_neg _),
    (add_coefficientwise example_polynomial example_polynomial.derivative.neg example_invariant
      ((invariant_iff _).2 (ok_neg _)) 2).1 (by decide!), by decide!⟩

/-! ## Polynomial: evaluation -/

/-- The loop of `power` computes `result * base ^ exp` whenever the iteration bound is at
least the exponent. -/
theorem power_loop_eq (fuel : Nat) : ∀ (k : Nat) (b r : ℚ), k ≤ fuel →
    power_loop fuel b (k : Int) r = r * b ^ k := by
  induction fuel with
  | zero =>
    intro k b r hk
    have : k = 0 := by omega
    subst this
    simp [power_loop]
  | succ fuel ih =>
    intro k b r hk
    by_cases hk0 : k = 0
    · subst hk0; simp [power_loop]
    · have hk0' : (k : Int) ≠ 0 := by exact_mod_cast hk0
      simp only [power_loop, hk0', ne_eq, not_false_eq_true, if_true, land_one, shiftRight_one]
      have hdiv : k / 2 ≤ fuel := by omega
      have hk2 : k = 2 * (k / 2) + k % 2 := by omega
      rw [ih _ _ _ hdiv]
      have hmod : k % 2 = 0 ∨ k % 2 = 1 := by omega
      rcases hmod with hm | hm
      · simp only [hm, Nat.cast_zero, not_true_eq_false, if_false]
        conv_rhs => rw [hk2, hm]
        rw [add_zero, pow_mul, pow_two]
      · simp only [hm, Nat.cast_one, one_ne_zero, not_false_eq_true, if_true]
        conv_rhs => rw [hk2, hm]
        rw [pow_add, pow_mul, pow_two, pow_one]
        ring

theorem power_nonneg (x : ℚ) (e : Int) (he : 0 ≤ e) : power x e = x ^ e.toNat := by
  have hcast : ((e.toNat : Nat) : Int) = e := Int.toNat_of_nonneg he
  have h := power_loop_eq e.toNat e.toNat x 1 le_rfl
  rw [hcast, one_mul] at h
  simp only [power, not_lt.2 he, if_false]
  exact h

theorem power_neg (x : ℚ) (e : Int) (he : e < 0) : power x e = (1 / x) ^ (-e).toNat := by
  have hcast : (((-e).toNat : Nat) : Int) = -e := Int.toNat_of_nonneg (by omega)
  have h := power_loop_eq (-e).toNat (-e).toNat (1 / x) 1 le_rfl
  rw [hcast, one_mul] at h
  simp only [power, he, if_true]
  exact h

theorem power_eq_zpow (x : ℚ) (e : Int) : power x e = x ^ e := by
  by_cases he : 0 ≤ e
  · rw [power_nonneg x e he]
    conv_rhs => rw [← Int.toNat_of_nonneg he]
    rw [zpow_natCast]
  · have he2 : e < 0 := by omega
    rw [power_neg x e he2]
    have : e = -(((-e).toNat : Nat) : Int) := by
      rw [Int.toNat_of_nonneg (by omega)]; ring
    conv_rhs => rw [this]
    rw [zpow_neg, zpow_natCast, one_div, inv_pow]

theorem foldl_evaluate (x : ℚ) (l : List PolyTerm) : ∀ acc : ℚ,
    l.foldl (fun result node => result + node.coefficient * power x node.exponent) acc =
      acc + (l.map (fun t => t.coefficient * x ^ t.exponent)).sum := by
  induction l with
  | nil => intro acc; simp
  | cons t rest ih =>
    intro acc
    rw [List.foldl_cons, ih, List.map_cons, List.sum_cons, power_eq_zpow, add_assoc]

/-- C20: with the arithmetic read as exact, for every polynomial `p` (with or without
the representation invariant) and every `x` that is not 0 when `p` has a term of negative
exponent, `evaluate(x)` is the sum over the terms of `p` of `coefficient * x^exponent`;
the helper `power(x, e)` is `x^e` for `e ≥ 0` and `(1/x)^(-e)` for `e < 0`, which is `x^e`
again; and the polynomial built by `addTerm(2,2)`, `addTerm(-1,1)`, `addTerm(5,0)` has
`evaluate(2) = 11`.  Under the hypothesis on `x` the reciprocal `1 / x` in `power` is
never taken of 0 (second part). -/
theorem evaluate_sum_of_terms (p : Polynomial) (x : ℚ)
    (hx : x ≠ 0 ∨ ∀ t ∈ p.head, 0 ≤ t.exponent) :
    p.evaluate x = (p.head.map (fun t => t.coefficient * x ^ t.exponent)).sum ∧
    (∀ t ∈ p.head, t.exponent < 0 → x ≠ 0) ∧
    (∀ t ∈ p.head, power x t.exponent =
      if 0 ≤ t.exponent then x ^ t.exponent.toNat else (1 / x) ^ (-t.exponent).toNat) ∧
    (∀ e : Int, 0 ≤ e → power x e = x ^ e.toNat) ∧
    (∀ e : Int, e < 0 → x ≠ 0 → power x e = (1 / x) ^ (-e).toNat ∧ power x e = x ^ e) ∧
    example_polynomial.head = [⟨2, 2⟩, ⟨-1, 1⟩, ⟨5, 0⟩] ∧
    example_polynomial.evaluate 2 = 11 := by
  refine ⟨?_, ?_, ?_, fun e he => power_nonneg x e he,
    fun e he _ => ⟨power_neg x e he, power_eq_zpow x e⟩, by decide!, by decide!⟩
  · have h := foldl_evaluate x p.head 0
    rw [zero_add] at h
    exact h
  · intro t ht hneg
    rcases hx with hx | hx
    · exact hx
    · have := hx t ht
      omega
  · intro t _
    by_cases he : 0 ≤ t.exponent
    · simp only [he, if_true]
      exact power_nonneg x _ he
    · simp only [he, if_false]
      exact power_neg x _ (by omega)

theorem evaluate_sum_of_terms_witness :
    ((2 : ℚ) ≠ 0 ∨ ∀ t ∈ example_polynomial.head, 0 ≤ t.exponent) ∧
    example_polynomial.evaluate 2 =
      (example_polynomial.head.map (fun t => t.coefficient * (2 : ℚ) ^ t.exponent)).sum :=
  ⟨Or.inl (by norm_num),
    (evaluate_sum_of_terms example_polynomial 2 (Or.inl (by norm_num))).1⟩

/-! ## Polynomial: derivative, product with zero, subtraction (C21, C22, C26) -/

theorem insert_walk_append (l : List PolyTerm) (c : ℚ) (e : Int)
    (h : ∀ t ∈ l, t.exponent > e) :
    insert_walk l c e = l ++ [{ coefficient := c, exponent := e }] := by
  induction l with
  | nil => rfl
  | cons t rest ih =>
    have ht : t.exponent > e := h t (by simp)
    simp only [insert_walk, ht, if_true, List.cons_append]
    rw [ih (fun u hu => h u (List.mem_cons_of_mem _ hu))]

theorem insert_term_append (l : List PolyTerm) (c : ℚ) (e : Int)
    (hc : ¬ (|c| < EPSILON)) (h : ∀ t ∈ l, t.exponent > e) :
    insert_term l c e = l ++ [{ coefficient := c, exponent := e }] := by
  have hz : ¬ (is_zero c = true) := fun hz => hc ((is_zero_iff c).1 hz)
  simp only [insert_term, hz, if_false]
  exact insert_walk_append l c e h

theorem abs_mul_exponent (c : ℚ) (e : Int) (hc : ¬ (|c| < EPSILON)) (he : e ≠ 0) :
    ¬ (|c * (e : ℚ)| < EPSILON) := by
  have h1 : (1 : ℚ) ≤ |(e : ℚ)| := by
    have : (1 : Int) ≤ |e| := Int.one_le_abs he
    exact_mod_cast this
  have h2 : |c| ≤ |c * (e : ℚ)| := by
    rw [abs_mul]
    exact le_mul_of_one_le_right (abs_nonneg c) h1
  intro h
  exact hc (lt_of_le_of_lt h2 h)

/-- The loop of `derivative` appends one term for every term of non-zero exponent. -/
theorem foldl_derivative (bs : List PolyTerm) : ∀ acc : List PolyTerm, terms_ok bs →
    (∀ a ∈ acc, ∀ t ∈ bs, a.exponent > t.exponent - 1) →
    bs.foldl (fun head node =>
      if node.exponent ≠ 0 then
        insert_term head (node.coefficient * (node.exponent : ℚ)) (node.exponent - 1)
      else head) acc =
    acc ++ (bs.filter (fun t => decide (t.exponent ≠ 0))).map
      (fun t => { coefficient := t.coefficient * (t.exponent : ℚ), exponent := t.exponent - 1 }) := by
  induction bs with
  | nil => intro acc _ _; simp
  | cons t rest ih =>
    intro acc hb hacc
    have hb1 := hb.1
    rw [List.pairwise_cons] at hb1
    have hrest : terms_ok rest := ⟨hb1.2, fun u hu => hb.2 u (List.mem_cons_of_mem _ hu)⟩
    have hacc2 : ∀ a ∈ acc, ∀ u ∈ rest, a.exponent > u.exponent - 1 :=
      fun a ha u hu => hacc a ha u (List.mem_cons_of_mem _ hu)
    rw [List.foldl_cons]
    by_cases he : t.exponent = 0
    · simp only [he, ne_eq, not_true_eq_false, if_false, List.filter_cons, decide_False]
      exact ih acc hrest hacc2
    · have hins := insert_term_append acc (t.coefficient * (t.exponent : ℚ)) (t.exponent - 1)
        (abs_mul_exponent _ _ (hb.2 t (by simp)) he) (fun a ha => hacc a ha t (by simp))
      simp only [he, ne_eq, not_false_eq_true, if_true, List.filter_cons, decide_True,
        List.map_cons]
      rw [hins, ih _ hrest, List.append_assoc, List.singleton_append]
      intro a ha u hu
      rcases List.mem_append.1 ha with ha | ha
      · exact hacc2 a ha u hu
      · simp only [List.mem_singleton] at ha
        subst ha
        have := hb1.1 u hu
        show t.exponent - 1 > u.exponent - 1
        omega

/-- The loop of unary minus appends the negated terms one by one. -/
theorem foldl_neg (bs : List PolyTerm) : ∀ acc : List PolyTerm, terms_ok bs →
    (∀ a ∈ acc, ∀ t ∈ bs, a.exponent > t.exponent) →
    bs.foldl (fun head node => insert_term head (-node.coefficient) node.exponent) acc =
    acc ++ bs.map (fun t => { coefficient := -t.coefficient, exponent := t.exponent }) := by
  induction bs with
  | nil => intro acc _ _; simp
  | cons t rest ih =>
    intro acc hb hacc
    have hb1 := hb.1
    rw [List.pairwise_cons] at hb1
    have hrest : terms_ok rest := ⟨hb1.2, fun u hu => hb.2 u (List.mem_cons_of_mem _ hu)⟩
    have hneg : ¬ (|(-t.coefficient)| < EPSILON) := by
      rw [abs_neg]; exact hb.2 t (by simp)
    rw [List.foldl_cons, insert_term_append acc _ _ hneg (fun a ha => hacc a ha t (by simp)),
      ih _ hrest, List.append_assoc, List.singleton_append, List.map_cons]
    intro a ha u hu
    rcases List.mem_append.1 ha with ha | ha
    · exact hacc a ha u (List.mem_cons_of_mem _ hu)
    · simp only [List.mem_singleton] at ha
      subst ha
      exact hb1.1 u hu

theorem neg_head (p : Polynomial) (h : terms_ok p.head) :
    p.neg.head = p.head.map (fun t => { coefficient := -t.coefficient, exponent := t.exponent }) := by
  have := foldl_neg p.head [] h (fun a ha => by cases ha)
  rw [List.nil_append] at this
  exact this

theorem coeff_of_map_neg (l : List PolyTerm) (e : Int) :
    coeff_of (l.map (fun t => { coefficient := -t.coefficient, exponent := t.exponent })) e =
      -coeff_of l e := by
  induction l with
  | nil => simp [coeff_of]
  | cons t rest ih =>
    simp only [List.map_cons, coeff_of]
    split
    · rfl
    · exact ih

theorem nil_of_coeff_zero (l : List PolyTerm) (h : terms_ok l) (hz : ∀ e, coeff_of l e = 0) :
    l = [] := by
  cases l with
  | nil => rfl
  | cons t rest =>
    exfalso
    have h1 := ((has_term_iff (t :: rest) h t.exponent).1).1 ⟨t, by simp, rfl⟩
    exact h1 (hz t.exponent)

/-- C21: for every polynomial `p` that satisfies the representation invariant, the term
list of `p.derivative()` is the list of the terms of `p` with exponent other than 0, in
the same order, each `(c, e)` replaced by `(c * e, e - 1)`: no term is dropped or merged.
So the derivative of a polynomial whose terms all have exponent 0 (one constant term, or
no term at all) is the empty polynomial.  The member function is `const`: the model
returns a new value and `p` is not changed. -/
theorem derivative_termwise (p : Polynomial) (hp : p.Invariant) :
    p.derivative.head =
      (p.head.filter (fun t => decide (t.exponent ≠ 0))).map
        (fun t => { coefficient := t.coefficient * (t.exponent : ℚ),
                    exponent := t.exponent - 1 }) ∧
    p.derivative.head.length = (p.head.filter (fun t => decide (t.exponent ≠ 0))).length ∧
    ((∀ t ∈ p.head, t.exponent = 0) → p.derivative = Polynomial.new) ∧
    Polynomial.new.derivative = Polynomial.new := by
  have hok := (invariant_iff p).1 hp
  have h := foldl_derivative p.head [] hok (fun a ha => by cases ha)
  rw [List.nil_append] at h
  have hd : p.derivative.head = _ := h
  refine ⟨hd, by rw [hd, List.length_map], ?_, rfl⟩
  intro hall
  have hf : p.head.filter (fun t => decide (t.exponent ≠ 0)) = [] := by
    rw [List.filter_eq_nil_iff]
    intro t ht
    simp [hall t ht]
  have : p.derivative.head = [] := by rw [hd, hf]; rfl
  cases hpd : p.derivative with
  | mk head =>
    rw [hpd] at this
    simp only at this
    rw [this]
    rfl

theorem derivative_termwise_witness :
    example_polynomial.Invariant ∧
    example_polynomial.derivative.head = [⟨4, 1⟩, ⟨-1, 0⟩] ∧
    (Polynomial.new.addTerm 5 0).derivative = Polynomial.new := by
  have h := derivative_termwise example_polynomial example_invariant
  have h5 := derivative_termwise (Polynomial.new.addTerm 5 0)
    ((invariant_iff _).2 (reachable_ok _ (.addTerm _ _ _ .new)))
  exact ⟨example_invariant, h.1.trans (by decide!), h5.2.2.1 (by decide!)⟩

/-- C22: for every polynomial `p`, with `Z` the empty polynomial, `p * Z` and `Z * p` are
the empty polynomial (also through `operator*=`). -/
theorem mul_zero_polynomial (p : Polynomial) :
    p.mul Polynomial.new = Polynomial.new ∧ Polynomial.new.mul p = Polynomial.new ∧
    p.mul_assign Polynomial.new = Polynomial.new ∧
    Polynomial.new.mul_assign p = Polynomial.new := by
  have h1 : p.mul Polynomial.new = Polynomial.new := by
    have : ∀ l : List PolyTerm, l.foldl (fun head (pa : PolyTerm) =>
        ([] : List PolyTerm).foldl (fun head pb =>
          insert_term head (pa.coefficient * pb.coefficient) (pa.exponent + pb.exponent))
          head) [] = [] := by
      intro l
      induction l with
      | nil => rfl
      | cons t rest ih => rw [List.foldl_cons, List.foldl_nil]; exact ih
    show Polynomial.mk _ = Polynomial.mk []
    rw [show Polynomial.new.head = [] from rfl, this]
  exact ⟨h1, rfl, h1, rfl⟩

/-- C26: for every polynomial `p` that satisfies the representation invariant, `p - p` is
the empty polynomial, and `-(-p)` has the term list of `p`; `-p` has the terms of `p`
with negated coefficients, in the same order. -/
theorem sub_self_cancels (p : Polynomial) (hp : p.Invariant) :
    p.sub p = Polynomial.new ∧ p.neg.neg = p ∧ p.neg.neg.head = p.head ∧
    p.neg.head =
      p.head.map (fun t => { coefficient := -t.coefficient, exponent := t.exponent }) := by
  have hok := (invariant_iff p).1 hp
  have hn := neg_head p hok
  have hnn : p.neg.neg.head = p.head := by
    rw [neg_head p.neg (ok_neg p), hn, List.map_map]
    conv_rhs => rw [← List.map_id p.head]
    apply List.map_congr_left
    intro t _
    simp
  have hsub : terms_ok (p.sub p).head := ok_add_assign p.copy p.neg (ok_copy p hok)
  have hco : ∀ e, coeff_of (p.sub p).head e = 0 := by
    intro e
    have h1 : coeff_of (p.sub p).head e =
        stored (coeff_of (copy_terms p.head) e + coeff_of p.neg.head e) :=
      coeff_foldl_insert p.neg.head (copy_terms p.head) (ok_copy p hok) (ok_neg p) e
    rw [h1, copy_terms_eq, hn, coeff_of_map_neg, add_neg_cancel]
    exact stored_of_zero 0 (by norm_num [EPSILON])
  have hnil := nil_of_coeff_zero _ hsub hco
  refine ⟨?_, ?_, hnn, hn⟩
  · cases hps : p.sub p with
    | mk head =>
      rw [hps] at hnil
      simp only at hnil
      rw [hnil]
      rfl
  · cases hpn : p.neg.neg with
    | mk head =>
      rw [hpn] at hnn
      simp only at hnn
      cases p with
      | mk hd => simp only at hnn; rw [hnn]

theorem sub_self_cancels_witness :
    example_polynomial.Invariant ∧
    example_polynomial.sub example_polynomial = Polynomial.new ∧
    example_polynomial.neg.neg = example_polynomial ∧
    example_polynomial.neg.head = [⟨-2, 2⟩, ⟨1, 1⟩, ⟨-5, 0⟩] := by
  have h := sub_self_cancels example_polynomial example_invariant
  exact ⟨example_invariant, h.1, h.2.1, h.2.2.2.trans (by decide!)⟩

/-! ## A sign directly after a binary `+` or `-` (C23) -/

theorem additive_binop (op : Char) (hop : op = '+' ∨ op = '-') (a b : Int) :
    binop op (Fraction.new a 1) (Fraction.new b 1) =
      .ok (Fraction.new (if op = '-' then a - b else a + b) 1) := by
  have hne : ¬ ('-' = '+') := by decide
  have hne2 : ¬ ('+' = '-') := by decide
  rcases hop with rfl | rfl
  · simp only [binop, if_true, hne2, if_false, new_int_one, add_ofRat]
    push_cast
    rfl
  · simp only [binop, hne, if_false, if_true, new_int_one, sub_ofRat]
    push_cast
    rfl

/-- The evaluator on `A op sg B` for literals `A`, `B`, a binary `op` and a sign `sg`,
both `+` or `-`: the pending `op` is applied to `A` and the operand 0 pushed for the
sign, and the sign then acts as the binary operator between `A` and `B`. -/
theorem run_sign_after_additive (A B : List Char) (hA : is_literal A) (hB : is_literal B)
    (op sg : Char) (hop : op = '+' ∨ op = '-') (hsg : sg = '+' ∨ sg = '-') :
    evaluate_input (A ++ op :: sg :: B) =
      .ok ⟨if sg = '-' then (literal_value A : Int) - (literal_value B : Int)
        else (literal_value A : Int) + (literal_value B : Int), 1⟩ := by
  have hne : A ++ op :: sg :: B ≠ [] := by simp
  have hopd : isdigit op = false := by rcases hop with rfl | rfl <;> decide
  have hop1 : op ≠ '(' := by rcases hop with rfl | rfl <;> decide
  have hop2 : op ≠ ')' := by rcases hop with rfl | rfl <;> decide
  have hun : is_unary op (some (Ast.lit A).lastc) = false :=
    not_unary_after_operand _ _ (lastc_operand_end (.lit A) 1 (lit_std A hA 1))
  have hus : is_unary sg (some op) = true := by
    rcases hop with rfl | rfl <;> rcases hsg with rfl | rfl <;> decide
  have hbop : is_binary_operator op := by rcases hop with rfl | rfl <;> decide
  obtain ⟨p, hrun⟩ := sign_run_signs [sg] (some op) 0 (B ++ [])
    (fun ch hch => by simp only [List.mem_singleton] at hch; rw [hch]; exact hsg)
    (by rcases hop with rfl | rfl <;> decide) (literal_head_not_sign B hB [])
  rw [List.append_nil] at hrun
  have hrun2 : sign_run (some op) (sg :: B) 0 = .ok (0 + [sg].count '-', p, B) := hrun
  have hcnt : (if (0 + [sg].count '-') % 2 = 0 then '+' else '-') = sg := by
    rcases hsg with rfl | rfl <;> decide
  have hsgb : is_binary_operator sg := by rcases hsg with rfl | rfl <;> decide
  have hlv : level sg < level op ∨ (level sg = level op ∧ sg ≠ '^') := by
    right
    rcases hop with rfl | rfl <;> rcases hsg with rfl | rfl <;> decide
  have hzero : binop op (Fraction.new (literal_value A) 1) (Fraction.new 0 1) =
      .ok (Fraction.new (literal_value A) 1) := by
    have := additive_binop op hop (literal_value A) 0
    rw [this]
    split_ifs <;> simp
  have hB2 := run_literal B hB p [] (by simp) [Fraction.new (literal_value A) 1] [sg]
  rw [List.append_nil] at hB2
  rw [evaluate_input_eq_run _ hne,
    run_literal A hA none (op :: sg :: B) (by simp [hopd]) [] [],
    run_operator _ _ _ _ _ hopd hop1 hop2 hun]
  simp only [process_operator]
  rw [run_unary _ _ _ _ _ hus, hrun2]
  simp only [hcnt]
  rw [process_operator_pop _ _ _ _ _ _ hbop hsgb hlv, hzero]
  simp only [process_operator]
  rw [hB2, run_nil, finish_pop _ _ _ _ _ hsgb, additive_binop sg hsg]
  simp only [finish, drain, new_int_one_fields]

theorem remove_spaces_sign_pair (A B : List Char) (hA : is_literal A) (hB : is_literal B)
    (op sg : Char) (hop : op = '+' ∨ op = '-') (hsg : sg = '+' ∨ sg = '-') :
    remove_spaces (A ++ op :: sg :: B) = A ++ op :: sg :: B := by
  rw [remove_spaces_append, remove_spaces_literal A hA,
    remove_spaces_cons _ _ (by rcases hop with rfl | rfl <;> decide),
    remove_spaces_cons _ _ (by rcases hsg with rfl | rfl <;> decide),
    remove_spaces_literal B hB]

/-- C23 (what the code does): for all integer literals `a` and `b`, a sign directly after
a binary `+` or `-` takes the place of that operator: `"a--b"` returns `(a - b)/1` and
`"a-+b"` returns `(a + b)/1` (the claim says `(a + b)/1` and `(a - b)/1`), while
`"a+-b"` returns `(a - b)/1` as claimed; `"2--3"` returns `-1/1` and `"2-+3"` returns
`5/1`, although with parentheses `"2-(-3)"` returns `5/1` and `"2-(+3)"` returns `-1/1`. -/
theorem sign_after_additive_operator (A B : List Char) (hA : is_literal A)
    (hB : is_literal B) :
    expression_evaluate (String.mk (A ++ '-' :: '-' :: B)) =
      .ok ⟨(literal_value A : Int) - (literal_value B : Int), 1⟩ ∧
    expression_evaluate (String.mk (A ++ '-' :: '+' :: B)) =
      .ok ⟨(literal_value A : Int) + (literal_value B : Int), 1⟩ ∧
    expression_evaluate (String.mk (A ++ '+' :: '-' :: B)) =
      .ok ⟨(literal_value A : Int) - (literal_value B : Int), 1⟩ ∧
    expression_evaluate "2--3" = .ok ⟨-1, 1⟩ ∧ expression_evaluate "2-+3" = .ok ⟨5, 1⟩ ∧
    expression_evaluate "2+-3" = .ok ⟨-1, 1⟩ ∧
    expression_evaluate "2-(-3)" = .ok ⟨5, 1⟩ ∧ expression_evaluate "2-(+3)" = .ok ⟨-1, 1⟩ := by
  have e : ∀ op sg : Char, (op = '+' ∨ op = '-') → (sg = '+' ∨ sg = '-') →
      expression_evaluate (String.mk (A ++ op :: sg :: B)) =
        .ok ⟨if sg = '-' then (literal_value A : Int) - (literal_value B : Int)
          else (literal_value A : Int) + (literal_value B : Int), 1⟩ := by
    intro op sg hop hsg
    show evaluate_input (remove_spaces (A ++ op :: sg :: B)) = _
    rw [remove_spaces_sign_pair A B hA hB op sg hop hsg,
      run_sign_after_additive A B hA hB op sg hop hsg]
  refine ⟨?_, ?_, ?_, by decide, by decide, by decide, by decide, by decide⟩
  · rw [e '-' '-' (by decide) (by decide)]; simp
  · rw [e '-' '+' (by decide) (by decide)]
    have : ¬ ('+' = '-') := by decide
    simp [this]
  · rw [e '+' '-' (by decide) (by decide)]; simp

theorem sign_after_additive_operator_witness :
    expression_evaluate "12--30" =
      .ok ⟨(literal_value ['1', '2'] : Int) - (literal_value ['3', '0'] : Int), 1⟩ ∧
    expression_evaluate "12-+30" =
      .ok ⟨(literal_value ['1', '2'] : Int) + (literal_value ['3', '0'] : Int), 1⟩ ∧
    expression_evaluate "12--30" = .ok ⟨-18, 1⟩ :=
  ⟨(sign_after_additive_operator ['1', '2'] ['3', '0'] (by decide) (by decide)).1,
    (sign_after_additive_operator ['1', '2'] ['3', '0'] (by decide) (by decide)).2.1,
    by decide⟩

/-! ## The exponent passed to the power routine (C24) -/

/-- C24 (as stated, refuted): the right operand `4294967296/1` reaches the power routine
as the exponent 0, so `0^4294967296` is evaluated as `0^0 = 1/1`, whereas the exact
power of 0 with exponent 4294967296 is `0/1`. -/
theorem power_exponent_narrowed :
    expression_evaluate "0^4294967296" = .ok ⟨1, 1⟩ ∧
    expression_evaluate "0^4294967296" ≠ .ok ⟨0, 1⟩ ∧
    apply_operator [⟨4294967296, 1⟩, ⟨0, 1⟩] '^' = .ok [⟨1, 1⟩] ∧
    Fraction.pow ⟨0, 1⟩ 4294967296 = .ok ⟨0, 1⟩ ∧
    expression_evaluate "2^4294967296" = .ok ⟨1, 1⟩ := by
  refine ⟨by decide, by decide, by decide, ?_, by decide⟩
  have h0 : (⟨0, 1⟩ : Fraction) = Fraction.ofRat 0 := by decide
  rw [h0, pow_ofRat]
  have hz : (0 : ℚ) ^ (4294967296 : Int) = 0 := zero_zpow _ (by norm_num)
  simp [hz]

/-- C24 (amended): applying `^` to the operands `lhs` (below) and `rhs` (on top) fails
with "exponent must be integer" when `rhs.denominator ≠ 1`; when `rhs = n/1` the power
routine is called with `static_cast<int>(n)`, which is `n` itself when `|n| < 2^31` (and
`n` reduced modulo `2^32` into the `int` range otherwise); for `|n| < 2^31` and `lhs` in
normal form the outcome is that of the exact power `lhs^n`: the error "zero cannot be
raised to negative power" when `lhs = 0` and `n < 0`, else the value `lhs^n` in normal
form.  `"0^4294967296"` returns `1/1`. -/
theorem power_operator_exponent (lhs rhs : Fraction) (values : List Fraction)
    (hl : lhs.Normal) :
    (rhs.denominator ≠ 1 →
      apply_operator (rhs :: lhs :: values) '^' = .error "exponent must be integer") ∧
    (rhs.denominator = 1 →
      apply_operator (rhs :: lhs :: values) '^' =
        (lhs.pow (toInt32 rhs.numerator)).map (fun v => v :: values)) ∧
    (rhs.denominator = 1 → -2147483648 < rhs.numerator → rhs.numerator < 2147483648 →
      toInt32 rhs.numerator = rhs.numerator ∧
      apply_operator (rhs :: lhs :: values) '^' =
        if lhs.val = 0 ∧ rhs.numerator < 0 then
          .error "zero cannot be raised to negative power"
        else .ok (Fraction.ofRat (lhs.val ^ rhs.numerator) :: values)) ∧
    toInt32 4294967296 = 0 ∧
    expression_evaluate "0^4294967296" = .ok ⟨1, 1⟩ := by
  have hc : ¬ ('^' = '+') ∧ ¬ ('^' = '-') ∧ ¬ ('^' = '*') ∧ ¬ ('^' = '/') := by decide
  have hgen : rhs.denominator = 1 →
      apply_operator (rhs :: lhs :: values) '^' =
        (lhs.pow (toInt32 rhs.numerator)).map (fun v => v :: values) := by
    intro hd
    simp only [apply_operator, hc.1, hc.2.1, hc.2.2.1, hc.2.2.2, if_false, if_true, hd, ne_eq,
      not_true_eq_false]
    cases lhs.pow (toInt32 rhs.numerator) <;> rfl
  refine ⟨?_, hgen, ?_, by decide, by decide⟩
  · intro hd
    simp only [apply_operator, hc.1, hc.2.1, hc.2.2.1, hc.2.2.2, if_false, if_true, hd, ne_eq,
      not_false_eq_true]
  · intro hd h1 h2
    have hfit := toInt32_of_fits rhs.numerator h1 h2
    refine ⟨hfit, ?_⟩
    rw [hgen hd, hfit]
    conv_lhs => rw [← ofRat_val lhs hl]
    rw [pow_ofRat]
    split_ifs <;> rfl

theorem power_operator_exponent_witness :
    Fraction.Normal ⟨2, 3⟩ ∧
    apply_operator [⟨1, 2⟩, ⟨2, 3⟩, ⟨7, 1⟩] '^' = .error "exponent must be integer" ∧
    (toInt32 (-3) = -3 ∧
    apply_operator [⟨-3, 1⟩, ⟨2, 3⟩, ⟨7, 1⟩] '^' =
      if Fraction.val ⟨2, 3⟩ = 0 ∧ (-3 : Int) < 0 then
        .error "zero cannot be raised to negative power"
      else .ok [Fraction.ofRat (Fraction.val ⟨2, 3⟩ ^ (-3 : Int)), ⟨7, 1⟩]) ∧
    apply_operator [⟨-3, 1⟩, ⟨2, 3⟩, ⟨7, 1⟩] '^' = .ok [⟨27, 8⟩, ⟨7, 1⟩] :=
  ⟨by decide,
    (power_operator_exponent ⟨2, 3⟩ ⟨1, 2⟩ [⟨7, 1⟩] (by decide)).1 (by decide),
    (power_operator_exponent ⟨2, 3⟩ ⟨-3, 1⟩ [⟨7, 1⟩] (by decide)).2.2.1 rfl (by decide)
      (by decide),
    by decide⟩

/-! ## The shape of accepted input (C25) -/

theorem apply_operator_length (values : List Fraction) (op : Char) (values2 : List Fraction)
    (h : apply_operator values op = .ok values2) : values2.length + 1 = values.length := by
  match values with
  | [] => simp [apply_operator] at h
  | [_] => simp [apply_operator] at h
  | b :: a :: values =>
    rw [apply_operator_binop] at h
    split at h
    · cases h; simp
    · cases h

theorem pending_cons (op : Char) (operators : List Char) :
    pending_operators (op :: operators) =
      (if op = '(' then 0 else 1) + pending_operators operators := by
  unfold pending_operators
  by_cases h : op = '('
  · simp [h]
  · simp [h, List.filter_cons]
    omega

theorem process_operator_balance (operators : List Char) : ∀ (values values2 : List Fraction)
    (op : Char) (operators2 : List Char), op ≠ '(' →
    process_operator values operators op = .ok (values2, operators2) →
    values.length + pending_operators operators2 =
      values2.length + pending_operators operators + 1 := by
  induction operators with
  | nil =>
    intro values values2 op operators2 hop h
    simp only [process_operator, Except.ok.injEq, Prod.mk.injEq] at h
    rw [← h.1, ← h.2, pending_cons]
    simp [hop, pending_operators]
  | cons top operators ih =>
    intro values values2 op operators2 hop h
    simp only [process_operator] at h
    split at h
    · cases h
      rw [pending_cons op]
      simp only [hop, if_false]
      omega
    · rename_i htop
      split at h
      · cases h
      · split at h
        · cases h
        · split at h
          · split at h
            · cases h
            · rename_i values3 happ
              have h1 := apply_operator_length _ _ _ happ
              have h2 := ih _ _ _ _ hop h
              rw [pending_cons top]
              simp only [htop, if_false]
              omega
          · cases h
            rw [pending_cons op]
            simp only [hop, if_false]
            omega

theorem collapse_balance (operators : List Char) : ∀ (values values2 : List Fraction)
    (operators2 : List Char), collapse values operators = .ok (values2, operators2) →
    values.length + pending_operators operators2 = values2.length + pending_operators operators := by
  induction operators with
  | nil => intro values values2 operators2 h; simp [collapse] at h
  | cons top operators ih =>
    intro values values2 operators2 h
    simp only [collapse] at h
    split at h
    · rename_i htop
      split at h
      · cases h
      · rename_i values3 happ
        have h1 := apply_operator_length _ _ _ happ
        have h2 := ih _ _ _ h
        rw [pending_cons top]
        simp only [htop, if_false]
        omega
    · rename_i htop
      have : top = '(' := by simpa using htop
      subst this
      cases h
      rw [pending_cons]
      simp

theorem drain_balance (operators : List Char) : ∀ (values values2 : List Fraction),
    drain values operators = .ok values2 →
    values.length = values2.length + pending_operators operators := by
  induction operators with
  | nil => intro values values2 h; simp only [drain] at h; cases h; simp [pending_operators]
  | cons top operators ih =>
    intro values values2 h
    simp only [drain] at h
    split at h
    · cases h
    · rename_i htop
      have h1 : top ≠ '(' := fun h => htop (Or.inl h)
      split at h
      · cases h
      · rename_i values3 happ
        have h2 := apply_operator_length _ _ _ happ
        have h3 := ih _ _ h
        rw [pending_cons top]
        simp only [h1, if_false]
        omega

theorem finish_balance (values : List Fraction) (operators : List Char) (v : Fraction)
    (h : finish values operators = .ok v) :
    values.length = pending_operators operators + 1 := by
  unfold finish at h
  split at h
  · cases h
  · rename_i value hd
    have := drain_balance _ _ _ hd
    simpa [Nat.add_comm] using this
  · cases h

theorem literal_count_skip (ch : Char) (h : isdigit ch = false) (input : List Char) :
    literal_count (ch :: input) = literal_count input := by
  simp [literal_count, h]

theorem binary_count_skip (prev : Option Char) (ch : Char) (h : ¬ is_binary_operator ch)
    (input : List Char) :
    binary_operator_count prev (ch :: input) = binary_operator_count (some ch) input := by
  simp [binary_operator_count, h]

theorem digit_not_binary (ch : Char) (h : isdigit ch = true) : ¬ is_binary_operator ch := by
  rw [isdigit_iff] at h
  intro hb
  rcases hb with rfl | rfl | rfl | rfl | rfl <;> revert h <;> decide

theorem sign_not_digit (ch : Char) (h : ch = '+' ∨ ch = '-') : isdigit ch = false := by
  rcases h with rfl | rfl <;> decide

/-- Reading a literal consumes exactly one literal and no binary operator. -/
theorem count_parse_digits (text : List Char) : ∀ (prev : Option Char) (value : Int),
    starts_with_digit text = true →
    literal_count text = literal_count (parse_digits prev text value).2.2 + 1 ∧
    binary_operator_count prev text =
      binary_operator_count (parse_digits prev text value).2.1 (parse_digits prev text value).2.2 := by
  induction text with
  | nil => intro prev value h; simp [starts_with_digit] at h
  | cons ch text ih =>
    intro prev value h
    have hd : isdigit ch = true := h
    simp only [parse_digits, hd, if_true]
    rw [binary_count_skip prev ch (digit_not_binary ch hd)]
    by_cases hs : starts_with_digit text = true
    · obtain ⟨h1, h2⟩ := ih (some ch) (value * 10 + ((ch.toNat : Int) - ('0'.toNat : Int))) hs
      refine ⟨?_, h2⟩
      simp only [literal_count, hd, hs, true_and, Bool.true_eq_false, if_false, Nat.zero_add]
      exact h1
    · have hs' : starts_with_digit text = false := by simpa using hs
      have hp : parse_digits (some ch) text (value * 10 + ((ch.toNat : Int) - ('0'.toNat : Int)))
          = (value * 10 + ((ch.toNat : Int) - ('0'.toNat : Int)), some ch, text) := by
        cases text with
        | nil => rfl
        | cons d text =>
          have hdd : isdigit d = false := hs'
          simp [parse_digits, hdd]
      rw [hp]
      refine ⟨?_, rfl⟩
      simp only [literal_count, hd, hs', and_self, if_true]
      omega

/-- A sign run contains no literal and no operator in binary position. -/
theorem count_sign_run (input : List Char) : ∀ (prev : Option Char) (count count2 : Nat)
    (prev2 : Option Char) (rest : List Char),
    sign_run prev input count = .ok (count2, prev2, rest) →
    (∀ ch ∈ input.head?, ch = '+' ∨ ch = '-' → is_unary ch prev = true) →
    literal_count input = literal_count rest ∧
    binary_operator_count prev input = binary_operator_count prev2 rest := by
  induction input with
  | nil =>
    intro prev count count2 prev2 rest h _
    simp [sign_run] at h
    rw [h.2.1, h.2.2]
    exact ⟨rfl, rfl⟩
  | cons ch input ih =>
    intro prev count count2 prev2 rest h hu
    simp only [sign_run] at h
    split at h
    · rename_i hch
      split at h
      · cases h
      · have hun : is_unary ch prev = true := hu ch (by simp) hch
        have hnext : ∀ d ∈ input.head?, d = '+' ∨ d = '-' → is_unary d (some ch) = true := by
          intro d _ hd
          rcases hch with rfl | rfl <;> rcases hd with rfl | rfl <;> decide
        obtain ⟨h1, h2⟩ := ih _ _ _ _ _ h hnext
        refine ⟨?_, ?_⟩
        · rw [literal_count_skip ch (sign_not_digit ch hch)]
          exact h1
        · simp only [binary_operator_count, hun, Bool.true_eq_false, and_false, if_false,
            Nat.zero_add]
          exact h2
    · cases h
      exact ⟨rfl, rfl⟩

/-- When the evaluator returns a value, the operands on the stack and the literals still
to come are one more than the operators on the stack and the binary operators still to
come. -/
theorem run_ok_balance (prev : Option Char) (input : List Char) (values : List Fraction)
    (operators : List Char) (v : Fraction) (h : run prev input values operators = .ok v) :
    values.length + literal_count input =
      pending_operators operators + binary_operator_count prev input + 1 := by
  have key := run_induction
    (fun prev input values operators r => ∀ v, r = .ok v →
      (∀ c ∈ operators, c = '(' ∨ is_binary_operator c) ∧
      values.length + literal_count input =
        pending_operators operators + binary_operator_count prev input + 1)
    (fun _ values operators v h => by
      refine ⟨fun c hc => Or.inr (finish_stack_ok values operators v h c hc), ?_⟩
      have := finish_balance values operators v h
      simp only [literal_count, binary_operator_count]
      omega)
    (fun prev ch input values _ _ hd ih v h => by
      obtain ⟨h1, h2⟩ := ih v h
      obtain ⟨h3, h4⟩ := count_parse_digits (ch :: input) prev 0 hd
      refine ⟨h1, ?_⟩
      rw [h3, h4]
      simp only [List.length_cons] at h2
      omega)
    (fun prev input _ operators _ ih v h => by
      obtain ⟨h1, h2⟩ := ih v h
      refine ⟨fun c hc => h1 c (List.mem_cons_of_mem _ hc), ?_⟩
      rw [pending_cons] at h2
      rw [literal_count_skip '(' (by decide), binary_count_skip prev '(' (by decide)]
      simpa using h2)
    (fun _ _ _ _ _ _ v h => by cases h)
    (fun prev input _ _ _ _ _ hc ih v h => by
      obtain ⟨h1, h2⟩ := ih v h
      refine ⟨collapse_stack_ok _ _ _ _ hc h1, ?_⟩
      have h3 := collapse_balance _ _ _ _ hc
      rw [literal_count_skip ')' (by decide), binary_count_skip prev ')' (by decide)]
      omega)
    (fun _ _ _ _ _ _ _ _ v h => by cases h)
    (fun _ _ _ _ _ _ _ _ _ _ _ _ v h => by cases h)
    (fun prev ch input _ _ count prev2 rest _ _ _ hu hs hp ih v h => by
      obtain ⟨h1, h2⟩ := ih v h
      refine ⟨(process_operator_stack_ok _ _ _ _ _ hp h1).2, ?_⟩
      have h3 := process_operator_balance _ _ _ _ _ (by split_ifs <;> decide) hp
      obtain ⟨h4, h5⟩ := count_sign_run _ _ _ _ _ _ hs (fun d hd _ => by
        simp only [List.head?_cons, Option.mem_def, Option.some.injEq] at hd
        rw [← hd]; exact hu)
      rw [h4, h5]
      simp only [List.length_cons] at h3
      omega)
    (fun _ _ _ _ _ _ _ _ _ _ _ v h => by cases h)
    (fun prev ch input _ _ _ _ _ hd hl _ hu hp ih v h => by
      obtain ⟨h1, h2⟩ := ih v h
      obtain ⟨h3, h4⟩ := process_operator_stack_ok _ _ _ _ _ hp h1
      have hb : is_binary_operator ch := by
        rcases h3 with h3 | h3
        · exact absurd h3 hl
        · exact h3
      refine ⟨h4, ?_⟩
      have h5 := process_operator_balance _ _ _ _ _ hl hp
      rw [literal_count_skip ch hd]
      simp only [binary_operator_count, hb, hu, and_self, if_true]
      omega)
    input.length prev input values operators le_rfl
  exact (key v h).2

theorem binary_count_start (input : List Char) :
    binary_operator_count none input = binary_operator_count (some '(') input := by
  cases input with
  | nil => rfl
  | cons ch input =>
    have : is_unary ch none = is_unary ch (some '(') := by simp [is_unary]
    simp only [binary_operator_count, this]

theorem unary_facts (ch p : Char) (h : is_unary ch (some p) = true) :
    (ch = '+' ∨ ch = '-') ∧ p ≠ ')' ∧ isdigit p = false := by
  simp only [is_unary, Bool.and_eq_true, Bool.or_eq_true, decide_eq_true_eq,
    Option.some.injEq] at h
  obtain ⟨h1, h2⟩ := h
  refine ⟨h1, ?_, ?_⟩
  · rintro rfl
    revert h2
    decide
  · rcases h2 with ((((((h2 | h2) | h2) | h2) | h2) | h2) | h2)
    · cases h2
    all_goals (subst h2; decide)

/-- Without operands side by side, the literals of `input` and the operand that ends at
`prev` are at most one more than the binary operators of `input`, and when they are
exactly one more every operator character is followed by the start of an operand. -/
theorem shape_bound (input : List Char) : ∀ (prev : Char), (∀ c ∈ input, known_char c) →
    adjacency_free prev input →
    literal_count input + operand_before prev input ≤
      binary_operator_count (some prev) input + 1 ∧
    (literal_count input + operand_before prev input =
      binary_operator_count (some prev) input + 1 → operators_followed prev input) := by
  induction input with
  | nil =>
    intro prev _ _
    simp only [literal_count, binary_operator_count, operand_before, starts_with_digit]
    refine ⟨by split_ifs <;> omega, ?_⟩
    intro heq
    show ¬ is_binary_operator prev
    intro hb
    have h1 : prev ≠ ')' := (binary_operator_facts prev hb).2.2
    have h2 : ¬ (isdigit prev = true) := fun hd => digit_not_binary prev hd hb
    simp [h1, h2] at heq
  | cons ch input ih =>
    intro prev hk hadj
    obtain ⟨hadj1, hadj2⟩ := hadj
    obtain ⟨ih1, ih2⟩ := ih ch (fun c hc => hk c (List.mem_cons_of_mem _ hc)) hadj2
    have hkc : known_char ch := hk ch (by simp)
    show _ ∧ (_ → (is_binary_operator prev → operand_start ch) ∧ operators_followed ch input)
    by_cases hd : isdigit ch = true
    · -- a digit: counted when it is the last digit of its literal
      have hnb := digit_not_binary ch hd
      have hp : prev ≠ ')' := fun hp => hadj1 (Or.inl ⟨hp, Or.inr hd⟩)
      have hc1 : ch ≠ ')' := (digit_not_paren ch hd).2
      simp only [literal_count, binary_operator_count, operand_before, starts_with_digit, hd,
        hnb, hp, hc1, true_and, false_and, false_or, Bool.true_eq_false, and_false, if_false,
        Nat.zero_add, Nat.add_zero] at ih1 ih2 ⊢
      exact ⟨by omega, fun heq => ⟨fun _ => Or.inl hd, ih2 (by omega)⟩⟩
    · have hd' : isdigit ch = false := by simpa using hd
      by_cases hl : ch = '('
      · subst hl
        have hp : ¬ (prev = ')' ∨ isdigit prev = true) := by
          rintro (hp | hp)
          · exact hadj1 (Or.inl ⟨hp, Or.inl rfl⟩)
          · exact hadj1 (Or.inr ⟨hp, rfl⟩)
        have hnb : ¬ is_binary_operator '(' := by decide
        have hne : ¬ ('(' = ')') := by decide
        simp only [literal_count, binary_operator_count, operand_before, starts_with_digit,
          hd', hnb, hne, hp, Bool.false_eq_true, false_and, false_or, if_false, Nat.zero_add,
          Nat.add_zero, and_true] at ih1 ih2 ⊢
        exact ⟨ih1, fun heq => ⟨fun _ => Or.inr (Or.inl rfl), ih2 heq⟩⟩
      · by_cases hr : ch = ')'
        · subst hr
          have hnb : ¬ is_binary_operator ')' := by decide
          simp only [literal_count, binary_operator_count, operand_before, starts_with_digit,
            hd', hnb, Bool.false_eq_true, false_and, true_or, if_true, if_false, Nat.zero_add,
            and_true] at ih1 ih2 ⊢
          by_cases hp : prev = ')' ∨ isdigit prev = true
          · simp only [hp, if_true]
            refine ⟨by omega, fun heq => ⟨fun hb => ?_, ih2 (by omega)⟩⟩
            rcases hp with hp | hp
            · exact absurd hp (binary_operator_facts prev hb).2.2
            · exact absurd hb (digit_not_binary prev hp)
          · simp only [hp, if_false]
            exact ⟨by omega, fun heq => by omega⟩
        · have hb : is_binary_operator ch := by
            rcases hkc with h | h | h | h | h | h | h | h
            · exact absurd h hd
            · exact Or.inl h
            · exact Or.inr (Or.inl h)
            · exact Or.inr (Or.inr (Or.inl h))
            · exact Or.inr (Or.inr (Or.inr (Or.inl h)))
            · exact Or.inr (Or.inr (Or.inr (Or.inr h)))
            · exact absurd h hl
            · exact absurd h hr
          by_cases hu : is_unary ch (some prev) = true
          · -- a sign in unary position
            obtain ⟨hs, hp1, hp2⟩ := unary_facts ch prev hu
            simp only [literal_count, binary_operator_count, operand_before, starts_with_digit,
              hd', hr, hb, hu, hp1, hp2, Bool.false_eq_true, Bool.true_eq_false, false_and,
              and_false, false_or, or_self, if_false, Nat.zero_add, Nat.add_zero] at ih1 ih2 ⊢
            exact ⟨ih1, fun heq => ⟨fun _ => Or.inr (Or.inr hs), ih2 heq⟩⟩
          · -- an operator in binary position
            have hu' : is_unary ch (some prev) = false := by simpa using hu
            simp only [literal_count, binary_operator_count, operand_before, starts_with_digit,
              hd', hr, hb, hu', Bool.false_eq_true, false_and, and_true, and_self, false_or,
              if_true, if_false, Nat.zero_add, Nat.add_zero] at ih1 ih2 ⊢
            by_cases hp : prev = ')' ∨ isdigit prev = true
            · simp only [hp, if_true]
              refine ⟨by omega, fun heq => ⟨fun hbp => ?_, ih2 (by omega)⟩⟩
              rcases hp with hp | hp
              · exact absurd hp (binary_operator_facts prev hbp).2.2
              · exact absurd hbp (digit_not_binary prev hp)
            · simp only [hp, if_false]
              exact ⟨by omega, fun heq => by omega⟩

theorem adjacency_free_of_pairs (input : List Char) : ∀ (prev : Char),
    (∀ pre c d post, prev :: input = pre ++ c :: d :: post → ¬ operand_adjacent c d) →
    adjacency_free prev input := by
  induction input with
  | nil => intro _ _; trivial
  | cons ch input ih =>
    intro prev h
    refine ⟨h [] prev ch input rfl, ih ch ?_⟩
    intro pre c d post heq
    exact h (prev :: pre) c d post (by rw [heq]; rfl)

theorem followed_of_operators_followed (input : List Char) : ∀ (prev : Char),
    operators_followed prev input →
    ∀ pre c post, input = pre ++ c :: post → is_binary_operator c →
      ∃ d rest, post = d :: rest ∧ operand_start d := by
  induction input with
  | nil => intro _ _ pre c post heq; simp at heq
  | cons ch input ih =>
    intro prev h pre c post heq hc
    obtain ⟨_, h2⟩ := h
    cases pre with
    | nil =>
      simp only [List.nil_append, List.cons.injEq] at heq
      obtain ⟨rfl, rfl⟩ := heq
      cases input with
      | nil => exact absurd hc h2
      | cons d rest => exact ⟨d, rest, rfl, h2.1 hc⟩
    | cons p pre =>
      simp only [List.cons_append, List.cons.injEq] at heq
      exact ih ch h2 pre c post heq.2 hc

/-- C25 (as stated, refuted): `"(2)3+"` is accepted and returns `5/1`, although the `)` is
directly followed by a digit and the input ends with an operator; `"2(3+)"` returns `5/1`
with an operator directly before `)` and a digit directly before `(`.  So neither part
of the claim holds for every accepted input. -/
theorem adjacent_operands_accepted :
    expression_evaluate "(2)3+" = .ok ⟨5, 1⟩ ∧ expression_evaluate "2(3+)" = .ok ⟨5, 1⟩ ∧
    ¬ (∀ (s : String) (v : Fraction), expression_evaluate s = .ok v →
        ∀ pre c post, remove_spaces s.toList = pre ++ c :: post → is_binary_operator c →
          ∃ d rest, post = d :: rest ∧ operand_start d) ∧
    ¬ (∀ (s : String) (v : Fraction), expression_evaluate s = .ok v →
        ∀ pre c d post, remove_spaces s.toList = pre ++ c :: d :: post →
          ¬ operand_adjacent c d) := by
  refine ⟨by decide, by decide, ?_, ?_⟩
  · intro h
    obtain ⟨d, rest, hd, _⟩ := h "(2)3+" ⟨5, 1⟩ (by decide) ['(', '2', ')', '3'] '+' []
      (by decide) (by decide)
    cases hd
  · intro h
    exact h "(2)3+" ⟨5, 1⟩ (by decide) ['(', '2'] ')' '3' ['+'] (by decide) (by decide)

/-- C25 (amended): if `expression_evaluate` returns a value then the input without white
space has exactly one more integer literal than operator characters in binary position
(outside sign runs); and if moreover no operand is immediately followed by another
operand (no `)` directly followed by `(` or by a digit, no digit directly followed by
`(`), then every operator character is immediately followed by the start of an operand
(a digit, `(` or a sign), so that the input does not end with an operator and no
operator stands directly before `)`. -/
theorem accepted_input_shape (s : String) (v : Fraction)
    (h : expression_evaluate s = .ok v) :
    literal_count (remove_spaces s.toList) =
      binary_operator_count none (remove_spaces s.toList) + 1 ∧
    ((∀ pre c d post, remove_spaces s.toList = pre ++ c :: d :: post →
        ¬ operand_adjacent c d) →
      ∀ pre c post, remove_spaces s.toList = pre ++ c :: post → is_binary_operator c →
        ∃ d rest, post = d :: rest ∧ operand_start d) := by
  unfold expression_evaluate at h
  have hne : remove_spaces s.toList ≠ [] := by
    intro hnil
    rw [hnil] at h
    have h0 : evaluate_input [] = .error "expression is empty" := rfl
    rw [h0] at h
    cases h
  rw [evaluate_input_eq_run _ hne] at h
  have hbal := run_ok_balance _ _ _ _ _ h
  have hcount : literal_count (remove_spaces s.toList) =
      binary_operator_count none (remove_spaces s.toList) + 1 := by
    simp only [List.length_nil, Nat.zero_add, pending_operators, List.filter_nil] at hbal
    exact hbal
  refine ⟨hcount, ?_⟩
  intro hadj
  have hfree : adjacency_free '(' (remove_spaces s.toList) := by
    apply adjacency_free_of_pairs
    intro pre c d post heq
    cases pre with
    | nil =>
      simp only [List.nil_append, List.cons.injEq] at heq
      obtain ⟨rfl, _⟩ := heq
      rintro (⟨h1, _⟩ | ⟨h1, _⟩)
      · revert h1; decide
      · revert h1; decide
    | cons p pre =>
      simp only [List.cons_append, List.cons.injEq] at heq
      exact hadj pre c d post heq.2
  obtain ⟨_, hfol⟩ := shape_bound _ '(' (run_ok_known _ _ _ _ _ h).1 hfree
  have hzero : operand_before '(' (remove_spaces s.toList) = 0 := by
    have h1 : ¬ ('(' = ')') := by decide
    have h2 : ¬ (isdigit '(' = true) := by decide
    simp [operand_before, h1, h2]
  rw [hzero, ← binary_count_start, Nat.add_zero] at hfol
  exact followed_of_operators_followed _ '(' (hfol hcount)

theorem accepted_input_shape_witness :
    expression_evaluate "(-1 + 2) * 3" = .ok ⟨3, 1⟩ ∧
    literal_count (remove_spaces "(-1 + 2) * 3".toList) = 3 ∧
    binary_operator_count none (remove_spaces "(-1 + 2) * 3".toList) = 2 ∧
    literal_count (remove_spaces "(-1 + 2) * 3".toList) =
      binary_operator_count none (remove_spaces "(-1 + 2) * 3".toList) + 1 :=
  ⟨by decide, by decide, by decide,
    (accepted_input_shape "(-1 + 2) * 3" ⟨3, 1⟩ (by decide)).1⟩

end Calculator
